import Mathlib

/-!
# Spreadsheet engine: cells, sheet and dependency graph

A shallow embedding of `cell.cpp`, `formula.cpp` and `sheet.cpp`.

* A `std::string` is a Lean `String` (one `char` per character).
* `Sheet::sheet_` (an `unordered_map<Position, unique_ptr<Cell>>`) is an
  association list; the sheet owns exactly one `Cell` per key, so a `Cell*`
  held in `in_refs_` / `out_refs_` is represented by the key of that cell.
* `std::unordered_set<Cell*>` is a list used as a set (insert if absent,
  erase every occurrence).
* Loops and recursions whose termination depends on the state take a fuel
  argument; the outcome `Res.diverge` stands for "no result".
* `double`, the formula parser and printer and `std::stod` are collaborators
  that are not part of the three files; they are the fields of `Collab`.
-/

namespace Spreadsheet

/-! ## Positions -/

/-- A grid coordinate `(row, col)`; both fields are C++ `int`s. -/
structure Position where
  row : Int
  col : Int
deriving DecidableEq

namespace Position

/-- Modelled from the spec: the bound on rows declared in `common.h`
("canonical default 16384×16384"). -/
def MAX_ROWS : Int := 16384

/-- Modelled from the spec: the bound on columns declared in `common.h`. -/
def MAX_COLS : Int := 16384

/-- Modelled from the spec: `Position::IsValid()` (declared in `common.h`):
"both coordinates within `[0, max)`". -/
def IsValid (p : Position) : Bool :=
  decide (0 ≤ p.row) && decide (0 ≤ p.col) &&
    decide (p.row < MAX_ROWS) && decide (p.col < MAX_COLS)

/-- Modelled from the spec: `Position::operator<` (declared in `common.h`):
"lexicographic by `(row, col)`". -/
def lt (a b : Position) : Bool :=
  decide (a.row < b.row) || (decide (a.row = b.row) && decide (a.col < b.col))

end Position

/-! ## Errors and values -/

/-- `FormulaError::Category`. -/
inductive Category where
  | Ref
  | Value
  | Arithmetic
deriving DecidableEq

/-- `FormulaError`: an evaluation error, compared by its category. -/
structure FormulaError where
  category_ : Category
deriving DecidableEq

/-- `FormulaError::ToString`. -/
def FormulaError.ToString (e : FormulaError) : String :=
  match e.category_ with
  | .Ref => "#REF!"
  | .Value => "#VALUE!"
  | .Arithmetic => "#ARITHM!"

/-- What a C++ `throw` can carry in the three files. -/
inductive Thrown where
  | InvalidPositionException
  | FormulaException
  | CircularDependencyException
  /-- `std::get<double>` on a variant that holds another alternative. -/
  | bad_variant_access
  /-- `std::string::at` past the end. -/
  | out_of_range
  /-- A thrown `FormulaError` object (`throw FormulaError{...}`). -/
  | FormulaError (e : FormulaError)
deriving DecidableEq

/-- The outcome of a call on a state of type `σ`: a normal return with the
state after the call, a thrown exception with the state at the throw, or no
result (fuel exhausted: unbounded recursion, or a call through a null
pointer). -/
inductive Res (σ α : Type) where
  | ret (a : α) (s : σ)
  | raise (x : Thrown) (s : σ)
  | diverge
deriving DecidableEq

/-- Sequencing: run `f` on the result and state of a normal return; a throw
or a divergence propagates. -/
def Res.bind {σ α β : Type} (r : Res σ α) (f : α → σ → Res σ β) : Res σ β :=
  match r with
  | .ret a s => f a s
  | .raise x s => .raise x s
  | .diverge => .diverge

/-- The state after the call, when there is one. -/
def Res.state? {σ α : Type} : Res σ α → Option σ
  | .ret _ s => some s
  | .raise _ s => some s
  | .diverge => none

/-- `FormulaInterface::Value = std::variant<double, FormulaError>`. -/
inductive FormulaValue (D : Type) where
  | number (d : D)
  | error (e : FormulaError)
deriving DecidableEq

/-- `CellInterface::Value = std::variant<std::string, double, FormulaError>`. -/
inductive CellValue (D : Type) where
  | text (s : String)
  | number (d : D)
  | error (e : FormulaError)
deriving DecidableEq

/-- `Cell::FormulaImpl::FormulaValueToCellValue`. -/
def FormulaValueToCellValue {D : Type} : FormulaValue D → CellValue D
  | .number d => .number d
  | .error e => .error e

/-! ## The formula AST (collaborator) -/

/-- Unary signs of the expression grammar. -/
inductive UnaryOp where
  | plus
  | minus
deriving DecidableEq

/-- Binary operators of the expression grammar. -/
inductive BinaryOp where
  | add
  | sub
  | mul
  | div
deriving DecidableEq

/-- Modelled from the spec: the expression tree of `FormulaAST` (declared in
`FormulaAST.h`): "supports `+ − × ÷`, unary sign, parentheses, numeric
literals, and cell references". Parentheses only shape the tree. -/
inductive Expr (D : Type) where
  | number (d : D)
  | cell (pos : Position)
  | unary (op : UnaryOp) (e : Expr D)
  | binary (op : BinaryOp) (lhs rhs : Expr D)
deriving DecidableEq

/-- Modelled from the spec: what the three files use and do not define. `D`
is `double`. `ParseFormulaAST` returns `none` when the parser throws;
`PrintFormula` is the canonical expression; `stod s` is `std::stod(s, &pos)`
as `(value, pos)`, `none` when it throws; `binary op a b` is `none` on
"division by zero or non-finite result". -/
structure Collab (D : Type) where
  ParseFormulaAST : String → Option (Expr D)
  PrintFormula : Expr D → String
  stod : String → Option (D × Nat)
  zero : D
  unary : UnaryOp → D → D
  binary : BinaryOp → D → D → Option D

/-- Modelled from the spec: `FormulaAST::GetCells()` (declared in
`FormulaAST.h`), "enumerate referenced positions": every cell reference of the
expression, valid or not, in reading order. -/
def Expr.GetCells {D : Type} : Expr D → List Position
  | .number _ => []
  | .cell pos => [pos]
  | .unary _ e => e.GetCells
  | .binary _ lhs rhs => lhs.GetCells ++ rhs.GetCells

/-- Modelled from the spec: `FormulaAST::Execute(fn)` (declared in
`FormulaAST.h`), "evaluate under a cell-lookup function": literals are
themselves, a reference calls `fn`, an operator evaluates its operands left to
right and "raises `FormulaError::Arithmetic` on division by zero or non-finite
result". An exception leaving `fn` propagates. -/
def Expr.Execute {D σ : Type} (E : Collab D) (fn : σ → Position → Res σ D) :
    Expr D → σ → Res σ D
  | .number d, s => .ret d s
  | .cell pos, s => fn s pos
  | .unary op e, s => (Expr.Execute E fn e s).bind fun v s1 => .ret (E.unary op v) s1
  | .binary op lhs rhs, s =>
    (Expr.Execute E fn lhs s).bind fun a s1 =>
      (Expr.Execute E fn rhs s1).bind fun b s2 =>
        match E.binary op a b with
        | some v => .ret v s2
        | none => .raise (.FormulaError ⟨.Arithmetic⟩) s2

/-! ## `Formula::GetReferencedCells` -/

/-- Insertion of one position into a list sorted by `Position.lt`. -/
def sortedInsert (p : Position) : List Position → List Position
  | [] => [p]
  | q :: rest => if Position.lt q p then q :: sortedInsert p rest else p :: q :: rest

/-- `std::sort(positions.begin(), positions.end())`. -/
def sortPositions : List Position → List Position
  | [] => []
  | p :: rest => sortedInsert p (sortPositions rest)

/-- `std::unique` followed by `erase`: drop every element equal to its
predecessor. -/
def uniquePositions : List Position → List Position
  | [] => []
  | [p] => [p]
  | p :: q :: rest => if p = q then uniquePositions (q :: rest) else p :: uniquePositions (q :: rest)

/-- `Formula::GetReferencedCells`, on the list returned by `ast_.GetCells()`. -/
def Formula.GetReferencedCellsOf (cells : List Position) : List Position :=
  uniquePositions (sortPositions (cells.filter fun pos => pos.IsValid))

/-- `Formula::GetReferencedCells`. -/
def Formula.GetReferencedCells {D : Type} (ast_ : Expr D) : List Position :=
  Formula.GetReferencedCellsOf ast_.GetCells

/-- `Formula::GetExpression`. -/
def Formula.GetExpression {D : Type} (E : Collab D) (ast_ : Expr D) : String :=
  E.PrintFormula ast_

/-! ## Cells -/

/-- `FORMULA_SIGN`. -/
def FORMULA_SIGN : Char := '='

/-- `ESCAPE_SIGN`. -/
def ESCAPE_SIGN : Char := Char.ofNat 39

/-- The three `Cell::Impl` subclasses. `FormulaImpl` holds the parsed formula
and the `mutable std::optional<FormulaInterface::Value> cache_`. -/
inductive Impl (D : Type) where
  | EmptyImpl
  | TextImpl (text_ : String)
  | FormulaImpl (ast_ : Expr D) (cache_ : Option (FormulaValue D))
deriving DecidableEq

/-- A `Cell`: its state and its two edge sets. -/
structure Cell (D : Type) where
  impl_ : Impl D
  in_refs_ : List Position
  out_refs_ : List Position
deriving DecidableEq

/-- `Cell::Cell(Sheet&)`: an Empty cell without edges. -/
def Cell.new {D : Type} : Cell D := ⟨.EmptyImpl, [], []⟩

/-- `Sheet::sheet_`. -/
abbrev Sheet (D : Type) := List (Position × Cell D)

variable {D : Type}

/-- `Impl::GetText` of the three subclasses. -/
def Impl.GetText (E : Collab D) : Impl D → String
  | .EmptyImpl => ""
  | .TextImpl text_ => text_
  | .FormulaImpl ast_ _ => String.singleton FORMULA_SIGN ++ Formula.GetExpression E ast_

/-- `Impl::GetReferencedCells` of the three subclasses. -/
def Impl.GetReferencedCells : Impl D → List Position
  | .FormulaImpl ast_ _ => Formula.GetReferencedCells ast_
  | _ => []

/-- `Impl::IsCacheValid` of the three subclasses. -/
def Impl.IsCacheValid : Impl D → Bool
  | .FormulaImpl _ cache_ => cache_.isSome
  | _ => true

/-- `Impl::InvalidateCache` of the three subclasses. -/
def Impl.InvalidateCache : Impl D → Impl D
  | .FormulaImpl ast_ _ => .FormulaImpl ast_ none
  | impl => impl

/-- The assignment `cache_ = value` in `FormulaImpl::GetValue`. -/
def Impl.setCache (v : FormulaValue D) : Impl D → Impl D
  | .FormulaImpl ast_ _ => .FormulaImpl ast_ (some v)
  | impl => impl

/-- `Cell::GetText`. -/
def Cell.GetText (E : Collab D) (c : Cell D) : String := c.impl_.GetText E

/-- `Cell::GetReferencedCells`. -/
def Cell.GetReferencedCells (c : Cell D) : List Position := c.impl_.GetReferencedCells

/-- `Cell::IsReferenced`. -/
def Cell.IsReferenced (c : Cell D) : Bool := !c.in_refs_.isEmpty

/-- `std::unordered_set::insert` on a set kept as a list. -/
def setInsert (x : Position) (l : List Position) : List Position :=
  if x ∈ l then l else x :: l

/-- `std::unordered_set::erase` on a set kept as a list. -/
def setErase (x : Position) (l : List Position) : List Position :=
  l.filter fun y => decide (y ≠ x)

/-- The statement `in_refs_.insert(x)` on a cell. -/
def Cell.insertIn (x : Position) (c : Cell D) : Cell D :=
  { c with in_refs_ := setInsert x c.in_refs_ }

/-- The statement `in_refs_.erase(x)` on a cell. -/
def Cell.eraseIn (x : Position) (c : Cell D) : Cell D :=
  { c with in_refs_ := setErase x c.in_refs_ }

/-- The statement `out_refs_.insert(x)` on a cell. -/
def Cell.insertOut (x : Position) (c : Cell D) : Cell D :=
  { c with out_refs_ := setInsert x c.out_refs_ }

/-- The statement `out_refs_.clear()` on a cell. -/
def Cell.clearOut (c : Cell D) : Cell D :=
  { c with out_refs_ := [] }

/-- The assignment `impl_ = std::move(impl)` on a cell. -/
def Cell.setImpl (impl : Impl D) (c : Cell D) : Cell D :=
  { c with impl_ := impl }

/-- The call `impl_->InvalidateCache()` on a cell. -/
def Cell.InvalidateCache (c : Cell D) : Cell D :=
  { c with impl_ := c.impl_.InvalidateCache }

/-! ## The sheet as a map -/

namespace Sheet

/-- `sheet_.find(pos)`: the cell stored under `pos`, if any. -/
def find : Sheet D → Position → Option (Cell D)
  | [], _ => none
  | (k, c) :: rest, pos => if k = pos then some c else find rest pos

/-- A member function that updates the cell stored under `pos` in place. -/
def modify (s : Sheet D) (pos : Position) (f : Cell D → Cell D) : Sheet D :=
  s.map fun kc => if kc.1 = pos then (kc.1, f kc.2) else kc

/-- `sheet_.emplace(pos, std::make_unique<Cell>(*this))` on an absent key. -/
def emplace (s : Sheet D) (pos : Position) : Sheet D := s ++ [(pos, Cell.new)]

/-- `sheet_.erase(it)`. -/
def erase (s : Sheet D) (pos : Position) : Sheet D :=
  s.filter fun kc => decide (kc.1 ≠ pos)

/-- The `in_refs_` of the cell at `pos` (nothing for an absent cell). -/
def in_refs (s : Sheet D) (pos : Position) : List Position :=
  match s.find pos with
  | some c => c.in_refs_
  | none => []

/-- The `out_refs_` of the cell at `pos` (nothing for an absent cell). -/
def out_refs (s : Sheet D) (pos : Position) : List Position :=
  match s.find pos with
  | some c => c.out_refs_
  | none => []

end Sheet

/-! ## Reading a value -/

/-- The lambda `formula_function` of `Formula::Evaluate`; `GetValue` is
`cell->GetValue()` on the cell at a position. -/
def formula_function (E : Collab D)
    (GetValue : Sheet D → Position → Res (Sheet D) (CellValue D))
    (s : Sheet D) (pos : Position) : Res (Sheet D) D :=
  if !pos.IsValid then .raise (.FormulaError ⟨.Ref⟩) s
  else
    match s.find pos with
    | none => .ret E.zero s
    | some cell =>
      if (cell.GetText E).isEmpty then .ret E.zero s
      else
        (GetValue s pos).bind fun cell_value s1 =>
          match cell_value with
          | .text string_value =>
            match E.stod string_value with
            | none => .raise (.FormulaError ⟨.Value⟩) s1
            | some (value, pos) =>
              if pos < string_value.length then .raise (.FormulaError ⟨.Value⟩) s1
              else .ret value s1
          | .number d => .ret d s1
          | .error _ => .raise .bad_variant_access s1

/-- `Formula::Evaluate`: run the AST and turn a thrown `FormulaError` into a
value; any other exception propagates. -/
def Formula.Evaluate (E : Collab D)
    (GetValue : Sheet D → Position → Res (Sheet D) (CellValue D))
    (ast_ : Expr D) (s : Sheet D) : Res (Sheet D) (FormulaValue D) :=
  match ast_.Execute E (formula_function E GetValue) s with
  | .ret v s1 => .ret (.number v) s1
  | .raise (.FormulaError error) s1 => .ret (.error error) s1
  | .raise x s1 => .raise x s1
  | .diverge => .diverge

/-- `Cell::GetValue` on the cell at `this`, dispatching to `EmptyImpl`,
`TextImpl` and `FormulaImpl::GetValue`. The fuel bounds the depth of the
recursion through referenced formula cells. -/
def Cell.GetValue (E : Collab D) : Nat → Sheet D → Position → Res (Sheet D) (CellValue D)
  | fuel, s, this =>
    match s.find this with
    | none => .diverge
    | some cell =>
      match cell.impl_ with
      | .EmptyImpl => .ret (.text "") s
      | .TextImpl text_ =>
        match text_.data with
        | [] => .raise .out_of_range s
        | c :: rest =>
          if c = ESCAPE_SIGN then .ret (.text (String.mk rest)) s else .ret (.text text_) s
      | .FormulaImpl _ (some v) => .ret (FormulaValueToCellValue v) s
      | .FormulaImpl ast_ none =>
        match fuel with
        | 0 => .diverge
        | fuel + 1 =>
          (Formula.Evaluate E (Cell.GetValue E fuel) ast_ s).bind fun v s1 =>
            .ret (FormulaValueToCellValue v)
              (s1.modify this fun c => { c with impl_ := c.impl_.setCache v })

/-! ## The dependency graph -/

/-- The `while` loop of `Cell::CheckCircularDependencyToArise`: the stack
`not_visited` has its top first. `none` when the fuel runs out. -/
def dfsLoop (s : Sheet D) (refernced_cells : List Position) :
    Nat → List Position → List Position → Option Bool
  | _, _, [] => some false
  | 0, _, _ :: _ => none
  | fuel + 1, visited, cur_cell :: rest =>
    let visited1 := setInsert cur_cell visited
    if cur_cell ∈ refernced_cells then some true
    else
      dfsLoop s refernced_cells fuel visited1
        ((s.in_refs cur_cell).foldl
          (fun not_visited in_ref => if in_ref ∈ visited1 then not_visited else in_ref :: not_visited)
          rest)

/-- Enough iterations for the loop of the cycle check on `s`. -/
def dfsFuel : Sheet D → Nat
  | [] => 1
  | (_, c) :: rest => 1 + c.in_refs_.length + dfsFuel rest

/-- `Cell::CheckCircularDependencyToArise` for the cell at `this`:
`refernced_cells` holds the cells that exist at the candidate's referenced
positions. -/
def Cell.CheckCircularDependencyToArise (s : Sheet D) (this : Position)
    (impl_to_include : Impl D) : Option Bool :=
  dfsLoop s (impl_to_include.GetReferencedCells.filter fun pos => (s.find pos).isSome)
    (dfsFuel s) [] [this]

/-- `Cell::InvalidateCacheRecursively` on the cell at `this`. `none` when the
fuel (the recursion depth) runs out. -/
def Cell.InvalidateCacheRecursively : Nat → Sheet D → Position → Option (Sheet D)
  | 0, _, _ => none
  | fuel + 1, s, this =>
    let s1 := s.modify this Cell.InvalidateCache
    (s1.in_refs this).foldl
      (fun acc in_ref =>
        match acc with
        | none => none
        | some st =>
          match st.find this with
          | none => some st
          | some c =>
            if c.impl_.IsCacheValid then Cell.InvalidateCacheRecursively fuel st in_ref
            else some st)
      (some s1)

/-- `Cell::UpdateDependencies` on the cell at `this`; `SetCell` is the
re-entrant `sheet_.SetCell(pos, std::string())`. -/
def Cell.UpdateDependencies (SetCell : Sheet D → Position → String → Res (Sheet D) Unit)
    (s : Sheet D) (this : Position) (impl_to_include : Impl D) : Res (Sheet D) Unit :=
  let s1 := (s.out_refs this).foldl (fun st out_ref => st.modify out_ref (Cell.eraseIn this)) s
  let s2 := s1.modify this Cell.clearOut
  impl_to_include.GetReferencedCells.foldl
    (fun acc pos =>
      acc.bind fun _ st =>
        (match st.find pos with
          | none => SetCell st pos ""
          | some _ => .ret () st).bind fun _ st1 =>
          .ret () ((st1.modify this (Cell.insertOut pos)).modify pos (Cell.insertIn this)))
    (.ret () s2)

/-- The candidate state built at the start of `Cell::Set`; `none` when the
`FormulaImpl` constructor throws `FormulaException`. -/
def Cell.makeImpl (E : Collab D) (text : String) : Option (Impl D) :=
  if text.length = 0 then some .EmptyImpl
  else if text.data.head? = some FORMULA_SIGN ∧ text.length > 1 then
    (E.ParseFormulaAST (text.drop 1)).map fun ast => .FormulaImpl ast none
  else some (.TextImpl text)

/-- `Cell::Set` on the cell at `this`. -/
def Cell.Set (E : Collab D) (SetCell : Sheet D → Position → String → Res (Sheet D) Unit)
    (s : Sheet D) (this : Position) (text : String) : Res (Sheet D) Unit :=
  match Cell.makeImpl E text with
  | none => .raise .FormulaException s
  | some impl_to_include =>
    match Cell.CheckCircularDependencyToArise s this impl_to_include with
    | none => .diverge
    | some true => .raise .CircularDependencyException s
    | some false =>
      (Cell.UpdateDependencies SetCell s this impl_to_include).bind fun _ s1 =>
        let s2 := s1.modify this (Cell.setImpl impl_to_include)
        match Cell.InvalidateCacheRecursively (s2.length + 1) s2 this with
        | none => .diverge
        | some s3 => .ret () s3

/-- `Cell::Clear`. -/
def Cell.Clear (E : Collab D) (SetCell : Sheet D → Position → String → Res (Sheet D) Unit)
    (s : Sheet D) (this : Position) : Res (Sheet D) Unit :=
  Cell.Set E SetCell s this ""

/-! ## Sheet operations -/

/-- The body of `Sheet::SetCell`, with the `SetCell` that `Cell::Set` reaches
through `UpdateDependencies` as a parameter. -/
def Sheet.SetCellWith (E : Collab D)
    (SetCell : Sheet D → Position → String → Res (Sheet D) Unit)
    (s : Sheet D) (pos : Position) (text : String) : Res (Sheet D) Unit :=
  if !pos.IsValid then .raise .InvalidPositionException s
  else
    let s1 := if (s.find pos).isNone then s.emplace pos else s
    Cell.Set E SetCell s1 pos text

/-- The re-entrant `sheet_.SetCell(pos, std::string())` of
`UpdateDependencies`. Its candidate is Empty and has no referenced cells, so
its own `UpdateDependencies` makes no further call. -/
def Sheet.SetCellNested (E : Collab D) : Sheet D → Position → String → Res (Sheet D) Unit :=
  Sheet.SetCellWith E fun _ _ _ => .diverge

/-- `Sheet::SetCell`. -/
def Sheet.SetCell (E : Collab D) : Sheet D → Position → String → Res (Sheet D) Unit :=
  Sheet.SetCellWith E (Sheet.SetCellNested E)

/-- `Cell::Set` as `Sheet::SetCell` runs it. -/
def Cell.SetTop (E : Collab D) : Sheet D → Position → String → Res (Sheet D) Unit :=
  Cell.Set E (Sheet.SetCellNested E)

/-- `Sheet::GetCell` / `GetCellInternal`: `none` is `nullptr`. -/
def Sheet.GetCell (s : Sheet D) (pos : Position) : Res (Sheet D) (Option (Cell D)) :=
  if !pos.IsValid then .raise .InvalidPositionException s
  else .ret (s.find pos) s

/-- `Sheet::ClearCell`. -/
def Sheet.ClearCell (E : Collab D) (s : Sheet D) (pos : Position) : Res (Sheet D) Unit :=
  if !pos.IsValid then .raise .InvalidPositionException s
  else
    match s.find pos with
    | none => .ret () s
    | some _ =>
      (Cell.Clear E (Sheet.SetCellNested E) s pos).bind fun _ s1 =>
        match s1.find pos with
        | none => .ret () s1
        | some c => if !c.IsReferenced then .ret () (s1.erase pos) else .ret () s1

/-- The read `GetCell(pos)->GetValue()` of a caller, skipped when `GetCell`
returns `nullptr`. -/
def Sheet.GetValue (E : Collab D) (s : Sheet D) (pos : Position) :
    Res (Sheet D) (Option (CellValue D)) :=
  (Sheet.GetCell s pos).bind fun cell s1 =>
    match cell with
    | none => .ret none s1
    | some _ => (Cell.GetValue E (s1.length + 1) s1 pos).bind fun v s2 => .ret (some v) s2

/-! ## Sequences of calls -/

/-- A call on the sheet. -/
inductive Op where
  | SetCell (pos : Position) (text : String)
  | ClearCell (pos : Position)
  | GetValue (pos : Position)
deriving DecidableEq

/-- An edit: `SetCell` or `ClearCell`. -/
def Op.isEdit : Op → Bool
  | .GetValue _ => false
  | _ => true

/-- The sheet after one call, whether it returned or threw. -/
def applyOp (E : Collab D) (s : Sheet D) : Op → Option (Sheet D)
  | .SetCell pos text => (Sheet.SetCell E s pos text).state?
  | .ClearCell pos => (Sheet.ClearCell E s pos).state?
  | .GetValue pos => (Sheet.GetValue E s pos).state?

/-- The sheet after a sequence of calls on a sheet `s`. -/
def runFrom (E : Collab D) : Sheet D → List Op → Option (Sheet D)
  | s, [] => some s
  | s, op :: ops =>
    match applyOp E s op with
    | none => none
    | some s1 => runFrom E s1 ops

/-- The sheet after a sequence of calls on the sheet of `CreateSheet()`. -/
def run (E : Collab D) (ops : List Op) : Option (Sheet D) := runFrom E [] ops

/-! ## The dependency graph as a relation -/

/-- The edge `a → b` of the dependency graph: `b` is in `out_refs_` of `a`. -/
def outEdge (s : Sheet D) (a b : Position) : Prop := b ∈ s.out_refs a

/-- The back edge followed by the cycle check: `b` is in `in_refs_` of `a`. -/
def inEdge (s : Sheet D) (a b : Position) : Prop := b ∈ s.in_refs a

/-- No cell reaches itself along one or more out-edges. -/
def Acyclic (s : Sheet D) : Prop := ∀ a, ¬ Relation.TransGen (outEdge s) a a

/-- For all cells `A` and `B` of the sheet, `B ∈ out(A) ⇔ A ∈ in(B)`. -/
def InOutSymmetric (s : Sheet D) : Prop :=
  ∀ A B cA cB, s.find A = some cA → s.find B = some cB →
    (B ∈ cA.out_refs_ ↔ A ∈ cB.in_refs_)

/-- The in-sets mirror the out-sets at every position, a position without a
cell having empty sets: `InOutSymmetric`, and no set names a position without a
cell (no dangling `Cell*`). -/
def Symmetric (s : Sheet D) : Prop := ∀ a b, b ∈ s.out_refs a ↔ a ∈ s.in_refs b

/-- The positions referenced by the state of the cell at `pos` (nothing for an
absent cell). -/
def Sheet.refs (s : Sheet D) (pos : Position) : List Position :=
  match s.find pos with
  | some c => c.GetReferencedCells
  | none => []

/-- The state of the cell at `pos`, if there is a cell. -/
def Sheet.impl (s : Sheet D) (pos : Position) : Option (Impl D) :=
  (s.find pos).map fun c => c.impl_

/-- The out-set of every cell holds exactly the positions its state
references. -/
def RefsMatch (s : Sheet D) : Prop := ∀ a b, b ∈ s.out_refs a ↔ b ∈ s.refs a

/-- The graph invariants kept by the edits. -/
structure WellFormed (s : Sheet D) : Prop where
  symmetric : Symmetric s
  acyclic : Acyclic s
  refsMatch : RefsMatch s

/-- The edges after the rewiring that `Set` would do on the cell at `this`: the
old out-edges of `this` are replaced by edges to the cells of `T`. -/
def rewiredEdge (s : Sheet D) (this : Position) (T : List Position) (a b : Position) : Prop :=
  (a ≠ this ∧ b ∈ s.out_refs a) ∨ (a = this ∧ b ∈ T)

/-- The cells that exist at the candidate's referenced positions. -/
def targets (s : Sheet D) (impl_to_include : Impl D) : List Position :=
  impl_to_include.GetReferencedCells.filter fun pos => (s.find pos).isSome

/-- The weight of the cells not yet visited by the cycle check: one plus the
size of the in-set, for each. -/
def unvisitedWeight : Sheet D → List Position → Nat
  | [], _ => 0
  | (k, c) :: rest, visited =>
    (if k ∈ visited then 0 else 1 + c.in_refs_.length) + unvisitedWeight rest visited

/-- What holds at the head of the loop of the cycle check, for the visited set
`V` and the stack `S`. -/
structure DfsInv (s : Sheet D) (T : List Position) (this : Position)
    (V S : List Position) : Prop where
  reach : ∀ x, x ∈ V ∨ x ∈ S → Relation.ReflTransGen (inEdge s) this x
  notT : ∀ x ∈ V, x ∉ T
  start : this ∈ V ∨ this ∈ S
  closed : ∀ x ∈ V, ∀ y ∈ s.in_refs x, y ∈ V ∨ y ∈ S
  above : ∀ pre x post, S = pre ++ x :: post → x ∈ V → ∀ y ∈ s.in_refs x, y ∈ V ∨ y ∈ pre

/-- The first loop of `UpdateDependencies` and `out_refs_.clear()`. -/
def unlink (this : Position) (s : Sheet D) : Sheet D :=
  ((s.out_refs this).foldl (fun st out_ref => st.modify out_ref (Cell.eraseIn this)) s).modify
    this Cell.clearOut

/-- One iteration of the second loop of `UpdateDependencies`, the re-entrant
`SetCell` having created the missing cell. -/
def link (this : Position) (st : Sheet D) (pos : Position) : Sheet D :=
  ((if (st.find pos).isNone then st.emplace pos else st).modify this
    (Cell.insertOut pos)).modify pos (Cell.insertIn this)

/-- The sheet that `UpdateDependencies` leaves. -/
def rewire (s : Sheet D) (this : Position) (refs : List Position) : Sheet D :=
  refs.foldl (link this) (unlink this s)

/-- The sheet after `UpdateDependencies` and `impl_ = std::move(impl_to_include)`. -/
def committed (s : Sheet D) (this : Position) (impl_to_include : Impl D) : Sheet D :=
  (rewire s this impl_to_include.GetReferencedCells).modify this (Cell.setImpl impl_to_include)

/-- The rewiring of `Set` would close a cycle. -/
def CreatesCycle (s : Sheet D) (this : Position) (T : List Position) : Prop :=
  ∃ a, Relation.TransGen (rewiredEdge s this T) a a

/-- Two sheets that differ at most in the caches of their formula cells. -/
def SameUpToCache (s s1 : Sheet D) : Prop :=
  ∀ q, (s1.find q).map Cell.InvalidateCache = (s.find q).map Cell.InvalidateCache

/-! ## A concrete collaborator for the scenarios -/

namespace Demo

/-- Cell `A1`. -/
def A1 : Position := ⟨0, 0⟩
/-- Cell `B1`. -/
def B1 : Position := ⟨0, 1⟩
/-- Cell `C1`. -/
def C1 : Position := ⟨0, 2⟩

/-- A parser for the handful of formulas used in the scenarios, with integers
for numbers. -/
def ParseFormulaAST (expression : String) : Option (Expr Int) :=
  if expression = "A1" then some (.cell A1)
  else if expression = "B1" then some (.cell B1)
  else if expression = "C1" then some (.cell C1)
  else if expression = "1/0" then some (.binary .div (.number 1) (.number 0))
  else if expression = "A1+B1" then some (.binary .add (.cell A1) (.cell B1))
  else none

/-- The canonical expression of the trees of `ParseFormulaAST`. -/
def PrintFormula : Expr Int → String
  | .number d => if d = 0 then "0" else if d = 1 then "1" else "?"
  | .cell pos => if pos = A1 then "A1" else if pos = B1 then "B1" else if pos = C1 then "C1" else "?"
  | .unary .plus e => "+" ++ PrintFormula e
  | .unary .minus e => "-" ++ PrintFormula e
  | .binary .add l r => PrintFormula l ++ "+" ++ PrintFormula r
  | .binary .sub l r => PrintFormula l ++ "-" ++ PrintFormula r
  | .binary .mul l r => PrintFormula l ++ "*" ++ PrintFormula r
  | .binary .div l r => PrintFormula l ++ "/" ++ PrintFormula r

/-- A `stod` that reads the one-digit literals and rejects everything else. -/
def stod (s : String) : Option (Int × Nat) :=
  if s = "1" then some (1, 1)
  else if s = "2" then some (2, 1)
  else none

/-- Integer arithmetic; division by zero has no result. -/
def binary : BinaryOp → Int → Int → Option Int
  | .add, a, b => some (a + b)
  | .sub, a, b => some (a - b)
  | .mul, a, b => some (a * b)
  | .div, a, b => if b = 0 then none else some (a / b)

/-- The unary signs on integers. -/
def unary : UnaryOp → Int → Int
  | .plus, a => a
  | .minus, a => -a

/-- The collaborators of the scenarios. -/
def env : Collab Int := ⟨ParseFormulaAST, PrintFormula, stod, 0, unary, binary⟩

/-- The sheet after `SetCell(A1, "=B1")`: the formula cell `A1` and the Empty
cell created at `B1`. -/
def sheetAB : Sheet Int :=
  [(A1, ⟨.FormulaImpl (.cell B1) none, [], [B1]⟩), (B1, ⟨.EmptyImpl, [A1], []⟩)]

/-- The edits `A1 = "1"`, `B1 = "=A1"`, `C1 = "=B1"` followed by a read of
`C1`, which fills the caches of `B1` and `C1`. -/
def chainOps : List Op :=
  [.SetCell A1 "1", .SetCell B1 "=A1", .SetCell C1 "=B1", .GetValue C1]

/-- The sheet after `chainOps`. -/
def sheetChain : Sheet Int :=
  [(A1, ⟨.TextImpl "1", [B1], []⟩),
   (B1, ⟨.FormulaImpl (.cell A1) (some (.number 1)), [C1], [A1]⟩),
   (C1, ⟨.FormulaImpl (.cell B1) (some (.number 1)), [], [B1]⟩)]

/-- The sheet after `chainOps` and `SetCell(A1, "2")`. -/
def sheetStale : Sheet Int :=
  [(A1, ⟨.TextImpl "2", [B1], []⟩),
   (B1, ⟨.FormulaImpl (.cell A1) none, [C1], [A1]⟩),
   (C1, ⟨.FormulaImpl (.cell B1) (some (.number 1)), [], [B1]⟩)]

/-- The sheet after `SetCell(A1, "=1/0")` and `SetCell(B1, "=A1")`. -/
def sheetDiv : Sheet Int :=
  [(A1, ⟨.FormulaImpl (.binary .div (.number 1) (.number 0)) none, [B1], []⟩),
   (B1, ⟨.FormulaImpl (.cell A1) none, [], [A1]⟩)]

end Demo

/-! ## Printing -/

/-- Modelled from the spec: `Size` (declared in `common.h`), the pair
`(rows, cols)` of C++ `int`s that `GetPrintableSize` starts at `(0, 0)`. -/
structure Size where
  rows : Int
  cols : Int
deriving DecidableEq

/-- The body of the loop of `Sheet::GetPrintableSize` for one entry of
`sheet_`. -/
def growSize (E : Collab D) (result : Size) (it : Position × Cell D) : Size :=
  if !(it.2.GetText E).isEmpty then
    ⟨max result.rows (it.1.row + 1), max result.cols (it.1.col + 1)⟩
  else result

/-- `Sheet::GetPrintableSize`. -/
def Sheet.GetPrintableSize (E : Collab D) (s : Sheet D) : Size :=
  s.foldl (growSize E) ⟨0, 0⟩

/-- The body of the inner loop of `Sheet::PrintTexts`: a tab before every
column but the first, then the text of the cell if there is one. -/
def printField (E : Collab D) (s : Sheet D) (row : Nat) (output : String) (col : Nat) : String :=
  let output := if col > 0 then output ++ "\t" else output
  match s.find ⟨(row : Int), (col : Int)⟩ with
  | some c => output ++ c.GetText E
  | none => output

/-- The inner loop of `Sheet::PrintTexts`: the fields of one row, appended
to `output`. -/
def printRow (E : Collab D) (s : Sheet D) (cols : Nat) (row : Nat) (output : String) : String :=
  (List.range cols).foldl (printField E s row) output

/-- `Sheet::PrintTexts`: what is written to `output`. -/
def Sheet.PrintTexts (E : Collab D) (s : Sheet D) : String :=
  let size := Sheet.GetPrintableSize E s
  (List.range size.rows.toNat).foldl
    (fun (output : String) (row : Nat) => printRow E s size.cols.toNat row output ++ "\n")
    ""

/-- The text of the cell at `(row, col)`, empty for an absent cell. -/
def fieldText (E : Collab D) (s : Sheet D) (row col : Nat) : String :=
  match s.find ⟨(row : Int), (col : Int)⟩ with
  | some c => c.GetText E
  | none => ""

/-- Fields separated by single tab characters. -/
def tabSeparated : List String → String
  | [] => ""
  | [a] => a
  | a :: b :: rest => a ++ "\t" ++ tabSeparated (b :: rest)

/-- The concatenation of a list of strings. -/
def concatAll : List String → String
  | [] => ""
  | a :: rest => a ++ concatAll rest

/-- The output of `PrintTexts` in the words of the spec: one line per row of
the printable size, each the texts of the cells of the row in column order,
separated by single tabs and ended by a newline. -/
def printedTexts (E : Collab D) (s : Sheet D) : String :=
  concatAll ((List.range (Sheet.GetPrintableSize E s).rows.toNat).map fun row =>
    tabSeparated ((List.range (Sheet.GetPrintableSize E s).cols.toNat).map fun col =>
      fieldText E s row col) ++ "\n")

/-! ## The keys of the sheet -/

/-- The positions that hold a cell, in the order of `sheet_`. -/
def Sheet.keys (s : Sheet D) : List Position := s.map fun kc => kc.1

/-- The sheet is a map (one cell per position) and every key is a valid
position. -/
structure KeysOk (s : Sheet D) : Prop where
  nodup : s.keys.Nodup
  valid : ∀ k ∈ s.keys, k.IsValid = true

/-- What one iteration of the second loop of `UpdateDependencies`, for the
referenced position `pos`, does to the cell found at `q` (created if `q = pos`
held none). -/
def linkAt (this q : Position) (o : Option (Cell D)) (pos : Position) : Option (Cell D) :=
  ((o.orElse fun _ => if q = pos then some Cell.new else none).map
    fun c => if q = this then c.insertOut pos else c).map
    fun c => if q = pos then c.insertIn this else c

/-- The `out_refs_` that the second loop of `UpdateDependencies` builds from
the cleared set. -/
def outList (refs : List Position) : List Position :=
  refs.foldl (fun l pos => setInsert pos l) []

/-- The second sheet has the keys of the first, in the same order, and differs
from it at most in the caches of formula cells. -/
def CacheOnly (s s1 : Sheet D) : Prop := SameUpToCache s s1 ∧ s1.keys = s.keys

/-- Whatever state the outcome carries differs from `s` at most in caches. -/
def Res.Keeps {α : Type} (s : Sheet D) (r : Res (Sheet D) α) : Prop :=
  ∀ s1, r.state? = some s1 → CacheOnly s s1

/-- What every sheet reached by calls satisfies. -/
structure Inv (s : Sheet D) : Prop where
  wf : WellFormed s
  keys : KeysOk s

/-- The shape of a sheet on which `Cell::Set` of the same text changes nothing. -/
structure JustSet (s1 : Sheet D) (this : Position) (impl : Impl D) : Prop where
  cell : ∃ c1, s1.find this = some c1 ∧ c1.impl_ = impl ∧
    c1.out_refs_ = outList impl.GetReferencedCells
  fresh : impl.InvalidateCache = impl
  refs : ∀ q ∈ impl.GetReferencedCells, ∃ cq, s1.find q = some cq ∧
    (cq.eraseIn this).insertIn this = cq
  ins : impl.IsCacheValid = true → ∀ r ∈ s1.in_refs this, ∃ cr, s1.find r = some cr ∧
    cr.InvalidateCache = cr

/-- The `while` loop of `Cell::CheckCircularDependencyToArise` with a record of
its iterations: the result together with the cells taken from the top of
`not_visited`, in the order of the iterations. `none` when the fuel runs out. -/
def dfsTrace (s : Sheet D) (refernced_cells : List Position) :
    Nat → List Position → List Position → Option (Bool × List Position)
  | _, _, [] => some (false, [])
  | 0, _, _ :: _ => none
  | fuel + 1, visited, cur_cell :: rest =>
    let visited1 := setInsert cur_cell visited
    if cur_cell ∈ refernced_cells then some (true, [cur_cell])
    else
      (dfsTrace s refernced_cells fuel visited1
        ((s.in_refs cur_cell).foldl
          (fun not_visited in_ref => if in_ref ∈ visited1 then not_visited else in_ref :: not_visited)
          rest)).map fun r => (r.1, cur_cell :: r.2)

/-- `Cell::CheckCircularDependencyToArise` for the cell at `this`, with the
record of its iterations. -/
def Cell.CheckCircularDependencyTrace (s : Sheet D) (this : Position)
    (impl_to_include : Impl D) : Option (Bool × List Position) :=
  dfsTrace s (impl_to_include.GetReferencedCells.filter fun pos => (s.find pos).isSome)
    (dfsFuel s) [] [this]

namespace Demo

/-- Cell `C3`. -/
def C3 : Position := ⟨2, 2⟩

/-- The sheet after `SetCell(C3, "x")`. -/
def sheetC3 : Sheet Int := [(C3, ⟨.TextImpl "x", [], []⟩)]

/-- The sheet after `SetCell(B1, "=A1")` and `SetCell(C1, "=A1+B1")`: `A1` is
referenced by `B1` and `C1`, and `B1` by `C1`. -/
def sheetTriangle : Sheet Int :=
  [(B1, ⟨.FormulaImpl (.cell A1) none, [C1], [A1]⟩),
   (A1, ⟨.EmptyImpl, [C1, B1], []⟩),
   (C1, ⟨.FormulaImpl (.binary .add (.cell A1) (.cell B1)) none, [], [B1, A1]⟩)]

end Demo

/-! # Theorems -/

/-! ## Lookup after the map primitives -/

namespace Sheet

theorem find_nil (q : Position) : find ([] : Sheet D) q = none := rfl

theorem find_cons (k : Position) (c : Cell D) (rest : Sheet D) (q : Position) :
    find ((k, c) :: rest) q = if k = q then some c else find rest q := rfl

theorem modify_nil (pos : Position) (f : Cell D → Cell D) :
    modify ([] : Sheet D) pos f = [] := rfl

theorem modify_cons (k : Position) (c : Cell D) (rest : Sheet D) (pos : Position)
    (f : Cell D → Cell D) :
    modify ((k, c) :: rest) pos f = (k, if k = pos then f c else c) :: modify rest pos f := by
  unfold modify
  by_cases h : k = pos <;> simp [h]

theorem erase_nil (pos : Position) : erase ([] : Sheet D) pos = [] := rfl

theorem erase_cons (k : Position) (c : Cell D) (rest : Sheet D) (pos : Position) :
    erase ((k, c) :: rest) pos = if k = pos then erase rest pos else (k, c) :: erase rest pos := by
  unfold erase
  by_cases h : k = pos <;> simp [h]

theorem find_append (s t : Sheet D) (q : Position) :
    find (s ++ t) q = (find s q).orElse fun _ => find t q := by
  induction s with
  | nil => simp [find_nil]
  | cons kc rest ih =>
    obtain ⟨k, c⟩ := kc
    rw [List.cons_append, find_cons, find_cons, ih]
    by_cases h : k = q <;> simp [h]

theorem find_modify (s : Sheet D) (pos : Position) (f : Cell D → Cell D) (q : Position) :
    find (s.modify pos f) q = if q = pos then (find s q).map f else find s q := by
  induction s with
  | nil => simp [modify_nil, find_nil]
  | cons kc rest ih =>
    obtain ⟨k, c⟩ := kc
    rw [modify_cons, find_cons, find_cons, ih]
    by_cases hk : k = q
    · subst hk
      by_cases hq : k = pos <;> simp [hq]
    · simp [hk]

theorem find_emplace (s : Sheet D) (pos q : Position) (h : find s pos = none) :
    find (s.emplace pos) q = if q = pos then some Cell.new else find s q := by
  unfold emplace
  rw [find_append, find_cons, find_nil]
  by_cases hq : q = pos
  · subst hq; simp [h]
  · have : ¬ pos = q := fun e => hq e.symm
    simp [hq, this]

theorem find_erase (s : Sheet D) (pos q : Position) :
    find (s.erase pos) q = if q = pos then none else find s q := by
  induction s with
  | nil => simp [erase_nil, find_nil]
  | cons kc rest ih =>
    obtain ⟨k, c⟩ := kc
    rw [erase_cons, find_cons]
    by_cases hk : k = pos
    · rw [if_pos hk, ih]
      by_cases hq : q = pos
      · simp [hq]
      · have : ¬ k = q := fun e => hq (e ▸ hk)
        simp [hq, this]
    · rw [if_neg hk, find_cons, ih]
      by_cases hq : q = pos
      · have : ¬ k = q := fun e => hk (e.trans hq)
        simp [hq, this, hk]
      · simp [hq]

theorem length_modify (s : Sheet D) (pos : Position) (f : Cell D → Cell D) :
    (s.modify pos f).length = s.length := by
  simp [modify]

theorem modify_of_find_none (s : Sheet D) (pos : Position) (f : Cell D → Cell D)
    (h : find s pos = none) : s.modify pos f = s := by
  induction s with
  | nil => rfl
  | cons kc rest ih =>
    obtain ⟨k, c⟩ := kc
    rw [find_cons] at h
    by_cases hk : k = pos
    · simp [hk] at h
    · rw [if_neg hk] at h
      rw [modify_cons, if_neg hk, ih h]

theorem modify_append (s t : Sheet D) (pos : Position) (f : Cell D → Cell D) :
    (s ++ t).modify pos f = s.modify pos f ++ t.modify pos f := by
  simp [modify]

theorem in_refs_modify (s : Sheet D) (pos : Position) (f : Cell D → Cell D) (q : Position) :
    (s.modify pos f).in_refs q
      = if q = pos then (match find s q with | some c => (f c).in_refs_ | none => []) else s.in_refs q := by
  unfold in_refs
  rw [find_modify]
  by_cases hq : q = pos
  · simp only [hq, if_true]
    cases find s pos <;> rfl
  · simp [hq]

theorem out_refs_modify (s : Sheet D) (pos : Position) (f : Cell D → Cell D) (q : Position) :
    (s.modify pos f).out_refs q
      = if q = pos then (match find s q with | some c => (f c).out_refs_ | none => []) else s.out_refs q := by
  unfold out_refs
  rw [find_modify]
  by_cases hq : q = pos
  · simp only [hq, if_true]
    cases find s pos <;> rfl
  · simp [hq]

end Sheet

/-! ## The cycle check -/

theorem push_spec (V : List Position) (l : List Position) :
    ∀ st : List Position, ∃ P,
      l.foldl (fun not_visited in_ref => if in_ref ∈ V then not_visited else in_ref :: not_visited) st
        = P ++ st ∧ (∀ y, y ∈ P ↔ y ∈ l ∧ y ∉ V) ∧ P.length ≤ l.length := by
  induction l with
  | nil => intro st; exact ⟨[], by simp⟩
  | cons a l ih =>
    intro st
    by_cases ha : a ∈ V
    · obtain ⟨P, h1, h2, h3⟩ := ih st
      refine ⟨P, ?_, ?_, ?_⟩
      · simp only [List.foldl_cons, ha, if_true]; exact h1
      · intro y
        rw [h2 y]
        constructor
        · rintro ⟨h, hv⟩; exact ⟨List.mem_cons_of_mem _ h, hv⟩
        · rintro ⟨h, hv⟩
          rcases List.mem_cons.mp h with rfl | h
          · exact absurd ha hv
          · exact ⟨h, hv⟩
      · simp only [List.length_cons]; omega
    · obtain ⟨P, h1, h2, h3⟩ := ih (a :: st)
      refine ⟨P ++ [a], ?_, ?_, ?_⟩
      · simp only [List.foldl_cons, ha, if_false]
        rw [h1]; simp
      · intro y
        rw [List.mem_append, h2 y]
        constructor
        · rintro (⟨h, hv⟩ | h)
          · exact ⟨List.mem_cons_of_mem _ h, hv⟩
          · have : y = a := by simpa using h
            subst this; exact ⟨List.mem_cons_self _ _, ha⟩
        · rintro ⟨h, hv⟩
          rcases List.mem_cons.mp h with rfl | h
          · right; simp
          · left; exact ⟨h, hv⟩
      · simp only [List.length_append, List.length_cons, List.length_nil]; omega

theorem unvisitedWeight_cons_le (s : Sheet D) (x : Position) (V : List Position) :
    unvisitedWeight s (x :: V) ≤ unvisitedWeight s V := by
  induction s with
  | nil => simp [unvisitedWeight]
  | cons kc rest ih =>
    obtain ⟨k, c⟩ := kc
    simp only [unvisitedWeight]
    by_cases hk : k ∈ V
    · have : k ∈ x :: V := List.mem_cons_of_mem _ hk
      simp only [hk, this, if_true]; omega
    · by_cases hk2 : k ∈ x :: V
      · simp only [hk, hk2, if_true, if_false]; omega
      · simp only [hk, hk2, if_false]; omega

theorem unvisitedWeight_visit (s : Sheet D) (x : Position) (V : List Position) (hx : x ∉ V) :
    unvisitedWeight s (x :: V) + (s.in_refs x).length ≤ unvisitedWeight s V := by
  induction s with
  | nil => simp [unvisitedWeight, Sheet.in_refs, Sheet.find_nil]
  | cons kc rest ih =>
    obtain ⟨k, c⟩ := kc
    simp only [unvisitedWeight]
    by_cases hk : k = x
    · subst hk
      have h1 : k ∈ k :: V := List.mem_cons_self _ _
      have h2 : Sheet.in_refs ((k, c) :: rest) k = c.in_refs_ := by
        simp [Sheet.in_refs, Sheet.find_cons]
      have h3 := unvisitedWeight_cons_le rest k V
      simp only [h1, hx, if_true, if_false, h2]; omega
    · have h2 : Sheet.in_refs ((k, c) :: rest) x = Sheet.in_refs rest x := by
        simp [Sheet.in_refs, Sheet.find_cons, hk]
      have h4 : (k ∈ x :: V) ↔ k ∈ V := by
        simp [List.mem_cons, hk]
      rw [h2]
      by_cases hkV : k ∈ V
      · have := h4.mpr hkV
        simp only [hkV, this, if_true]; omega
      · have : ¬ k ∈ x :: V := fun h => hkV (h4.mp h)
        simp only [hkV, this, if_false]; omega

theorem dfsFuel_eq (s : Sheet D) : dfsFuel s = 1 + unvisitedWeight s [] := by
  induction s with
  | nil => rfl
  | cons kc rest ih =>
    obtain ⟨k, c⟩ := kc
    simp only [dfsFuel, unvisitedWeight, ih, List.not_mem_nil, if_false]; omega

theorem DfsInv.step {s : Sheet D} {T : List Position} {this cur : Position}
    {V rest P : List Position} (inv : DfsInv s T this V (cur :: rest)) (hcur : cur ∉ T)
    (hP : ∀ y, y ∈ P ↔ y ∈ s.in_refs cur ∧ y ∉ (setInsert cur V)) :
    DfsInv s T this (setInsert cur V) (P ++ rest) := by
  have hV1 : ∀ x, x ∈ (setInsert cur V) ↔ x ∈ V ∨ x = cur := by
    intro x
    unfold setInsert
    by_cases h : cur ∈ V
    · simp only [h, if_true]
      constructor
      · exact Or.inl
      · rintro (h1 | rfl)
        · exact h1
        · exact h
    · simp only [h, if_false, List.mem_cons]
      tauto
  have hcurR : Relation.ReflTransGen (inEdge s) this cur :=
    inv.reach cur (Or.inr (List.mem_cons_self _ _))
  refine ⟨?_, ?_, ?_, ?_, ?_⟩
  · intro x hx
    rcases hx with hx | hx
    · rcases (hV1 x).mp hx with hx | rfl
      · exact inv.reach x (Or.inl hx)
      · exact hcurR
    · rcases List.mem_append.mp hx with hx | hx
      · exact Relation.ReflTransGen.tail hcurR ((hP x).mp hx).1
      · exact inv.reach x (Or.inr (List.mem_cons_of_mem _ hx))
  · intro x hx
    rcases (hV1 x).mp hx with hx | rfl
    · exact inv.notT x hx
    · exact hcur
  · rcases inv.start with h | h
    · exact Or.inl ((hV1 this).mpr (Or.inl h))
    · rcases List.mem_cons.mp h with h | h
      · exact Or.inl ((hV1 this).mpr (Or.inr h))
      · exact Or.inr (List.mem_append_right _ h)
  · intro x hx y hy
    by_cases hyV : y ∈ (setInsert cur V)
    · exact Or.inl hyV
    · right
      rcases (hV1 x).mp hx with hx | rfl
      · rcases inv.closed x hx y hy with h | h
        · exact absurd ((hV1 y).mpr (Or.inl h)) hyV
        · rcases List.mem_cons.mp h with h | h
          · exact absurd ((hV1 y).mpr (Or.inr h)) hyV
          · exact List.mem_append_right _ h
      · exact List.mem_append_left _ ((hP y).mpr ⟨hy, hyV⟩)
  · intro pre x post hsplit hx y hy
    by_cases hyV : y ∈ (setInsert cur V)
    · exact Or.inl hyV
    · right
      -- `x` is visited, so it is not one of the cells just pushed
      rcases List.append_eq_append_iff.mp hsplit with ⟨a', h1, h2⟩ | ⟨c', h1, h2⟩
      · -- pre = P ++ a', rest = a' ++ x :: post
        rw [h1]
        by_cases hxc : x = cur
        · subst hxc
          exact List.mem_append_left _ ((hP y).mpr ⟨hy, hyV⟩)
        · have hxV : x ∈ V := by
            rcases (hV1 x).mp hx with h | h
            · exact h
            · exact absurd h hxc
          have hS : cur :: rest = (cur :: a') ++ x :: post := by rw [h2]; rfl
          rcases inv.above (cur :: a') x post hS hxV y hy with h | h
          · exact absurd ((hV1 y).mpr (Or.inl h)) hyV
          · rcases List.mem_cons.mp h with h | h
            · exact absurd ((hV1 y).mpr (Or.inr h)) hyV
            · exact List.mem_append_right _ h
      · -- P = pre ++ c', x :: post = c' ++ rest
        cases c' with
        | nil =>
          simp only [List.append_nil] at h1
          simp only [List.nil_append] at h2
          by_cases hxc : x = cur
          · subst hxc
            rw [← h1]
            exact (hP y).mpr ⟨hy, hyV⟩
          · have hxV : x ∈ V := by
              rcases (hV1 x).mp hx with h | h
              · exact h
              · exact absurd h hxc
            have hS : cur :: rest = [cur] ++ x :: post := by rw [← h2]; rfl
            rcases inv.above [cur] x post hS hxV y hy with h | h
            · exact absurd ((hV1 y).mpr (Or.inl h)) hyV
            · have : y = cur := by simpa using h
              exact absurd ((hV1 y).mpr (Or.inr this)) hyV
        | cons z c'' =>
          exfalso
          have hz : x = z := by
            have := congrArg List.head? h2
            simpa using this
          have hxP : x ∈ P := by
            rw [h1, hz]; simp
          exact ((hP x).mp hxP).2 hx

theorem dfsLoop_spec (s : Sheet D) (T : List Position) (this : Position) :
    ∀ (fuel : Nat) (V S : List Position), DfsInv s T this V S →
      S.length + unvisitedWeight s V ≤ fuel →
      ∃ b, dfsLoop s T fuel V S = some b ∧
        (b = true ↔ ∃ t ∈ T, Relation.ReflTransGen (inEdge s) this t) := by
  intro fuel
  induction fuel with
  | zero =>
    intro V S inv hf
    have hS : S = [] := by
      cases S with
      | nil => rfl
      | cons a l => simp at hf
    subst hS
    refine ⟨false, by simp [dfsLoop], ?_⟩
    simp only [Bool.false_eq_true, false_iff, not_exists, not_and]
    intro t ht hreach
    have hall : ∀ x, Relation.ReflTransGen (inEdge s) this x → x ∈ V := by
      intro x hx
      induction hx with
      | refl => rcases inv.start with h | h
                · exact h
                · simp at h
      | tail _ hbc ih =>
        rcases inv.closed _ ih _ hbc with h | h
        · exact h
        · simp at h
    exact inv.notT t (hall t hreach) ht
  | succ n ih =>
    intro V S inv hf
    cases S with
    | nil =>
      refine ⟨false, by simp [dfsLoop], ?_⟩
      simp only [Bool.false_eq_true, false_iff, not_exists, not_and]
      intro t ht hreach
      have hall : ∀ x, Relation.ReflTransGen (inEdge s) this x → x ∈ V := by
        intro x hx
        induction hx with
        | refl => rcases inv.start with h | h
                  · exact h
                  · simp at h
        | tail _ hbc ih =>
          rcases inv.closed _ ih _ hbc with h | h
          · exact h
          · simp at h
      exact inv.notT t (hall t hreach) ht
    | cons cur rest =>
      by_cases hcur : cur ∈ T
      · refine ⟨true, by simp [dfsLoop, hcur], ?_⟩
        simp only [true_iff]
        exact ⟨cur, hcur, inv.reach cur (Or.inr (List.mem_cons_self _ _))⟩
      · obtain ⟨P, hP1, hP2, hP3⟩ :=
          push_spec (setInsert cur V) (s.in_refs cur) rest
        have inv1 := inv.step hcur hP2
        have hfuel : (P ++ rest).length + unvisitedWeight s (setInsert cur V) ≤ n := by
          simp only [List.length_cons] at hf
          by_cases hcV : cur ∈ V
          · have hPnil : P = [] := by
              cases P with
              | nil => rfl
              | cons y P' =>
                exfalso
                have hy := (hP2 y).mp (List.mem_cons_self _ _)
                simp only [setInsert, hcV, if_true] at hy
                rcases inv.above [] cur rest rfl hcV y hy.1 with h | h
                · exact hy.2 h
                · simp at h
            subst hPnil
            simp only [setInsert, hcV, if_true, List.nil_append]
            omega
          · simp only [setInsert, hcV, if_false, List.length_append]
            have := unvisitedWeight_visit s cur V hcV
            omega
        obtain ⟨b, hb1, hb2⟩ := ih _ _ inv1 hfuel
        refine ⟨b, ?_, hb2⟩
        simp only [dfsLoop, hcur, if_false]
        rw [hP1]
        exact hb1

theorem check_spec (s : Sheet D) (this : Position) (impl : Impl D) :
    ∃ b, Cell.CheckCircularDependencyToArise s this impl = some b ∧
      (b = true ↔ ∃ t ∈ targets s impl, Relation.ReflTransGen (inEdge s) this t) := by
  unfold Cell.CheckCircularDependencyToArise
  have inv : DfsInv s (targets s impl) this [] [this] := by
    refine ⟨?_, ?_, ?_, ?_, ?_⟩
    · intro x hx
      rcases hx with hx | hx
      · simp at hx
      · have : x = this := by simpa using hx
        subst this; exact Relation.ReflTransGen.refl
    · intro x hx; simp at hx
    · right; simp
    · intro x hx; simp at hx
    · intro pre x post _ hx; simp at hx
  have hf : [this].length + unvisitedWeight s [] ≤ dfsFuel s := by
    rw [dfsFuel_eq]; simp
  exact dfsLoop_spec s (targets s impl) this (dfsFuel s) [] [this] inv hf

/-! ## Membership in the referenced cells -/

theorem mem_sortedInsert (p x : Position) (l : List Position) :
    x ∈ sortedInsert p l ↔ x = p ∨ x ∈ l := by
  induction l with
  | nil => simp [sortedInsert]
  | cons q rest ih =>
    unfold sortedInsert
    by_cases h : Position.lt q p
    · simp only [h, if_true, List.mem_cons, ih]; tauto
    · simp only [h, List.mem_cons]; simp

theorem mem_sortPositions (x : Position) (l : List Position) :
    x ∈ sortPositions l ↔ x ∈ l := by
  induction l with
  | nil => simp [sortPositions]
  | cons q rest ih => simp [sortPositions, mem_sortedInsert, ih]

theorem mem_uniquePositions (x : Position) : ∀ l : List Position,
    x ∈ uniquePositions l ↔ x ∈ l
  | [] => by simp [uniquePositions]
  | [p] => by simp [uniquePositions]
  | p :: q :: rest => by
    have ih := mem_uniquePositions x (q :: rest)
    unfold uniquePositions
    by_cases h : p = q
    · subst h
      simp only [if_true, ih, List.mem_cons]; tauto
    · simp only [h, if_false, List.mem_cons] at ih ⊢
      rw [ih]

theorem mem_GetReferencedCellsOf (x : Position) (cells : List Position) :
    x ∈ Formula.GetReferencedCellsOf cells ↔ x ∈ cells ∧ x.IsValid = true := by
  unfold Formula.GetReferencedCellsOf
  rw [mem_uniquePositions, mem_sortPositions, List.mem_filter]

theorem Impl.GetReferencedCells_valid (impl : Impl D) (x : Position)
    (h : x ∈ impl.GetReferencedCells) : x.IsValid = true := by
  cases impl with
  | EmptyImpl => simp [Impl.GetReferencedCells] at h
  | TextImpl t => simp [Impl.GetReferencedCells] at h
  | FormulaImpl ast cache =>
    simp only [Impl.GetReferencedCells, Formula.GetReferencedCells] at h
    exact ((mem_GetReferencedCellsOf x _).mp h).2

/-! ## Cache invalidation -/

theorem Impl.InvalidateCache_twice (impl : Impl D) :
    impl.InvalidateCache.InvalidateCache = impl.InvalidateCache := by
  cases impl <;> rfl

theorem Cell.InvalidateCache_idem (c : Cell D) :
    c.InvalidateCache.InvalidateCache = c.InvalidateCache := by
  cases c; simp [Cell.InvalidateCache, Impl.InvalidateCache_twice]

theorem SameUpToCache.refl (s : Sheet D) : SameUpToCache s s := fun _ => rfl

theorem SameUpToCache.trans {s s1 s2 : Sheet D} (h1 : SameUpToCache s s1)
    (h2 : SameUpToCache s1 s2) : SameUpToCache s s2 := fun q => (h2 q).trans (h1 q)

theorem SameUpToCache.modify (s : Sheet D) (r : Position) :
    SameUpToCache s (s.modify r Cell.InvalidateCache) := by
  intro q
  rw [Sheet.find_modify]
  by_cases h : q = r
  · simp only [h, if_true, Option.map_map]
    congr 1
    funext c
    exact Cell.InvalidateCache_idem c
  · simp [h]

theorem SameUpToCache.in_refs {s s1 : Sheet D} (h : SameUpToCache s s1) (q : Position) :
    s1.in_refs q = s.in_refs q := by
  have := h q
  unfold Sheet.in_refs
  cases h1 : s1.find q <;> cases h2 : s.find q <;> simp [h1, h2] at this ⊢
  have h3 := congrArg (fun c : Cell D => c.in_refs_) this
  exact h3

theorem SameUpToCache.out_refs {s s1 : Sheet D} (h : SameUpToCache s s1) (q : Position) :
    s1.out_refs q = s.out_refs q := by
  have := h q
  unfold Sheet.out_refs
  cases h1 : s1.find q <;> cases h2 : s.find q <;> simp [h1, h2] at this ⊢
  have h3 := congrArg (fun c : Cell D => c.out_refs_) this
  exact h3

theorem Impl.GetReferencedCells_InvalidateCache (impl : Impl D) :
    impl.InvalidateCache.GetReferencedCells = impl.GetReferencedCells := by
  cases impl <;> rfl

theorem Impl.GetText_InvalidateCache (E : Collab D) (impl : Impl D) :
    impl.InvalidateCache.GetText E = impl.GetText E := by
  cases impl <;> rfl

theorem SameUpToCache.refs {s s1 : Sheet D} (h : SameUpToCache s s1) (q : Position) :
    s1.refs q = s.refs q := by
  have := h q
  unfold Sheet.refs
  cases h1 : s1.find q <;> cases h2 : s.find q <;> simp [h1, h2] at this ⊢
  have h3 := congrArg (fun c => c.impl_.GetReferencedCells) this
  simpa [Cell.InvalidateCache, Impl.GetReferencedCells_InvalidateCache,
    Cell.GetReferencedCells] using h3

theorem SameUpToCache.isSome {s s1 : Sheet D} (h : SameUpToCache s s1) (q : Position) :
    (s1.find q).isSome = (s.find q).isSome := by
  have := h q
  cases h1 : s1.find q <;> cases h2 : s.find q <;> simp [h1, h2] at this ⊢

/-- Once the fuel has run out inside the loop of `InvalidateCacheRecursively`,
the loop has no result. -/
theorem icr_foldl_none (fuel : Nat) (this : Position) (l : List Position) :
    l.foldl
      (fun (acc : Option (Sheet D)) in_ref =>
        match acc with
        | none => none
        | some st =>
          match st.find this with
          | none => some st
          | some c =>
            if c.impl_.IsCacheValid then Cell.InvalidateCacheRecursively fuel st in_ref
            else some st)
      none = none := by
  induction l with
  | nil => rfl
  | cons a l ih => simpa using ih

theorem icr_same : ∀ (fuel : Nat) (s : Sheet D) (this : Position) (s1 : Sheet D),
    Cell.InvalidateCacheRecursively fuel s this = some s1 → SameUpToCache s s1 := by
  intro fuel
  induction fuel with
  | zero => intro s this s1 h; simp [Cell.InvalidateCacheRecursively] at h
  | succ n ih =>
    intro s this s1 h
    simp only [Cell.InvalidateCacheRecursively] at h
    have key : ∀ (l : List Position) (st : Sheet D), SameUpToCache s st →
        l.foldl
          (fun (acc : Option (Sheet D)) in_ref =>
            match acc with
            | none => none
            | some st =>
              match st.find this with
              | none => some st
              | some c =>
                if c.impl_.IsCacheValid then Cell.InvalidateCacheRecursively n st in_ref
                else some st)
          (some st) = some s1 → SameUpToCache s s1 := by
      intro l
      induction l with
      | nil => intro st hst h; simp at h; subst h; exact hst
      | cons a l ihl =>
        intro st hst h
        simp only [List.foldl_cons] at h
        cases hf : st.find this with
        | none =>
          simp only [hf] at h
          exact ihl st hst h
        | some c =>
          simp only [hf] at h
          by_cases hv : c.impl_.IsCacheValid = true
          · simp only [hv, if_true] at h
            cases hr : Cell.InvalidateCacheRecursively n st a with
            | none => rw [hr, icr_foldl_none] at h; simp at h
            | some st2 =>
              rw [hr] at h
              exact ihl st2 (hst.trans (ih st a st2 hr)) h
          · simp only [hv] at h
            exact ihl st hst h
    exact key _ _ (SameUpToCache.modify s this) h

theorem foldl_const {α β : Type} (f : α → β → α) (a : α) (l : List β)
    (h : ∀ x ∈ l, f a x = a) : l.foldl f a = a := by
  induction l with
  | nil => rfl
  | cons x l ih =>
    simp only [List.foldl_cons]
    rw [h x (List.mem_cons_self _ _)]
    exact ih fun y hy => h y (List.mem_cons_of_mem _ hy)

/-- On a formula cell the recursion stops at once: its own cache is reset and
`IsCacheValid` is false in the loop. -/
theorem icr_formula (n : Nat) (s : Sheet D) (r : Position) (c : Cell D)
    (hf : s.find r = some c) (hc : c.impl_.InvalidateCache.IsCacheValid = false) :
    Cell.InvalidateCacheRecursively (n + 1) s r = some (s.modify r Cell.InvalidateCache) := by
  simp only [Cell.InvalidateCacheRecursively]
  apply foldl_const
  intro x _
  have : (s.modify r Cell.InvalidateCache).find r = some c.InvalidateCache := by
    rw [Sheet.find_modify]; simp [hf]
  simp only [this]
  simp [Cell.InvalidateCache, hc]

/-- When every cell in the in-set of `this` is a formula cell, the recursion has
depth at most two. -/
theorem icr_total (n : Nat) (s : Sheet D) (this : Position)
    (h : ∀ r ∈ s.in_refs this, ∃ c, s.find r = some c ∧
      c.impl_.InvalidateCache.IsCacheValid = false) :
    ∃ s1, Cell.InvalidateCacheRecursively (n + 2) s this = some s1 := by
  simp only [Cell.InvalidateCacheRecursively]
  have hin : (s.modify this Cell.InvalidateCache).in_refs this = s.in_refs this :=
    (SameUpToCache.modify s this).in_refs this
  rw [hin]
  have key : ∀ (l : List Position), (∀ r ∈ l, r ∈ s.in_refs this) → ∀ (st : Sheet D),
      SameUpToCache s st →
      ∃ s1, l.foldl
          (fun (acc : Option (Sheet D)) in_ref =>
            match acc with
            | none => none
            | some st =>
              match st.find this with
              | none => some st
              | some c =>
                if c.impl_.IsCacheValid then Cell.InvalidateCacheRecursively (n + 1) st in_ref
                else some st)
          (some st) = some s1 := by
    intro l
    induction l with
    | nil => intro _ st _; exact ⟨st, rfl⟩
    | cons a l ihl =>
      intro hl st hst
      simp only [List.foldl_cons]
      cases hf : st.find this with
      | none => simp only []; exact ihl (fun r hr => hl r (List.mem_cons_of_mem _ hr)) st hst
      | some c =>
        simp only []
        by_cases hv : c.impl_.IsCacheValid = true
        · simp only [hv, if_true]
          obtain ⟨ca, hca, hcv⟩ := h a (hl a (List.mem_cons_self _ _))
          have hsame := hst a
          rw [hca] at hsame
          cases hfa : st.find a with
          | none => rw [hfa] at hsame; simp at hsame
          | some ca1 =>
            rw [hfa] at hsame
            simp only [Option.map_some', Option.some.injEq] at hsame
            have hcv1 : ca1.impl_.InvalidateCache.IsCacheValid = false := by
              have := congrArg Cell.impl_ hsame
              simp only [Cell.InvalidateCache] at this
              rw [this]; exact hcv
            rw [icr_formula n st a ca1 hfa hcv1]
            exact ihl (fun r hr => hl r (List.mem_cons_of_mem _ hr)) _
              (hst.trans (SameUpToCache.modify st a))
        · simp only [hv]
          exact ihl (fun r hr => hl r (List.mem_cons_of_mem _ hr)) st hst
  exact key _ (fun r hr => hr) _ (SameUpToCache.modify s this)

/-! ## The re-entrant `SetCell` -/

theorem makeImpl_empty (E : Collab D) : Cell.makeImpl E "" = some .EmptyImpl := rfl

theorem modify_emplace_new (st : Sheet D) (pos : Position) (f : Cell D → Cell D)
    (h : st.find pos = none) (hf : f Cell.new = Cell.new) :
    (st.emplace pos).modify pos f = st.emplace pos := by
  unfold Sheet.emplace
  rw [Sheet.modify_append, Sheet.modify_of_find_none st pos f h, Sheet.modify_cons,
    Sheet.modify_nil]
  simp [hf]

theorem nested_emplace (E : Collab D) (st : Sheet D) (pos : Position)
    (hvalid : pos.IsValid = true) (hnone : st.find pos = none) :
    Sheet.SetCellNested E st pos "" = .ret () (st.emplace pos) := by
  have hfind : (st.emplace pos).find pos = some Cell.new := by
    rw [Sheet.find_emplace st pos pos hnone]; simp
  have hin : (st.emplace pos).in_refs pos = [] := by
    simp [Sheet.in_refs, hfind, Cell.new]
  have hout : (st.emplace pos).out_refs pos = [] := by
    simp [Sheet.out_refs, hfind, Cell.new]
  have hcheck : Cell.CheckCircularDependencyToArise (st.emplace pos) pos
      (.EmptyImpl : Impl D) = some false := by
    obtain ⟨b, hb, hiff⟩ := check_spec (st.emplace pos) pos (.EmptyImpl : Impl D)
    have : b = false := by
      cases b with
      | false => rfl
      | true =>
        obtain ⟨t, ht, _⟩ := hiff.mp rfl
        simp [targets, Impl.GetReferencedCells] at ht
    rw [hb, this]
  have hm1 : (st.emplace pos).modify pos Cell.clearOut = st.emplace pos :=
    modify_emplace_new st pos _ hnone rfl
  have hm2 : (st.emplace pos).modify pos (Cell.setImpl .EmptyImpl) = st.emplace pos :=
    modify_emplace_new st pos _ hnone rfl
  have hm3 : (st.emplace pos).modify pos Cell.InvalidateCache = st.emplace pos :=
    modify_emplace_new st pos _ hnone rfl
  unfold Sheet.SetCellNested Sheet.SetCellWith
  simp only [hvalid, hnone, Bool.not_true, Bool.false_eq_true, if_false, Option.isNone_none,
    if_true]
  unfold Cell.Set
  simp only [makeImpl_empty, hcheck]
  unfold Cell.UpdateDependencies
  simp only [hout, List.foldl_nil, hm1, Impl.GetReferencedCells, Res.bind, hm2]
  simp only [Cell.InvalidateCacheRecursively, hm3, hin, List.foldl_nil]

theorem UpdateDependencies_foldl (E : Collab D) (this : Position) (l : List Position)
    (hl : ∀ pos ∈ l, pos.IsValid = true) : ∀ st : Sheet D,
    l.foldl
      (fun (acc : Res (Sheet D) Unit) pos =>
        acc.bind fun _ st =>
          (match st.find pos with
            | none => Sheet.SetCellNested E st pos ""
            | some _ => .ret () st).bind fun _ st1 =>
            .ret () ((st1.modify this (Cell.insertOut pos)).modify pos (Cell.insertIn this)))
      (.ret () st) = .ret () (l.foldl (link this) st) := by
  induction l with
  | nil => intro st; rfl
  | cons a l ih =>
    intro st
    simp only [List.foldl_cons]
    have hstep : ((Res.ret () st : Res (Sheet D) Unit).bind fun _ st =>
          (match st.find a with
            | none => Sheet.SetCellNested E st a ""
            | some _ => .ret () st).bind fun _ st1 =>
            .ret () ((st1.modify this (Cell.insertOut a)).modify a (Cell.insertIn this)))
        = .ret () (link this st a) := by
      simp only [Res.bind]
      cases hf : st.find a with
      | none =>
        simp only []
        rw [nested_emplace E st a (hl a (List.mem_cons_self _ _)) hf]
        simp [link, hf]
      | some c =>
        simp [link, hf]
    rw [hstep]
    exact ih (fun pos hp => hl pos (List.mem_cons_of_mem _ hp)) _

theorem UpdateDependencies_eq (E : Collab D) (s : Sheet D) (this : Position) (impl : Impl D) :
    Cell.UpdateDependencies (Sheet.SetCellNested E) s this impl
      = .ret () (rewire s this impl.GetReferencedCells) := by
  unfold Cell.UpdateDependencies rewire unlink
  exact UpdateDependencies_foldl E this _ (fun pos hp => Impl.GetReferencedCells_valid impl pos hp) _

/-! ## The effect of `UpdateDependencies` -/

namespace Sheet

theorem in_refs_eq (s : Sheet D) (q : Position) :
    s.in_refs q = ((s.find q).map fun c => c.in_refs_).getD [] := by
  unfold in_refs; cases s.find q <;> rfl

theorem out_refs_eq (s : Sheet D) (q : Position) :
    s.out_refs q = ((s.find q).map fun c => c.out_refs_).getD [] := by
  unfold out_refs; cases s.find q <;> rfl

theorem refs_eq (s : Sheet D) (q : Position) :
    s.refs q = ((s.impl q).map fun i => i.GetReferencedCells).getD [] := by
  unfold refs impl; cases s.find q <;> rfl

theorem in_refs_modify_of (s : Sheet D) (p : Position) (f : Cell D → Cell D)
    (h : ∀ c, (f c).in_refs_ = c.in_refs_) (q : Position) :
    (s.modify p f).in_refs q = s.in_refs q := by
  rw [in_refs_eq, in_refs_eq, find_modify]
  by_cases hq : q = p
  · cases hf : s.find q <;> simp [hq, hf, h]
  · simp [hq]

theorem out_refs_modify_of (s : Sheet D) (p : Position) (f : Cell D → Cell D)
    (h : ∀ c, (f c).out_refs_ = c.out_refs_) (q : Position) :
    (s.modify p f).out_refs q = s.out_refs q := by
  rw [out_refs_eq, out_refs_eq, find_modify]
  by_cases hq : q = p
  · cases hf : s.find q <;> simp [hq, hf, h]
  · simp [hq]

theorem impl_modify_of (s : Sheet D) (p : Position) (f : Cell D → Cell D)
    (h : ∀ c, (f c).impl_ = c.impl_) (q : Position) :
    (s.modify p f).impl q = s.impl q := by
  unfold impl
  rw [find_modify]
  by_cases hq : q = p
  · cases hf : s.find q <;> simp [hq, hf, h]
  · simp [hq]

theorem isSome_find_modify (s : Sheet D) (p : Position) (f : Cell D → Cell D) (q : Position) :
    ((s.modify p f).find q).isSome = (s.find q).isSome := by
  rw [find_modify]
  by_cases hq : q = p
  · cases hf : s.find q <;> simp [hq, hf]
  · simp [hq]

end Sheet

theorem mem_setInsert (x y : Position) (l : List Position) :
    y ∈ setInsert x l ↔ y = x ∨ y ∈ l := by
  unfold setInsert
  by_cases h : x ∈ l
  · simp only [h, if_true]
    constructor
    · exact Or.inr
    · rintro (rfl | h1)
      · exact h
      · exact h1
  · simp [h]

theorem mem_setErase (x y : Position) (l : List Position) :
    y ∈ setErase x l ↔ y ∈ l ∧ y ≠ x := by
  simp [setErase, List.mem_filter]

/-- The first loop of `UpdateDependencies`. -/
theorem eraseLoop_spec (this : Position) (outs : List Position) : ∀ st : Sheet D,
    (∀ q, (outs.foldl (fun st out_ref => st.modify out_ref (Cell.eraseIn this)) st).out_refs q
        = st.out_refs q) ∧
    (∀ q, (outs.foldl (fun st out_ref => st.modify out_ref (Cell.eraseIn this)) st).impl q
        = st.impl q) ∧
    (∀ q y, y ∈ (outs.foldl (fun st out_ref => st.modify out_ref (Cell.eraseIn this)) st).in_refs q
        ↔ y ∈ st.in_refs q ∧ ¬ (y = this ∧ q ∈ outs)) := by
  induction outs with
  | nil => intro st; simp
  | cons o outs ih =>
    intro st
    obtain ⟨h1, h2, h3⟩ := ih (st.modify o (Cell.eraseIn this))
    simp only [List.foldl_cons]
    refine ⟨?_, ?_, ?_⟩
    · intro q
      rw [h1 q, Sheet.out_refs_modify_of st o (Cell.eraseIn this) (fun c => rfl)]
    · intro q
      rw [h2 q, Sheet.impl_modify_of st o (Cell.eraseIn this) (fun c => rfl)]
    · intro q y
      rw [h3 q y, Sheet.in_refs_eq, Sheet.in_refs_eq, Sheet.find_modify]
      by_cases hq : q = o
      · subst hq
        cases hf : st.find q with
        | none => simp
        | some c =>
          simp only [if_true, Option.map_some', Option.getD_some, Cell.eraseIn, mem_setErase,
            List.mem_cons, true_or, and_true]
          by_cases hy : y = this
          · simp [hy]
          · simp [hy]
      · simp only [hq, if_false, List.mem_cons, false_or]

theorem unlink_out_refs (this : Position) (s : Sheet D) (q : Position) :
    (unlink this s).out_refs q = if q = this then [] else s.out_refs q := by
  unfold unlink
  obtain ⟨h1, _, _⟩ := eraseLoop_spec this (s.out_refs this) s
  rw [Sheet.out_refs_eq, Sheet.find_modify]
  by_cases hq : q = this
  · simp only [hq, if_true]
    cases ((s.out_refs this).foldl (fun st out_ref => st.modify out_ref (Cell.eraseIn this)) s).find this
      <;> simp [Cell.clearOut]
  · simp only [hq, if_false]
    rw [← Sheet.out_refs_eq, h1 q]

theorem unlink_impl (this : Position) (s : Sheet D) (q : Position) :
    (unlink this s).impl q = s.impl q := by
  unfold unlink
  obtain ⟨_, h2, _⟩ := eraseLoop_spec this (s.out_refs this) s
  rw [Sheet.impl_modify_of _ this Cell.clearOut (fun c => rfl), h2 q]

theorem unlink_in_refs (this : Position) (s : Sheet D) (q y : Position) :
    y ∈ (unlink this s).in_refs q ↔ y ∈ s.in_refs q ∧ ¬ (y = this ∧ q ∈ s.out_refs this) := by
  unfold unlink
  obtain ⟨_, _, h3⟩ := eraseLoop_spec this (s.out_refs this) s
  rw [Sheet.in_refs_modify_of _ this Cell.clearOut (fun c => rfl), h3 q y]

/-- The cell that the second loop finds or creates at `pos`. -/
theorem find_ensure (st : Sheet D) (pos q : Position) :
    (if (st.find pos).isNone then st.emplace pos else st).find q
      = (st.find q).orElse fun _ => if q = pos then some Cell.new else none := by
  cases hf : st.find pos with
  | none =>
    simp only [Option.isNone_none, if_true]
    rw [Sheet.find_emplace st pos q hf]
    by_cases hq : q = pos
    · subst hq; simp [hf]
    · simp [hq]
  | some c =>
    simp only [Option.isNone_some, Bool.false_eq_true, if_false]
    by_cases hq : q = pos
    · subst hq; simp [hf]
    · simp [hq]

theorem find_link (this : Position) (st : Sheet D) (pos q : Position) :
    (link this st pos).find q
      = ((((st.find q).orElse fun _ => if q = pos then some Cell.new else none).map
          fun c => if q = this then c.insertOut pos else c).map
          fun c => if q = pos then c.insertIn this else c) := by
  unfold link
  rw [Sheet.find_modify, Sheet.find_modify, find_ensure]
  by_cases h1 : q = pos
  · subst h1
    by_cases h2 : q = this
    · subst h2; simp
    · simp [h2]
  · by_cases h2 : q = this
    · subst h2; simp [h1]; rfl
    · simp [h1, h2]

theorem link_impl (this : Position) (st : Sheet D) (pos q : Position) :
    (link this st pos).impl q
      = (st.impl q).orElse fun _ => if q = pos then some .EmptyImpl else none := by
  unfold Sheet.impl
  rw [find_link]
  cases hf : st.find q with
  | some c =>
    simp
    split_ifs <;> rfl
  | none =>
    by_cases h1 : q = pos
    · subst h1
      simp
      split_ifs <;> rfl
    · simp [h1]

theorem link_in_refs (this : Position) (st : Sheet D) (pos q y : Position) :
    y ∈ (link this st pos).in_refs q ↔ y ∈ st.in_refs q ∨ (q = pos ∧ y = this) := by
  rw [Sheet.in_refs_eq, Sheet.in_refs_eq, find_link]
  cases hf : st.find q with
  | some c =>
    by_cases h1 : q = pos
    · subst h1
      by_cases h2 : q = this
      · subst h2
        simp [Cell.insertIn, Cell.insertOut, mem_setInsert]; tauto
      · simp [h2, Cell.insertIn, mem_setInsert]; tauto
    · by_cases h2 : q = this
      · subst h2
        simp [h1, Cell.insertOut]
      · simp [h1, h2]
  | none =>
    by_cases h1 : q = pos
    · subst h1
      by_cases h2 : q = this
      · subst h2
        simp [Cell.insertIn, Cell.insertOut, Cell.new, mem_setInsert]
      · simp [h2, Cell.insertIn, Cell.new, mem_setInsert]
    · simp [h1]

theorem link_out_refs (this : Position) (st : Sheet D) (pos q y : Position)
    (hthis : (st.find this).isSome = true) :
    y ∈ (link this st pos).out_refs q ↔ y ∈ st.out_refs q ∨ (q = this ∧ y = pos) := by
  rw [Sheet.out_refs_eq, Sheet.out_refs_eq, find_link]
  cases hf : st.find q with
  | some c =>
    by_cases h1 : q = pos
    · subst h1
      by_cases h2 : q = this
      · subst h2
        simp [Cell.insertIn, Cell.insertOut, mem_setInsert]; tauto
      · simp [h2, Cell.insertIn]
    · by_cases h2 : q = this
      · subst h2
        simp [h1, Cell.insertOut, mem_setInsert]; tauto
      · simp [h1, h2]
  | none =>
    have hqt : q ≠ this := by
      intro h; rw [h] at hf; rw [hf] at hthis; simp at hthis
    by_cases h1 : q = pos
    · subst h1
      simp [hqt, Cell.insertIn, Cell.new]
    · simp [h1, hqt]

theorem link_isSome (this : Position) (st : Sheet D) (pos q : Position) :
    ((link this st pos).find q).isSome = ((st.find q).isSome || decide (q = pos)) := by
  rw [find_link]
  cases hf : st.find q with
  | some c => simp
  | none => by_cases h1 : q = pos <;> simp [h1]

theorem foldl_link_spec (this : Position) (l : List Position) : ∀ st : Sheet D,
    (st.find this).isSome = true →
    (∀ q, ((l.foldl (link this) st).find q).isSome = ((st.find q).isSome || decide (q ∈ l))) ∧
    (∀ q, (l.foldl (link this) st).impl q
        = (st.impl q).orElse fun _ => if q ∈ l then some .EmptyImpl else none) ∧
    (∀ q y, y ∈ (l.foldl (link this) st).in_refs q ↔ y ∈ st.in_refs q ∨ (q ∈ l ∧ y = this)) ∧
    (∀ q y, y ∈ (l.foldl (link this) st).out_refs q ↔ y ∈ st.out_refs q ∨ (q = this ∧ y ∈ l)) := by
  induction l with
  | nil => intro st _; simp
  | cons a l ih =>
    intro st hthis
    have hthis1 : ((link this st a).find this).isSome = true := by
      rw [link_isSome, hthis]; rfl
    obtain ⟨h1, h2, h3, h4⟩ := ih (link this st a) hthis1
    simp only [List.foldl_cons]
    refine ⟨?_, ?_, ?_, ?_⟩
    · intro q
      rw [h1 q, link_isSome]
      by_cases hq : q = a <;> simp [hq, Bool.or_assoc]
    · intro q
      rw [h2 q, link_impl]
      cases hi : st.impl q with
      | some i => simp
      | none =>
        by_cases hq : q = a
        · simp [hq]
        · simp [hq]
    · intro q y
      rw [h3 q y, link_in_refs]
      simp only [List.mem_cons]; tauto
    · intro q y
      rw [h4 q y, link_out_refs this st a q y hthis]
      simp only [List.mem_cons]; tauto

theorem unlink_isSome (this : Position) (s : Sheet D) (q : Position) :
    ((unlink this s).find q).isSome = (s.find q).isSome := by
  have h := unlink_impl this s q
  unfold Sheet.impl at h
  cases h1 : (unlink this s).find q <;> cases h2 : s.find q <;> simp [h1, h2] at h ⊢

/-- What `UpdateDependencies` does to the sheet. -/
theorem rewire_spec (s : Sheet D) (this : Position) (refs : List Position)
    (hthis : (s.find this).isSome = true) :
    (∀ q, ((rewire s this refs).find q).isSome = ((s.find q).isSome || decide (q ∈ refs))) ∧
    (∀ q, (rewire s this refs).impl q
        = (s.impl q).orElse fun _ => if q ∈ refs then some .EmptyImpl else none) ∧
    (∀ q y, y ∈ (rewire s this refs).in_refs q ↔
        (y ∈ s.in_refs q ∧ ¬ (y = this ∧ q ∈ s.out_refs this)) ∨ (q ∈ refs ∧ y = this)) ∧
    (∀ q y, y ∈ (rewire s this refs).out_refs q ↔
        (q ≠ this ∧ y ∈ s.out_refs q) ∨ (q = this ∧ y ∈ refs)) := by
  have hthis1 : ((unlink this s).find this).isSome = true := by
    rw [unlink_isSome]; exact hthis
  obtain ⟨h1, h2, h3, h4⟩ := foldl_link_spec this refs (unlink this s) hthis1
  unfold rewire
  refine ⟨?_, ?_, ?_, ?_⟩
  · intro q; rw [h1 q, unlink_isSome]
  · intro q; rw [h2 q, unlink_impl]
  · intro q y; rw [h3 q y, unlink_in_refs]
  · intro q y
    rw [h4 q y, unlink_out_refs]
    by_cases hq : q = this
    · simp [hq]
    · simp [hq]

/-! ## Paths after a rewiring -/

section Paths

variable {α : Type} {E E1 : α → α → Prop} {this : α} {R : α → Prop}

theorem path_last_rewired (h : ∀ a b, E1 a b → (a ≠ this ∧ E a b) ∨ (a = this ∧ R b))
    {a b : α} (hab : Relation.TransGen E1 a b) :
    Relation.TransGen E a b ∨ ∃ r, R r ∧ Relation.ReflTransGen E r b := by
  induction hab with
  | single h1 =>
    rcases h _ _ h1 with ⟨_, he⟩ | ⟨_, hr⟩
    · exact Or.inl (Relation.TransGen.single he)
    · exact Or.inr ⟨_, hr, Relation.ReflTransGen.refl⟩
  | tail _ h1 ih =>
    rcases h _ _ h1 with ⟨_, he⟩ | ⟨_, hr⟩
    · rcases ih with ih | ⟨r, hr, hp⟩
      · exact Or.inl (Relation.TransGen.tail ih he)
      · exact Or.inr ⟨r, hr, Relation.ReflTransGen.tail hp he⟩
    · exact Or.inr ⟨_, hr, Relation.ReflTransGen.refl⟩

theorem path_first_rewired (h : ∀ a b, E1 a b → (a ≠ this ∧ E a b) ∨ (a = this ∧ R b))
    {a b : α} (hab : Relation.TransGen E1 a b) :
    Relation.TransGen E a b ∨ Relation.ReflTransGen E a this := by
  induction hab with
  | single h1 =>
    rcases h _ _ h1 with ⟨_, he⟩ | ⟨ht, _⟩
    · exact Or.inl (Relation.TransGen.single he)
    · exact Or.inr (ht ▸ Relation.ReflTransGen.refl)
  | tail _ h1 ih =>
    rcases ih with ih | ih
    · rcases h _ _ h1 with ⟨_, he⟩ | ⟨ht, _⟩
      · exact Or.inl (Relation.TransGen.tail ih he)
      · exact Or.inr (ht ▸ ih.to_reflTransGen)
    · exact Or.inr ih

/-- A cycle of the rewired graph is a cycle of the old graph or goes through
`this` and one of the new targets. -/
theorem cycle_rewired (h : ∀ a b, E1 a b → (a ≠ this ∧ E a b) ∨ (a = this ∧ R b))
    {a : α} (haa : Relation.TransGen E1 a a) :
    Relation.TransGen E a a ∨ ∃ r, R r ∧ Relation.ReflTransGen E r this := by
  rcases path_last_rewired h haa with h1 | ⟨r, hr, hra⟩
  · exact Or.inl h1
  · rcases path_first_rewired h haa with h2 | h2
    · exact Or.inl h2
    · exact Or.inr ⟨r, hr, hra.trans h2⟩

theorem path_to_this_rewired (h : ∀ a b, a ≠ this → E a b → E1 a b) {t : α}
    (ht : Relation.ReflTransGen E t this) : Relation.ReflTransGen E1 t this := by
  induction ht using Relation.ReflTransGen.head_induction_on with
  | refl => exact Relation.ReflTransGen.refl
  | @head a c hab _ ih =>
    by_cases ha : a = this
    · rw [ha]
    · exact Relation.ReflTransGen.head (h _ _ ha hab) ih

end Paths

theorem reach_in_iff_out {s : Sheet D} (hsym : Symmetric s) (a b : Position) :
    Relation.ReflTransGen (inEdge s) a b ↔ Relation.ReflTransGen (outEdge s) b a := by
  have h : inEdge s = Function.swap (outEdge s) := by
    funext x y
    exact propext (hsym y x).symm
  rw [h]
  exact Relation.reflTransGen_swap

/-- A cell with an out-edge exists. -/
theorem isSome_of_out_refs {s : Sheet D} {a b : Position} (h : b ∈ s.out_refs a) :
    (s.find a).isSome = true := by
  unfold Sheet.out_refs at h
  cases hf : s.find a with
  | none => rw [hf] at h; simp at h
  | some c => rfl

theorem isSome_of_in_refs {s : Sheet D} {a b : Position} (h : b ∈ s.in_refs a) :
    (s.find a).isSome = true := by
  unfold Sheet.in_refs at h
  cases hf : s.find a with
  | none => rw [hf] at h; simp at h
  | some c => rfl

theorem isSome_of_reach {s : Sheet D} {r this : Position} (hthis : (s.find this).isSome = true)
    (h : Relation.ReflTransGen (outEdge s) r this) : (s.find r).isSome = true := by
  rcases Relation.ReflTransGen.cases_head h with rfl | ⟨c, hrc, _⟩
  · exact hthis
  · exact isSome_of_out_refs hrc

theorem isSome_iff_exists {s : Sheet D} {a : Position} :
    (s.find a).isSome = true ↔ ∃ c, s.find a = some c := by
  cases s.find a <;> simp

theorem Symmetric.inOut {s : Sheet D} (h : Symmetric s) : InOutSymmetric s := by
  intro A B cA cB hA hB
  have h1 := h A B
  simp only [Sheet.out_refs, Sheet.in_refs, hA, hB] at h1
  exact h1

/-- Under `InOutSymmetric`, a cell reached from `this` along in-edges reaches
`this` along out-edges. -/
theorem reach_out_of_in {s : Sheet D} (hsym : InOutSymmetric s) {this t : Position}
    (h : Relation.ReflTransGen (inEdge s) this t) :
    (s.find t).isSome = true → Relation.ReflTransGen (outEdge s) t this := by
  induction h with
  | refl => intro _; exact Relation.ReflTransGen.refl
  | @tail b c _ hbc ih =>
    intro hc
    have hb : (s.find b).isSome = true := isSome_of_in_refs hbc
    obtain ⟨cb, hcb⟩ := isSome_iff_exists.mp hb
    obtain ⟨cc, hcc⟩ := isSome_iff_exists.mp hc
    have hin : c ∈ cb.in_refs_ := by
      have := hbc
      simp only [inEdge, Sheet.in_refs, hcb] at this
      exact this
    have hout : b ∈ cc.out_refs_ := (hsym c b cc cb hcc hcb).mpr hin
    have hedge : outEdge s c b := by
      simp only [outEdge, Sheet.out_refs, hcc]
      exact hout
    exact Relation.ReflTransGen.head hedge (ih hb)

/-- Under `InOutSymmetric`, a cell that reaches the cell `this` along out-edges
is reached from `this` along in-edges. -/
theorem reach_in_of_out {s : Sheet D} (hsym : InOutSymmetric s) {this t : Position}
    (hthis : (s.find this).isSome = true)
    (h : Relation.ReflTransGen (outEdge s) t this) :
    Relation.ReflTransGen (inEdge s) this t := by
  induction h using Relation.ReflTransGen.head_induction_on with
  | refl => exact Relation.ReflTransGen.refl
  | @head a c hac hcthis ih =>
    have ha : (s.find a).isSome = true := isSome_of_out_refs hac
    have hc : (s.find c).isSome = true := isSome_of_reach hthis hcthis
    obtain ⟨ca, hca⟩ := isSome_iff_exists.mp ha
    obtain ⟨cc, hcc⟩ := isSome_iff_exists.mp hc
    have hout : c ∈ ca.out_refs_ := by
      have := hac
      simp only [outEdge, Sheet.out_refs, hca] at this
      exact this
    have hin : a ∈ cc.in_refs_ := (hsym a c ca cc hca hcc).mp hout
    have hedge : inEdge s c a := by
      simp only [inEdge, Sheet.in_refs, hcc]
      exact hin
    exact Relation.ReflTransGen.tail ih hedge

theorem mem_targets (s : Sheet D) (impl : Impl D) (t : Position) :
    t ∈ targets s impl ↔ t ∈ impl.GetReferencedCells ∧ (s.find t).isSome = true := by
  simp [targets, List.mem_filter]

/-- The graph-theoretic content of the cycle check. -/
theorem createsCycle_iff {s : Sheet D} (hacyc : Acyclic s) (this : Position)
    (T : List Position) :
    CreatesCycle s this T ↔ ∃ t ∈ T, Relation.ReflTransGen (outEdge s) t this := by
  constructor
  · rintro ⟨a, haa⟩
    have h : ∀ a b, rewiredEdge s this T a b →
        (a ≠ this ∧ outEdge s a b) ∨ (a = this ∧ b ∈ T) := fun a b hab => hab
    rcases cycle_rewired h haa with h1 | ⟨r, hr, hp⟩
    · exact absurd h1 (hacyc a)
    · exact ⟨r, hr, hp⟩
  · rintro ⟨t, ht, hp⟩
    have h : ∀ a b, a ≠ this → outEdge s a b → rewiredEdge s this T a b :=
      fun a b ha hab => Or.inl ⟨ha, hab⟩
    have h1 := path_to_this_rewired h hp
    have h2 : rewiredEdge s this T this t := Or.inr ⟨rfl, ht⟩
    exact ⟨this, Relation.TransGen.head' h2 h1⟩

/-! ## The invariants across `Cell::Set` -/

theorem committed_in_refs (s : Sheet D) (this : Position) (impl : Impl D) (q : Position) :
    (committed s this impl).in_refs q = (rewire s this impl.GetReferencedCells).in_refs q :=
  Sheet.in_refs_modify_of _ this (Cell.setImpl impl) (fun _ => rfl) q

theorem committed_out_refs (s : Sheet D) (this : Position) (impl : Impl D) (q : Position) :
    (committed s this impl).out_refs q = (rewire s this impl.GetReferencedCells).out_refs q :=
  Sheet.out_refs_modify_of _ this (Cell.setImpl impl) (fun _ => rfl) q

theorem committed_isSome (s : Sheet D) (this : Position) (impl : Impl D)
    (hthis : (s.find this).isSome = true) (q : Position) :
    ((committed s this impl).find q).isSome
      = ((s.find q).isSome || decide (q ∈ impl.GetReferencedCells)) := by
  unfold committed
  rw [Sheet.isSome_find_modify, (rewire_spec s this _ hthis).1 q]

theorem committed_impl (s : Sheet D) (this : Position) (impl : Impl D)
    (hthis : (s.find this).isSome = true) (q : Position) :
    (committed s this impl).impl q
      = if q = this then some impl
        else (s.impl q).orElse fun _ =>
          if q ∈ impl.GetReferencedCells then some .EmptyImpl else none := by
  have h1 := (rewire_spec s this impl.GetReferencedCells hthis).1 this
  have h2 := (rewire_spec s this impl.GetReferencedCells hthis).2.1 q
  rw [hthis] at h1
  unfold committed Sheet.impl at *
  rw [Sheet.find_modify]
  by_cases hq : q = this
  · subst hq
    cases hf : (rewire s q impl.GetReferencedCells).find q with
    | none => rw [hf] at h1; simp at h1
    | some c => simp [Cell.setImpl]
  · simp only [hq, if_false]
    exact h2

theorem committed_refs (s : Sheet D) (this : Position) (impl : Impl D)
    (hthis : (s.find this).isSome = true) (q : Position) :
    (committed s this impl).refs q
      = if q = this then impl.GetReferencedCells else s.refs q := by
  rw [Sheet.refs_eq, committed_impl s this impl hthis, Sheet.refs_eq]
  by_cases hq : q = this
  · simp [hq]
  · simp only [hq, if_false]
    cases hi : s.impl q with
    | some i => simp
    | none =>
      by_cases hm : q ∈ impl.GetReferencedCells
      · simp only [Option.none_orElse, hm, if_true]; rfl
      · simp only [Option.none_orElse, hm, if_false]; rfl

theorem committed_wf {s : Sheet D} (hwf : WellFormed s) (this : Position) (impl : Impl D)
    (hthis : (s.find this).isSome = true)
    (hcheck : Cell.CheckCircularDependencyToArise s this impl = some false) :
    WellFormed (committed s this impl) := by
  obtain ⟨_, _, hin, hout⟩ := rewire_spec s this impl.GetReferencedCells hthis
  have hout1 : ∀ q y, y ∈ (committed s this impl).out_refs q ↔
      (q ≠ this ∧ y ∈ s.out_refs q) ∨ (q = this ∧ y ∈ impl.GetReferencedCells) := by
    intro q y; rw [committed_out_refs]; exact hout q y
  refine ⟨?_, ?_, ?_⟩
  · intro a b
    rw [hout1, committed_in_refs, hin b a, ← hwf.symmetric a b]
    by_cases ha : a = this
    · subst ha; simp
    · simp [ha]
  · intro a haa
    have h : ∀ a b, outEdge (committed s this impl) a b →
        (a ≠ this ∧ outEdge s a b) ∨ (a = this ∧ b ∈ impl.GetReferencedCells) :=
      fun a b hab => (hout1 a b).mp hab
    rcases cycle_rewired h haa with h1 | ⟨r, hr, hp⟩
    · exact hwf.acyclic a h1
    · obtain ⟨b, hb, hiff⟩ := check_spec s this impl
      rw [hcheck] at hb
      have hbf : b = false := (Option.some.inj hb).symm
      have : b = true := hiff.mpr
        ⟨r, (mem_targets s impl r).mpr ⟨hr, isSome_of_reach hthis hp⟩,
          (reach_in_iff_out hwf.symmetric this r).mpr hp⟩
      rw [hbf] at this
      exact Bool.noConfusion this
  · intro a b
    rw [hout1, committed_refs s this impl hthis]
    by_cases ha : a = this
    · simp [ha]
    · simp only [ha, if_false, ne_eq, not_false_eq_true, true_and, false_and, or_false]
      exact hwf.refsMatch a b

theorem WellFormed.of_same {s s1 : Sheet D} (hwf : WellFormed s) (h : SameUpToCache s s1) :
    WellFormed s1 := by
  have hout : s1.out_refs = s.out_refs := funext fun q => h.out_refs q
  have hin : s1.in_refs = s.in_refs := funext fun q => h.in_refs q
  have hrefs : s1.refs = s.refs := funext fun q => h.refs q
  refine ⟨?_, ?_, ?_⟩
  · intro a b; rw [hout, hin]; exact hwf.symmetric a b
  · intro a
    have : outEdge s1 = outEdge s := by
      funext x y; unfold outEdge; rw [hout]
    rw [this]; exact hwf.acyclic a
  · intro a b; rw [hout, hrefs]; exact hwf.refsMatch a b

/-! ## The outcomes of `Cell::Set` -/

theorem SetTop_eq (E : Collab D) (s : Sheet D) (this : Position) (text : String) :
    Cell.SetTop E s this text =
      match Cell.makeImpl E text with
      | none => .raise .FormulaException s
      | some impl =>
        match Cell.CheckCircularDependencyToArise s this impl with
        | none => .diverge
        | some true => .raise .CircularDependencyException s
        | some false =>
          match Cell.InvalidateCacheRecursively ((committed s this impl).length + 1)
              (committed s this impl) this with
          | none => .diverge
          | some s3 => .ret () s3 := by
  unfold Cell.SetTop Cell.Set
  cases Cell.makeImpl E text with
  | none => rfl
  | some impl =>
    simp only []
    cases Cell.CheckCircularDependencyToArise s this impl with
    | none => rfl
    | some b =>
      cases b with
      | true => rfl
      | false =>
        simp only [UpdateDependencies_eq, Res.bind]
        rfl

theorem formula_of_refs {s : Sheet D} {r b : Position} (h : b ∈ s.refs r) :
    ∃ c, s.find r = some c ∧ c.impl_.InvalidateCache.IsCacheValid = false := by
  unfold Sheet.refs at h
  cases hf : s.find r with
  | none => rw [hf] at h; simp at h
  | some c =>
    rw [hf] at h
    refine ⟨c, rfl, ?_⟩
    cases hi : c.impl_ with
    | EmptyImpl => simp [Cell.GetReferencedCells, hi, Impl.GetReferencedCells] at h
    | TextImpl t => simp [Cell.GetReferencedCells, hi, Impl.GetReferencedCells] at h
    | FormulaImpl ast cache => rfl

theorem length_pos_of_find {s : Sheet D} {p : Position} (h : (s.find p).isSome = true) :
    ∃ n, s.length = n + 1 := by
  cases s with
  | nil => simp [Sheet.find_nil] at h
  | cons kc rest => exact ⟨rest.length, rfl⟩

/-- On a well-formed sheet the invalidation terminates. -/
theorem icr_total_wf {s : Sheet D} (hwf : WellFormed s) (this : Position)
    (hthis : (s.find this).isSome = true) :
    ∃ s1, Cell.InvalidateCacheRecursively (s.length + 1) s this = some s1 := by
  obtain ⟨n, hn⟩ := length_pos_of_find hthis
  rw [hn]
  apply icr_total
  intro r hr
  have h1 : this ∈ s.out_refs r := (hwf.symmetric r this).mpr hr
  exact formula_of_refs ((hwf.refsMatch r this).mp h1)

/-- The three outcomes of `Cell::Set` on a cell of a well-formed sheet. -/
theorem SetTop_cases (E : Collab D) {s : Sheet D} (hwf : WellFormed s) (this : Position)
    (text : String) (hthis : (s.find this).isSome = true) :
    (Cell.makeImpl E text = none ∧ Cell.SetTop E s this text = .raise .FormulaException s) ∨
    (∃ impl, Cell.makeImpl E text = some impl ∧
      Cell.CheckCircularDependencyToArise s this impl = some true ∧
      Cell.SetTop E s this text = .raise .CircularDependencyException s) ∨
    (∃ impl s3, Cell.makeImpl E text = some impl ∧
      Cell.CheckCircularDependencyToArise s this impl = some false ∧
      Cell.SetTop E s this text = .ret () s3 ∧
      SameUpToCache (committed s this impl) s3 ∧ WellFormed s3) := by
  rw [SetTop_eq]
  cases hm : Cell.makeImpl E text with
  | none => exact Or.inl ⟨rfl, rfl⟩
  | some impl =>
    right
    obtain ⟨b, hb, _⟩ := check_spec s this impl
    cases b with
    | true => exact Or.inl ⟨impl, rfl, hb, by simp only [hb]⟩
    | false =>
      right
      have hwf1 := committed_wf hwf this impl hthis hb
      have hthis1 : ((committed s this impl).find this).isSome = true := by
        rw [committed_isSome s this impl hthis, hthis]; rfl
      obtain ⟨s3, hs3⟩ := icr_total_wf hwf1 this hthis1
      refine ⟨impl, s3, rfl, hb, by simp only [hb, hs3], ?_, ?_⟩
      · exact icr_same _ _ _ _ hs3
      · exact hwf1.of_same (icr_same _ _ _ _ hs3)

/-! ## The invariants across the sheet operations -/

theorem WellFormed.congr {s s1 : Sheet D} (hwf : WellFormed s)
    (hout : ∀ q, s1.out_refs q = s.out_refs q) (hin : ∀ q, s1.in_refs q = s.in_refs q)
    (hrefs : ∀ q, s1.refs q = s.refs q) : WellFormed s1 := by
  have hout : s1.out_refs = s.out_refs := funext hout
  have hin : s1.in_refs = s.in_refs := funext hin
  have hrefs : s1.refs = s.refs := funext hrefs
  refine ⟨?_, ?_, ?_⟩
  · intro a b; rw [hout, hin]; exact hwf.symmetric a b
  · intro a
    have h : outEdge s1 = outEdge s := by
      funext x y; unfold outEdge; rw [hout]
    rw [h]; exact hwf.acyclic a
  · intro a b; rw [hout, hrefs]; exact hwf.refsMatch a b

theorem wf_nil : WellFormed ([] : Sheet D) := by
  refine ⟨?_, ?_, ?_⟩
  · intro a b; simp [Sheet.out_refs, Sheet.in_refs, Sheet.find_nil]
  · intro a h
    rcases Relation.TransGen.head'_iff.mp h with ⟨c, hac, _⟩
    simp [outEdge, Sheet.out_refs, Sheet.find_nil] at hac
  · intro a b; simp [Sheet.out_refs, Sheet.refs, Sheet.find_nil]

theorem emplace_wf {s : Sheet D} (hwf : WellFormed s) (pos : Position)
    (h : s.find pos = none) : WellFormed (s.emplace pos) := by
  apply hwf.congr
  · intro q
    unfold Sheet.out_refs
    rw [Sheet.find_emplace s pos q h]
    by_cases hq : q = pos
    · subst hq; simp [h, Cell.new]
    · simp [hq]
  · intro q
    unfold Sheet.in_refs
    rw [Sheet.find_emplace s pos q h]
    by_cases hq : q = pos
    · subst hq; simp [h, Cell.new]
    · simp [hq]
  · intro q
    unfold Sheet.refs
    rw [Sheet.find_emplace s pos q h]
    by_cases hq : q = pos
    · subst hq; simp [h, Cell.new, Cell.GetReferencedCells, Impl.GetReferencedCells]
    · simp [hq]

theorem erase_wf {s : Sheet D} (hwf : WellFormed s) (pos : Position)
    (hin : s.in_refs pos = []) (hout : s.out_refs pos = []) : WellFormed (s.erase pos) := by
  have hout1 : ∀ q, (s.erase pos).out_refs q = if q = pos then [] else s.out_refs q := by
    intro q
    unfold Sheet.out_refs
    rw [Sheet.find_erase]
    by_cases hq : q = pos <;> simp [hq]
  have hin1 : ∀ q, (s.erase pos).in_refs q = if q = pos then [] else s.in_refs q := by
    intro q
    unfold Sheet.in_refs
    rw [Sheet.find_erase]
    by_cases hq : q = pos <;> simp [hq]
  have hrefs1 : ∀ q, (s.erase pos).refs q = if q = pos then [] else s.refs q := by
    intro q
    unfold Sheet.refs
    rw [Sheet.find_erase]
    by_cases hq : q = pos <;> simp [hq]
  apply hwf.congr
  · intro q
    rw [hout1]
    by_cases hq : q = pos
    · subst hq; simp [hout]
    · simp [hq]
  · intro q
    rw [hin1]
    by_cases hq : q = pos
    · subst hq; simp [hin]
    · simp [hq]
  · intro q
    rw [hrefs1]
    by_cases hq : q = pos
    · subst hq
      simp only [if_true]
      have : ∀ b, b ∉ s.refs q := by
        intro b hb
        have := (hwf.refsMatch q b).mpr hb
        rw [hout] at this
        simp at this
      exact (List.eq_nil_iff_forall_not_mem.mpr this).symm
    · simp [hq]

theorem SetCell_wf (E : Collab D) {s : Sheet D} (hwf : WellFormed s) (pos : Position)
    (text : String) :
    ∃ s1, (Sheet.SetCell E s pos text).state? = some s1 ∧ WellFormed s1 := by
  unfold Sheet.SetCell Sheet.SetCellWith
  by_cases hv : pos.IsValid = true
  · simp only [hv, Bool.not_true, Bool.false_eq_true, if_false]
    have hs1 : WellFormed (if (s.find pos).isNone then s.emplace pos else s) ∧
        ((if (s.find pos).isNone then s.emplace pos else s).find pos).isSome = true := by
      cases hf : s.find pos with
      | none =>
        simp only [Option.isNone_none, if_true]
        exact ⟨emplace_wf hwf pos hf, by rw [Sheet.find_emplace s pos pos hf]; simp⟩
      | some c =>
        simp only [Option.isNone_some, Bool.false_eq_true, if_false]
        exact ⟨hwf, by rw [hf]; rfl⟩
    rcases SetTop_cases E hs1.1 pos text hs1.2 with ⟨_, h⟩ | ⟨_, _, _, h⟩ | ⟨_, s3, _, _, h, _, hw⟩
    · exact ⟨_, by unfold Cell.SetTop at h; rw [h]; rfl, hs1.1⟩
    · exact ⟨_, by unfold Cell.SetTop at h; rw [h]; rfl, hs1.1⟩
    · exact ⟨s3, by unfold Cell.SetTop at h; rw [h]; rfl, hw⟩
  · simp only [hv, Bool.not_false, if_true]
    exact ⟨s, rfl, hwf⟩

theorem targets_empty (s : Sheet D) : targets s (.EmptyImpl : Impl D) = [] := rfl

/-- `Clear` always succeeds on a cell of a well-formed sheet. -/
theorem Clear_wf (E : Collab D) {s : Sheet D} (hwf : WellFormed s) (pos : Position)
    (hthis : (s.find pos).isSome = true) :
    ∃ s3, Cell.Clear E (Sheet.SetCellNested E) s pos = .ret () s3 ∧
      SameUpToCache (committed s pos .EmptyImpl) s3 ∧ WellFormed s3 := by
  rcases SetTop_cases E hwf pos "" hthis with ⟨h, _⟩ | ⟨impl, hi, hc, _⟩ | ⟨impl, s3, hi, _, h, hs, hw⟩
  · rw [makeImpl_empty] at h; exact Option.noConfusion h
  · rw [makeImpl_empty] at hi
    have : impl = .EmptyImpl := (Option.some.inj hi).symm
    subst this
    obtain ⟨b, hb, hiff⟩ := check_spec s pos (.EmptyImpl : Impl D)
    rw [hc] at hb
    have hbt : b = true := (Option.some.inj hb).symm
    obtain ⟨t, ht, _⟩ := hiff.mp hbt
    rw [targets_empty] at ht
    simp at ht
  · rw [makeImpl_empty] at hi
    have : impl = .EmptyImpl := (Option.some.inj hi).symm
    subst this
    exact ⟨s3, h, hs, hw⟩

theorem ClearCell_wf (E : Collab D) {s : Sheet D} (hwf : WellFormed s) (pos : Position) :
    ∃ s1, (Sheet.ClearCell E s pos).state? = some s1 ∧ WellFormed s1 := by
  unfold Sheet.ClearCell
  by_cases hv : pos.IsValid = true
  · simp only [hv, Bool.not_true, Bool.false_eq_true, if_false]
    cases hf : s.find pos with
    | none => exact ⟨s, rfl, hwf⟩
    | some c =>
      simp only []
      obtain ⟨s3, h3, hs, hw⟩ := Clear_wf E hwf pos (by rw [hf]; rfl)
      rw [h3]
      simp only [Res.bind]
      cases hf3 : s3.find pos with
      | none => exact ⟨s3, rfl, hw⟩
      | some c3 =>
        simp only []
        by_cases hr : c3.IsReferenced = true
        · simp only [hr, Bool.not_true, Bool.false_eq_true, if_false]
          exact ⟨s3, rfl, hw⟩
        · simp only [hr, Bool.not_false, if_true]
          refine ⟨_, rfl, erase_wf hw pos ?_ ?_⟩
          · simp only [Sheet.in_refs, hf3]
            simpa [Cell.IsReferenced] using hr
          · have h1 : ∀ b, b ∉ s3.out_refs pos := by
              intro b hb
              have h2 := (hw.refsMatch pos b).mp hb
              rw [hs.refs, committed_refs s pos .EmptyImpl (by rw [hf]; rfl)] at h2
              simp [Impl.GetReferencedCells] at h2
            exact List.eq_nil_iff_forall_not_mem.mpr h1
  · simp only [hv, Bool.not_false, if_true]
    exact ⟨s, rfl, hwf⟩

theorem applyOp_wf (E : Collab D) {s : Sheet D} (hwf : WellFormed s) (op : Op)
    (hop : op.isEdit = true) : ∃ s1, applyOp E s op = some s1 ∧ WellFormed s1 := by
  cases op with
  | SetCell pos text => exact SetCell_wf E hwf pos text
  | ClearCell pos => exact ClearCell_wf E hwf pos
  | GetValue pos => simp [Op.isEdit] at hop

theorem runFrom_wf (E : Collab D) (ops : List Op) : ∀ s : Sheet D, WellFormed s →
    (∀ op ∈ ops, op.isEdit = true) → ∃ s1, runFrom E s ops = some s1 ∧ WellFormed s1 := by
  induction ops with
  | nil => intro s hwf _; exact ⟨s, rfl, hwf⟩
  | cons op ops ih =>
    intro s hwf hops
    obtain ⟨s1, h1, hw1⟩ := applyOp_wf E hwf op (hops op (List.mem_cons_self _ _))
    obtain ⟨s2, h2, hw2⟩ := ih s1 hw1 (fun o ho => hops o (List.mem_cons_of_mem _ ho))
    exact ⟨s2, by simp only [runFrom, h1]; exact h2, hw2⟩

theorem run_wf (E : Collab D) (ops : List Op) (hops : ∀ op ∈ ops, op.isEdit = true) :
    ∃ s, run E ops = some s ∧ WellFormed s :=
  runFrom_wf E ops [] wf_nil hops

/-! ## Auxiliary facts for the claims -/

theorem SetTop_raise (E : Collab D) (s : Sheet D) (this : Position) (text : String)
    (x : Thrown) (s1 : Sheet D) (h : Cell.SetTop E s this text = .raise x s1) :
    s1 = s ∧ ((x = .FormulaException ∧ Cell.makeImpl E text = none) ∨
      (x = .CircularDependencyException ∧ ∃ impl, Cell.makeImpl E text = some impl ∧
        Cell.CheckCircularDependencyToArise s this impl = some true)) := by
  rw [SetTop_eq] at h
  cases hm : Cell.makeImpl E text with
  | none =>
    simp only [hm] at h
    injection h with h1 h2
    exact ⟨h2.symm, Or.inl ⟨h1.symm, rfl⟩⟩
  | some impl =>
    simp only [hm] at h
    cases hc : Cell.CheckCircularDependencyToArise s this impl with
    | none => simp only [hc] at h; exact Res.noConfusion h
    | some b =>
      cases b with
      | true =>
        simp only [hc] at h
        injection h with h1 h2
        exact ⟨h2.symm, Or.inr ⟨h1.symm, impl, rfl, hc⟩⟩
      | false =>
        simp only [hc] at h
        cases hi : Cell.InvalidateCacheRecursively ((committed s this impl).length + 1)
            (committed s this impl) this with
        | none => simp only [hi] at h; exact Res.noConfusion h
        | some s3 => simp only [hi] at h; exact Res.noConfusion h

theorem SetTop_ret (E : Collab D) (s : Sheet D) (this : Position) (text : String)
    (s1 : Sheet D) (h : Cell.SetTop E s this text = .ret () s1) :
    ∃ impl, Cell.makeImpl E text = some impl ∧
      Cell.CheckCircularDependencyToArise s this impl = some false ∧
      SameUpToCache (committed s this impl) s1 := by
  rw [SetTop_eq] at h
  cases hm : Cell.makeImpl E text with
  | none => simp only [hm] at h; exact Res.noConfusion h
  | some impl =>
    simp only [hm] at h
    cases hc : Cell.CheckCircularDependencyToArise s this impl with
    | none => simp only [hc] at h; exact Res.noConfusion h
    | some b =>
      cases b with
      | true => simp only [hc] at h; exact Res.noConfusion h
      | false =>
        simp only [hc] at h
        cases hi : Cell.InvalidateCacheRecursively ((committed s this impl).length + 1)
            (committed s this impl) this with
        | none => simp only [hi] at h; exact Res.noConfusion h
        | some s3 =>
          simp only [hi] at h
          injection h with _ h2
          subst h2
          exact ⟨impl, rfl, hc, icr_same _ _ _ _ hi⟩

theorem SameUpToCache.impl {s s1 : Sheet D} (h : SameUpToCache s s1) (q : Position) :
    (s1.impl q).map Impl.InvalidateCache = (s.impl q).map Impl.InvalidateCache := by
  have h1 := h q
  unfold Sheet.impl
  cases hf1 : s1.find q <;> cases hf : s.find q <;> simp [hf1, hf] at h1 ⊢
  have h3 := congrArg (fun c : Cell D => c.impl_) h1
  exact h3

theorem find_ensure_self (s : Sheet D) (pos : Position) :
    ((if (s.find pos).isNone then s.emplace pos else s).find pos).isSome = true := by
  rw [find_ensure]
  cases s.find pos <;> simp

/-- The text of the candidate state of `Set`. -/
theorem makeImpl_text (E : Collab D) (text : String) (impl : Impl D)
    (h : Cell.makeImpl E text = some impl) :
    (¬ (text.data.head? = some FORMULA_SIGN ∧ text.length > 1) → impl.GetText E = text) ∧
    ((text.data.head? = some FORMULA_SIGN ∧ text.length > 1) →
      ∃ ast, E.ParseFormulaAST (text.drop 1) = some ast ∧
        impl.GetText E = String.singleton FORMULA_SIGN ++ E.PrintFormula ast) := by
  unfold Cell.makeImpl at h
  by_cases h0 : text.length = 0
  · have ht : text = "" := by
      have : text.data = [] := List.length_eq_zero.mp h0
      exact String.ext this
    subst ht
    simp only [String.length, String.data, List.length_nil, if_true] at h
    have hi : impl = .EmptyImpl := (Option.some.inj h).symm
    subst hi
    constructor
    · intro _; rfl
    · rintro ⟨_, h2⟩; simp at h2
  · simp only [h0, if_false] at h
    by_cases hf : text.data.head? = some FORMULA_SIGN ∧ text.length > 1
    · simp only [hf, and_self, if_true] at h
      constructor
      · intro hn; exact absurd hf hn
      · intro _
        cases hp : E.ParseFormulaAST (text.drop 1) with
        | none => rw [hp] at h; simp at h
        | some ast =>
          rw [hp] at h
          simp only [Option.map_some', Option.some.injEq] at h
          subst h
          exact ⟨ast, rfl, rfl⟩
    · simp only [hf, if_false] at h
      have hi : impl = .TextImpl text := (Option.some.inj h).symm
      subst hi
      exact ⟨fun _ => rfl, fun hy => absurd hy hf⟩

theorem refs_of_find {s : Sheet D} {q : Position} {c : Cell D} (h : s.find q = some c) :
    s.refs q = c.GetReferencedCells := by
  simp [Sheet.refs, h]

theorem out_refs_of_find {s : Sheet D} {q : Position} {c : Cell D} (h : s.find q = some c) :
    s.out_refs q = c.out_refs_ := by
  simp [Sheet.out_refs, h]

theorem in_refs_of_find {s : Sheet D} {q : Position} {c : Cell D} (h : s.find q = some c) :
    s.in_refs q = c.in_refs_ := by
  simp [Sheet.in_refs, h]

/-- A referenced position holds a cell. -/
theorem WellFormed.referenced_isSome {s : Sheet D} (hwf : WellFormed s) (q p : Position)
    (h : p ∈ s.refs q) : (s.find p).isSome = true :=
  isSome_of_in_refs ((hwf.symmetric q p).mp ((hwf.refsMatch q p).mpr h))

/-- `ClearCell` keeps a cell that another cell references. -/
theorem ClearCell_keeps_referenced (E : Collab D) {s : Sheet D} (hwf : WellFormed s)
    (p q : Position) (hqp : q ≠ p) (h : p ∈ s.refs q) :
    ∃ s1, Sheet.ClearCell E s p = .ret () s1 ∧ (s1.find p).isSome = true := by
  have hq : q ∈ s.in_refs p := (hwf.symmetric q p).mp ((hwf.refsMatch q p).mpr h)
  have hp : (s.find p).isSome = true := isSome_of_in_refs hq
  have hv : p.IsValid = true := by
    unfold Sheet.refs at h
    cases hf : s.find q with
    | none => rw [hf] at h; simp at h
    | some c => rw [hf] at h; exact Impl.GetReferencedCells_valid c.impl_ p h
  unfold Sheet.ClearCell
  simp only [hv, Bool.not_true, Bool.false_eq_true, if_false]
  cases hf : s.find p with
  | none => rw [hf] at hp; simp at hp
  | some c =>
    simp only []
    obtain ⟨s3, h3, hs, hw⟩ := Clear_wf E hwf p hp
    rw [h3]
    simp only [Res.bind]
    have hq3 : q ∈ s3.in_refs p := by
      rw [hs.in_refs, committed_in_refs, (rewire_spec s p _ hp).2.2.1 p q]
      exact Or.inl ⟨hq, fun hh => hqp hh.1⟩
    cases hf3 : s3.find p with
    | none => rw [Sheet.in_refs, hf3] at hq3; simp at hq3
    | some c3 =>
      simp only []
      have hr : c3.IsReferenced = true := by
        rw [in_refs_of_find hf3] at hq3
        cases hl : c3.in_refs_ with
        | nil => rw [hl] at hq3; simp at hq3
        | cons a l => simp [Cell.IsReferenced, hl]
      simp only [hr, Bool.not_true, Bool.false_eq_true, if_false]
      exact ⟨s3, rfl, by rw [hf3]; rfl⟩

/-! ## The claims -/

/-- C1: for every finite sequence of `SetCell` and `ClearCell` calls on an
initially empty sheet, failing calls included, every call returns or throws and
the graph of the out-edges is acyclic after each call (after the first `n`
calls, for every `n`). -/
theorem C1_acyclic_after_each_call (E : Collab D) (ops : List Op)
    (hops : ∀ op ∈ ops, op.isEdit = true) (n : Nat) :
    ∃ s, run E (ops.take n) = some s ∧ Acyclic s := by
  obtain ⟨s, hs, hwf⟩ := run_wf E (ops.take n) (fun op h => hops op (List.mem_of_mem_take h))
  exact ⟨s, hs, hwf.acyclic⟩

/-- Witness of C1: three edits, the second of which throws
`CircularDependencyException`. -/
theorem C1_acyclic_after_each_call_witness :
    (∀ op ∈ [Op.SetCell Demo.A1 "=B1", Op.SetCell Demo.B1 "=A1", Op.ClearCell Demo.A1],
        op.isEdit = true) ∧
      ∃ s, run Demo.env
          (([Op.SetCell Demo.A1 "=B1", Op.SetCell Demo.B1 "=A1", Op.ClearCell Demo.A1]).take 2)
            = some s ∧ Acyclic s :=
  ⟨by decide, C1_acyclic_after_each_call Demo.env _ (by decide) 2⟩

/-- C2: on a sheet whose graph is acyclic and whose in/out sets are symmetric,
for the cell at `this` and a candidate that parsed, `Cell::Set` throws
`CircularDependencyException` iff replacing the out-edges of `this` by edges to
the existing referenced cells `T` would create a cycle, iff some `t ∈ T` is
`this` or reaches `this` along out-edges; `CheckCircularDependencyToArise`
returns true exactly then and false otherwise. -/
theorem C2_cycle_check_exact (E : Collab D) (s : Sheet D) (this : Position) (text : String)
    (impl : Impl D) (hacyc : Acyclic s) (hsym : InOutSymmetric s)
    (hthis : (s.find this).isSome = true)
    (hparse : Cell.makeImpl E text = some impl) :
    ((∃ s1, Cell.SetTop E s this text = .raise .CircularDependencyException s1) ↔
        CreatesCycle s this (targets s impl)) ∧
    (CreatesCycle s this (targets s impl) ↔
        ∃ t ∈ targets s impl, t = this ∨ Relation.TransGen (outEdge s) t this) ∧
    (Cell.CheckCircularDependencyToArise s this impl = some true ↔
        CreatesCycle s this (targets s impl)) ∧
    (Cell.CheckCircularDependencyToArise s this impl = some false ↔
        ¬ CreatesCycle s this (targets s impl)) := by
  obtain ⟨b, hb, hiff⟩ := check_spec s this impl
  have hcc : CreatesCycle s this (targets s impl) ↔ b = true := by
    rw [createsCycle_iff hacyc, hiff]
    constructor
    · rintro ⟨t, ht, hp⟩; exact ⟨t, ht, reach_in_of_out hsym hthis hp⟩
    · rintro ⟨t, ht, hp⟩
      exact ⟨t, ht, reach_out_of_in hsym hp ((mem_targets s impl t).mp ht).2⟩
  have hset : (∃ s1, Cell.SetTop E s this text = .raise .CircularDependencyException s1) ↔
      b = true := by
    rw [SetTop_eq]
    simp only [hparse, hb]
    cases b with
    | true => simp
    | false =>
      simp only [Bool.false_eq_true, iff_false, not_exists]
      intro s1 h
      cases hi : Cell.InvalidateCacheRecursively ((committed s this impl).length + 1)
          (committed s this impl) this with
      | none => rw [hi] at h; exact Res.noConfusion h
      | some s3 => rw [hi] at h; exact Res.noConfusion h
  refine ⟨hset.trans hcc.symm, ?_, ?_, ?_⟩
  · rw [createsCycle_iff hacyc]
    constructor
    · rintro ⟨t, ht, hp⟩
      exact ⟨t, ht, (Relation.reflTransGen_iff_eq_or_transGen.mp hp).imp Eq.symm id⟩
    · rintro ⟨t, ht, hp⟩
      exact ⟨t, ht, Relation.reflTransGen_iff_eq_or_transGen.mpr (hp.imp Eq.symm id)⟩
  · rw [hcc, hb]; simp
  · rw [hcc, hb]; cases b <;> simp

/-- The sheet after `SetCell(A1, "=B1")`. -/
theorem run_demo_A1 : run Demo.env [Op.SetCell Demo.A1 "=B1"] = some Demo.sheetAB := by
  rfl

theorem wf_sheetAB : WellFormed Demo.sheetAB := by
  obtain ⟨s, hs, hwf⟩ := run_wf Demo.env [Op.SetCell Demo.A1 "=B1"] (by decide)
  rw [run_demo_A1] at hs
  exact Option.some.inj hs ▸ hwf

/-- Witness of C2: after `SetCell(A1, "=B1")`, setting `B1` to `"=A1"`. -/
theorem C2_cycle_check_exact_witness :
    Acyclic Demo.sheetAB ∧ InOutSymmetric Demo.sheetAB ∧
    (Demo.sheetAB.find Demo.B1).isSome = true ∧
    Cell.makeImpl Demo.env "=A1" = some (.FormulaImpl (.cell Demo.A1) none) ∧
    ((∃ s1, Cell.SetTop Demo.env Demo.sheetAB Demo.B1 "=A1"
          = .raise .CircularDependencyException s1) ↔
        CreatesCycle Demo.sheetAB Demo.B1
          (targets Demo.sheetAB (.FormulaImpl (.cell Demo.A1) none))) ∧
    (CreatesCycle Demo.sheetAB Demo.B1 (targets Demo.sheetAB (.FormulaImpl (.cell Demo.A1) none)) ↔
        ∃ t ∈ targets Demo.sheetAB (.FormulaImpl (.cell Demo.A1) none),
          t = Demo.B1 ∨ Relation.TransGen (outEdge Demo.sheetAB) t Demo.B1) ∧
    (Cell.CheckCircularDependencyToArise Demo.sheetAB Demo.B1
          (.FormulaImpl (.cell Demo.A1) none) = some true ↔
        CreatesCycle Demo.sheetAB Demo.B1
          (targets Demo.sheetAB (.FormulaImpl (.cell Demo.A1) none))) ∧
    (Cell.CheckCircularDependencyToArise Demo.sheetAB Demo.B1
          (.FormulaImpl (.cell Demo.A1) none) = some false ↔
        ¬ CreatesCycle Demo.sheetAB Demo.B1
          (targets Demo.sheetAB (.FormulaImpl (.cell Demo.A1) none))) :=
  ⟨wf_sheetAB.acyclic, wf_sheetAB.symmetric.inOut, rfl, rfl,
    C2_cycle_check_exact Demo.env Demo.sheetAB Demo.B1 "=A1" (.FormulaImpl (.cell Demo.A1) none)
      wf_sheetAB.acyclic wf_sheetAB.symmetric.inOut rfl rfl⟩

/-- C3 (the code at the failing input): after `A1 = "1"`, `B1 = "=A1"`,
`C1 = "=B1"`, a read of `C1` and `SetCell(A1, "2")`, the formula cell `C1` has
the cache `1` although evaluating its formula on that sheet gives `2`, and
`GetValue` returns the stale `1`. -/
theorem C3_stale_cache_after_edit :
    run Demo.env (Demo.chainOps ++ [Op.SetCell Demo.A1 "2"]) = some Demo.sheetStale ∧
    Demo.sheetStale.impl Demo.C1
      = some (.FormulaImpl (.cell Demo.B1) (some (.number 1))) ∧
    (∃ s1, Formula.Evaluate Demo.env (Cell.GetValue Demo.env (Demo.sheetStale.length + 1))
        (.cell Demo.B1) Demo.sheetStale = .ret (.number 2) s1) ∧
    (∃ s2, Sheet.GetValue Demo.env Demo.sheetStale Demo.C1
        = .ret (some (.number 1)) s2) :=
  ⟨rfl, rfl, ⟨_, rfl⟩, ⟨_, rfl⟩⟩

/-- C4 (the code at the failing input): with `A1 = "1"`, `B1 = "=A1"`,
`C1 = "=B1"` and the caches filled by a read of `C1`, `Cell::Set` on `A1`
succeeds and leaves the cache of `C1` present, although `C1` references `B1`
and `B1` references `A1`. -/
theorem C4_indirect_dependent_keeps_cache :
    run Demo.env Demo.chainOps = some Demo.sheetChain ∧
    Cell.SetTop Demo.env Demo.sheetChain Demo.A1 "2" = .ret () Demo.sheetStale ∧
    Demo.B1 ∈ Demo.sheetStale.in_refs Demo.A1 ∧
    Demo.C1 ∈ Demo.sheetStale.in_refs Demo.B1 ∧
    (Demo.sheetStale.impl Demo.C1).map Impl.IsCacheValid = some true ∧
    Demo.sheetStale.impl Demo.C1
      = some (.FormulaImpl (.cell Demo.B1) (some (.number 1))) :=
  ⟨rfl, rfl, by decide, by decide, rfl, rfl⟩

/-- C5 (the code at the failing input): with `A1 = "=1/0"` and `B1 = "=A1"`,
the value of `A1` is the error `#ARITHM!`, and `GetValue` on `B1` does not
return that error: `std::bad_variant_access` leaves it. -/
theorem C5_error_operand_throws :
    run Demo.env [Op.SetCell Demo.A1 "=1/0", Op.SetCell Demo.B1 "=A1"] = some Demo.sheetDiv ∧
    (∃ s1, Cell.GetValue Demo.env (Demo.sheetDiv.length + 1) Demo.sheetDiv Demo.A1
        = .ret (.error ⟨.Arithmetic⟩) s1) ∧
    (∃ s2, Cell.GetValue Demo.env (Demo.sheetDiv.length + 1) Demo.sheetDiv Demo.B1
        = .raise .bad_variant_access s2) ∧
    (∃ s3, Sheet.GetValue Demo.env Demo.sheetDiv Demo.B1 = .raise .bad_variant_access s3) :=
  ⟨rfl, ⟨_, rfl⟩, ⟨_, rfl⟩, ⟨_, rfl⟩⟩

/-- C6 as stated fails: on the empty sheet `SetCell(A1, "=A1")` throws
`CircularDependencyException` and `SetCell(A1, "=B1+")` throws
`FormulaException`, and after either call `A1` holds a cell although it held
none before. -/
theorem C6_failed_SetCell_creates_cell :
    (∃ s1, Sheet.SetCell Demo.env [] Demo.A1 "=A1" = .raise .CircularDependencyException s1 ∧
      Sheet.find ([] : Sheet Int) Demo.A1 = none ∧ (s1.find Demo.A1).isSome = true) ∧
    (∃ s2, Sheet.SetCell Demo.env [] Demo.A1 "=B1+" = .raise .FormulaException s2 ∧
      Sheet.find ([] : Sheet Int) Demo.A1 = none ∧ (s2.find Demo.A1).isSome = true) :=
  ⟨⟨_, rfl, rfl, rfl⟩, ⟨_, rfl, rfl, rfl⟩⟩

/-- C6 amended: when `SetCell(pos, text)` throws, it throws
`InvalidPositionException` and the sheet is unchanged, or it throws
`FormulaException` or `CircularDependencyException`, `pos` is valid, every
position other than `pos` holds exactly the cell it held before (same text,
in-set and out-set), and `pos` holds the cell it held before or, when it held
none, a new Empty cell without edges. -/
theorem C6_failed_SetCell_frame (E : Collab D) (s : Sheet D) (pos : Position) (text : String)
    (x : Thrown) (s1 : Sheet D) (h : Sheet.SetCell E s pos text = .raise x s1) :
    (x = .InvalidPositionException ∧ pos.IsValid = false ∧ s1 = s) ∨
    ((x = .FormulaException ∨ x = .CircularDependencyException) ∧ pos.IsValid = true ∧
      (∀ q, q ≠ pos → s1.find q = s.find q) ∧
      s1.find pos = some ((s.find pos).getD Cell.new)) := by
  unfold Sheet.SetCell Sheet.SetCellWith at h
  by_cases hv : pos.IsValid = true
  · right
    simp only [hv, Bool.not_true, Bool.false_eq_true, if_false] at h
    obtain ⟨hs1, hx⟩ := SetTop_raise E _ pos text x s1 h
    subst hs1
    refine ⟨?_, hv, ?_, ?_⟩
    · rcases hx with ⟨hx, _⟩ | ⟨hx, _⟩
      · exact Or.inl hx
      · exact Or.inr hx
    · intro q hq
      rw [find_ensure]
      simp [hq]
    · rw [find_ensure]
      cases s.find pos <;> simp
  · left
    simp only [hv, Bool.not_false, if_true] at h
    injection h with h1 h2
    exact ⟨h1.symm, by simpa using hv, h2.symm⟩

/-- Witness of the amended C6: `SetCell(B1, "=A1")` after `SetCell(A1, "=B1")`. -/
theorem C6_failed_SetCell_frame_witness :
    Sheet.SetCell Demo.env Demo.sheetAB Demo.B1 "=A1"
        = .raise .CircularDependencyException Demo.sheetAB ∧
    ((Thrown.CircularDependencyException = .InvalidPositionException ∧
        Demo.B1.IsValid = false ∧ Demo.sheetAB = Demo.sheetAB) ∨
      ((Thrown.CircularDependencyException = .FormulaException ∨
          Thrown.CircularDependencyException = .CircularDependencyException) ∧
        Demo.B1.IsValid = true ∧
        (∀ q, q ≠ Demo.B1 → Demo.sheetAB.find q = Demo.sheetAB.find q) ∧
        Demo.sheetAB.find Demo.B1 = some ((Demo.sheetAB.find Demo.B1).getD Cell.new))) :=
  ⟨rfl, C6_failed_SetCell_frame Demo.env Demo.sheetAB Demo.B1 "=A1" _ _ rfl⟩

/-- C7: when `Cell::Set` throws (the formula does not parse, or the cycle check
fires), the sheet is exactly the sheet before the call: the state, in-set and
out-set of the cell, every other cell with its cache, and the set of cells
(no Empty cell is created for the references of the rejected candidate). -/
theorem C7_Set_all_or_nothing (E : Collab D) (s : Sheet D) (this : Position) (text : String)
    (x : Thrown) (s1 : Sheet D) (h : Cell.SetTop E s this text = .raise x s1) :
    s1 = s ∧ (x = .FormulaException ∨ x = .CircularDependencyException) := by
  obtain ⟨hs1, hx⟩ := SetTop_raise E s this text x s1 h
  refine ⟨hs1, ?_⟩
  rcases hx with ⟨hx, _⟩ | ⟨hx, _⟩
  · exact Or.inl hx
  · exact Or.inr hx

/-- Witness of C7: on the sheet with one Empty cell at `A1`, `Set("=B1+")` on
`A1` throws `FormulaException`; `B1` is not created. -/
theorem C7_Set_all_or_nothing_witness :
    Cell.SetTop Demo.env [(Demo.A1, Cell.new)] Demo.A1 "=B1+"
        = .raise .FormulaException [(Demo.A1, Cell.new)] ∧
    ([(Demo.A1, Cell.new)] = ([(Demo.A1, Cell.new)] : Sheet Int) ∧
      (Thrown.FormulaException = .FormulaException ∨
        Thrown.FormulaException = .CircularDependencyException)) :=
  ⟨rfl, C7_Set_all_or_nothing Demo.env [(Demo.A1, Cell.new)] Demo.A1 "=B1+" _ _ rfl⟩

/-- C8: after every sequence of `SetCell` and `ClearCell` calls on the empty
sheet, for all cells `A` and `B` of the sheet, `B` is in `out_refs_` of `A` iff
`A` is in `in_refs_` of `B`. -/
theorem C8_in_out_symmetric (E : Collab D) (ops : List Op)
    (hops : ∀ op ∈ ops, op.isEdit = true) :
    ∃ s, run E ops = some s ∧
      ∀ A B cA cB, s.find A = some cA → s.find B = some cB →
        (B ∈ cA.out_refs_ ↔ A ∈ cB.in_refs_) := by
  obtain ⟨s, hs, hwf⟩ := run_wf E ops hops
  exact ⟨s, hs, hwf.symmetric.inOut⟩

/-- Witness of C8: two edits and a clear. -/
theorem C8_in_out_symmetric_witness :
    (∀ op ∈ [Op.SetCell Demo.A1 "=B1", Op.SetCell Demo.C1 "=A1+B1", Op.ClearCell Demo.A1],
        op.isEdit = true) ∧
    ∃ s, run Demo.env
        [Op.SetCell Demo.A1 "=B1", Op.SetCell Demo.C1 "=A1+B1", Op.ClearCell Demo.A1] = some s ∧
      ∀ A B cA cB, s.find A = some cA → s.find B = some cB →
        (B ∈ cA.out_refs_ ↔ A ∈ cB.in_refs_) :=
  ⟨by decide, C8_in_out_symmetric Demo.env _ (by decide)⟩

/-- C9: after every sequence of `SetCell` and `ClearCell` calls on the empty
sheet, `GetCell` returns a cell (not `nullptr`) for every position in
`GetReferencedCells()` of a cell of the sheet, and `ClearCell(p)` returns and
keeps the cell at `p` whenever another cell references `p`. -/
theorem C9_referenced_cells_exist (E : Collab D) (ops : List Op)
    (hops : ∀ op ∈ ops, op.isEdit = true) :
    ∃ s, run E ops = some s ∧
      (∀ q c p, s.find q = some c → p ∈ c.GetReferencedCells →
        ∃ cp, Sheet.GetCell s p = .ret (some cp) s) ∧
      (∀ q c p, q ≠ p → s.find q = some c → p ∈ c.GetReferencedCells →
        ∃ s1 cp, Sheet.ClearCell E s p = .ret () s1 ∧
          Sheet.GetCell s1 p = .ret (some cp) s1) := by
  obtain ⟨s, hs, hwf⟩ := run_wf E ops hops
  refine ⟨s, hs, ?_, ?_⟩
  · intro q c p hq hp
    have hv : p.IsValid = true := Impl.GetReferencedCells_valid c.impl_ p hp
    obtain ⟨cp, hcp⟩ := isSome_iff_exists.mp
      (hwf.referenced_isSome q p (by rw [refs_of_find hq]; exact hp))
    exact ⟨cp, by simp [Sheet.GetCell, hv, hcp]⟩
  · intro q c p hqp hq hp
    have hv : p.IsValid = true := Impl.GetReferencedCells_valid c.impl_ p hp
    obtain ⟨s1, h1, h2⟩ :=
      ClearCell_keeps_referenced E hwf p q hqp (by rw [refs_of_find hq]; exact hp)
    obtain ⟨cp, hcp⟩ := isSome_iff_exists.mp h2
    exact ⟨s1, cp, h1, by simp [Sheet.GetCell, hv, hcp]⟩

/-- Witness of C9: `A1 = "=B1"`, then `C1 = "=A1+B1"`. -/
theorem C9_referenced_cells_exist_witness :
    (∀ op ∈ [Op.SetCell Demo.A1 "=B1", Op.SetCell Demo.C1 "=A1+B1"], op.isEdit = true) ∧
    ∃ s, run Demo.env [Op.SetCell Demo.A1 "=B1", Op.SetCell Demo.C1 "=A1+B1"] = some s ∧
      (∀ q c p, s.find q = some c → p ∈ c.GetReferencedCells →
        ∃ cp, Sheet.GetCell s p = .ret (some cp) s) ∧
      (∀ q c p, q ≠ p → s.find q = some c → p ∈ c.GetReferencedCells →
        ∃ s1 cp, Sheet.ClearCell Demo.env s p = .ret () s1 ∧
          Sheet.GetCell s1 p = .ret (some cp) s1) :=
  ⟨by decide, C9_referenced_cells_exist Demo.env _ (by decide)⟩

/-- C10: if `SetCell(p, t)` returns, then `p` is valid, `GetCell(p)` returns a
cell, and its `GetText()` is `t` when `t` is empty or is not a formula (does
not start with `=`, or is the single character `=`; a text starting with the
escape sign is of this kind), and is `=` followed by the canonical expression
of the parsed `t[1:]` when `t` starts with `=` and is longer than one
character. -/
theorem C10_GetText_after_SetCell (E : Collab D) (s : Sheet D) (p : Position) (t : String)
    (s1 : Sheet D) (h : Sheet.SetCell E s p t = .ret () s1) :
    p.IsValid = true ∧
    ∃ c, Sheet.GetCell s1 p = .ret (some c) s1 ∧
      (¬ (t.data.head? = some FORMULA_SIGN ∧ t.length > 1) → c.GetText E = t) ∧
      ((t.data.head? = some FORMULA_SIGN ∧ t.length > 1) →
        ∃ ast, E.ParseFormulaAST (t.drop 1) = some ast ∧
          c.GetText E = "=" ++ E.PrintFormula ast) := by
  unfold Sheet.SetCell Sheet.SetCellWith at h
  by_cases hv : p.IsValid = true
  · simp only [hv, Bool.not_true, Bool.false_eq_true, if_false] at h
    obtain ⟨impl, hm, _, hsame⟩ := SetTop_ret E _ p t s1 h
    have hthis := find_ensure_self s p
    have himpl := hsame.impl p
    rw [committed_impl _ p impl hthis] at himpl
    simp only [if_true, Option.map_some'] at himpl
    refine ⟨hv, ?_⟩
    unfold Sheet.impl at himpl
    cases hf : s1.find p with
    | none => rw [hf] at himpl; simp at himpl
    | some c =>
      rw [hf] at himpl
      simp only [Option.map_some', Option.some.injEq] at himpl
      have htext : c.GetText E = impl.GetText E := by
        unfold Cell.GetText
        rw [← Impl.GetText_InvalidateCache E c.impl_, himpl, Impl.GetText_InvalidateCache]
      refine ⟨c, by simp [Sheet.GetCell, hv, hf], ?_⟩
      rw [htext]
      exact makeImpl_text E t impl hm
  · simp only [hv, Bool.not_false, if_true] at h
    exact Res.noConfusion h

/-- Witness of C10: `SetCell(C1, "=A1+B1")` on the empty sheet. -/
theorem C10_GetText_after_SetCell_witness :
    Sheet.SetCell Demo.env [] Demo.C1 "=A1+B1"
      = .ret () [(Demo.C1, ⟨.FormulaImpl (.binary .add (.cell Demo.A1) (.cell Demo.B1)) none,
            [], [Demo.B1, Demo.A1]⟩),
          (Demo.A1, ⟨.EmptyImpl, [Demo.C1], []⟩), (Demo.B1, ⟨.EmptyImpl, [Demo.C1], []⟩)] ∧
    (Demo.C1.IsValid = true ∧
      ∃ c, Sheet.GetCell [(Demo.C1,
              ⟨.FormulaImpl (.binary .add (.cell Demo.A1) (.cell Demo.B1)) none,
                [], [Demo.B1, Demo.A1]⟩),
            (Demo.A1, ⟨.EmptyImpl, [Demo.C1], []⟩), (Demo.B1, ⟨.EmptyImpl, [Demo.C1], []⟩)]
          Demo.C1
          = .ret (some c) [(Demo.C1,
              ⟨.FormulaImpl (.binary .add (.cell Demo.A1) (.cell Demo.B1)) none,
                [], [Demo.B1, Demo.A1]⟩),
            (Demo.A1, ⟨.EmptyImpl, [Demo.C1], []⟩), (Demo.B1, ⟨.EmptyImpl, [Demo.C1], []⟩)] ∧
        (¬ (("=A1+B1" : String).data.head? = some FORMULA_SIGN ∧ ("=A1+B1" : String).length > 1) →
          c.GetText Demo.env = "=A1+B1") ∧
        ((("=A1+B1" : String).data.head? = some FORMULA_SIGN ∧ ("=A1+B1" : String).length > 1) →
          ∃ ast, Demo.env.ParseFormulaAST (("=A1+B1" : String).drop 1) = some ast ∧
            c.GetText Demo.env = "=" ++ Demo.env.PrintFormula ast)) :=
  ⟨rfl, C10_GetText_after_SetCell Demo.env [] Demo.C1 "=A1+B1" _ rfl⟩

/-! ## The order of positions and `Formula::GetReferencedCells` -/

theorem Position.lt_iff (a b : Position) :
    Position.lt a b = true ↔ a.row < b.row ∨ (a.row = b.row ∧ a.col < b.col) := by
  simp [Position.lt]

theorem Position.lt_irrefl (a : Position) : Position.lt a a = false := by
  cases h : Position.lt a a with
  | false => rfl
  | true => rw [Position.lt_iff] at h; omega

theorem Position.lt_trans {a b c : Position} (h1 : Position.lt a b = true)
    (h2 : Position.lt b c = true) : Position.lt a c = true := by
  rw [Position.lt_iff] at *; omega

theorem Position.lt_of_not_lt_of_ne {a b : Position} (h1 : Position.lt b a = false)
    (h2 : a ≠ b) : Position.lt a b = true := by
  have h3 : ¬ (b.row < a.row ∨ (b.row = a.row ∧ b.col < a.col)) := by
    rw [← Position.lt_iff, h1]; simp
  rw [Position.lt_iff]
  have h4 : ¬ (a.row = b.row ∧ a.col = b.col) := by
    rintro ⟨hr, hc⟩
    apply h2
    cases a; cases b
    simp only at hr hc
    rw [hr, hc]
  omega

theorem Position.lt_of_lt_of_not_lt {a b c : Position} (h1 : Position.lt a b = true)
    (h2 : Position.lt c b = false) : Position.lt a c = true := by
  have h3 : ¬ (c.row < b.row ∨ (c.row = b.row ∧ c.col < b.col)) := by
    rw [← Position.lt_iff, h2]; simp
  rw [Position.lt_iff] at *; omega

theorem Position.not_lt_trans {a b c : Position} (h1 : Position.lt b a = false)
    (h2 : Position.lt c b = false) : Position.lt c a = false := by
  have h3 : ¬ (b.row < a.row ∨ (b.row = a.row ∧ b.col < a.col)) := by
    rw [← Position.lt_iff, h1]; simp
  have h4 : ¬ (c.row < b.row ∨ (c.row = b.row ∧ c.col < b.col)) := by
    rw [← Position.lt_iff, h2]; simp
  cases h : Position.lt c a with
  | false => rfl
  | true => rw [Position.lt_iff] at h; omega

theorem Position.not_lt_of_lt {a b : Position} (h : Position.lt a b = true) :
    Position.lt b a = false := by
  cases h1 : Position.lt b a with
  | false => rfl
  | true => rw [Position.lt_iff] at *; omega

/-- `std::sort` leaves a list in which no element is less than an earlier one. -/
theorem sortedInsert_sorted (p : Position) (l : List Position)
    (h : l.Pairwise fun a b => Position.lt b a = false) :
    (sortedInsert p l).Pairwise fun a b => Position.lt b a = false := by
  induction l with
  | nil => simp [sortedInsert]
  | cons q rest ih =>
    rw [List.pairwise_cons] at h
    unfold sortedInsert
    by_cases hq : Position.lt q p = true
    · simp only [hq, if_true]
      rw [List.pairwise_cons]
      refine ⟨?_, ih h.2⟩
      intro x hx
      rcases (mem_sortedInsert p x rest).mp hx with rfl | hx
      · exact Position.not_lt_of_lt hq
      · exact h.1 x hx
    · have hq1 : Position.lt q p = false := by simpa using hq
      simp only [hq1, Bool.false_eq_true, if_false]
      rw [List.pairwise_cons, List.pairwise_cons]
      refine ⟨?_, h⟩
      intro x hx
      rcases List.mem_cons.mp hx with rfl | hx
      · exact hq1
      · exact Position.not_lt_trans hq1 (h.1 x hx)

theorem sortPositions_sorted (l : List Position) :
    (sortPositions l).Pairwise fun a b => Position.lt b a = false := by
  induction l with
  | nil => simp [sortPositions]
  | cons p rest ih => exact sortedInsert_sorted p _ ih

/-- `std::unique` on a sorted list leaves a strictly increasing list. -/
theorem uniquePositions_strict : ∀ l : List Position,
    (l.Pairwise fun a b => Position.lt b a = false) →
    (uniquePositions l).Pairwise fun a b => Position.lt a b = true
  | [], _ => by simp [uniquePositions]
  | [p], _ => by simp [uniquePositions]
  | p :: q :: rest, h => by
    have h1 := List.pairwise_cons.mp h
    have ih := uniquePositions_strict (q :: rest) h1.2
    unfold uniquePositions
    by_cases hpq : p = q
    · simp only [hpq, if_true]; exact ih
    · simp only [hpq, if_false]
      rw [List.pairwise_cons]
      refine ⟨?_, ih⟩
      intro x hx
      have hx1 := (mem_uniquePositions x (q :: rest)).mp hx
      have hpq1 : Position.lt p q = true :=
        Position.lt_of_not_lt_of_ne (h1.1 q (List.mem_cons_self _ _)) hpq
      rcases List.mem_cons.mp hx1 with rfl | hx2
      · exact hpq1
      · exact Position.lt_of_lt_of_not_lt hpq1
          ((List.pairwise_cons.mp h1.2).1 x hx2)

/-- C16: for every list of positions returned by the AST, in any order, with
duplicates and invalid entries, `Formula::GetReferencedCells` returns a list
that is strictly increasing in the lexicographic `(row, col)` order, hence free
of duplicates, and whose elements are exactly the valid positions of the AST's
list. -/
theorem C16_GetReferencedCells_sorted_unique_valid (cells : List Position) :
    ((Formula.GetReferencedCellsOf cells).Pairwise fun a b => Position.lt a b = true) ∧
    (Formula.GetReferencedCellsOf cells).Nodup ∧
    (∀ x, x ∈ Formula.GetReferencedCellsOf cells ↔ x ∈ cells ∧ x.IsValid = true) := by
  have h1 : (Formula.GetReferencedCellsOf cells).Pairwise fun a b => Position.lt a b = true :=
    uniquePositions_strict _ (sortPositions_sorted _)
  refine ⟨h1, ?_, fun x => mem_GetReferencedCellsOf x cells⟩
  apply h1.imp
  intro a b hab heq
  rw [heq, Position.lt_irrefl] at hab
  exact Bool.noConfusion hab

/-! ## Printing -/

theorem foldl_append_eq (f : Nat → String) (l : List Nat) : ∀ out : String,
    l.foldl (fun out x => out ++ f x) out = out ++ concatAll (l.map f) := by
  induction l with
  | nil => intro out; simp [concatAll]
  | cons a l ih =>
    intro out
    simp only [List.foldl_cons, List.map_cons, concatAll]
    rw [ih, String.append_assoc]

theorem tabSeparated_cons (a : String) (rest : List String) :
    tabSeparated (a :: rest) = a ++ concatAll (rest.map fun x => "\t" ++ x) := by
  induction rest generalizing a with
  | nil => simp [tabSeparated, concatAll]
  | cons b rest ih =>
    simp only [tabSeparated, List.map_cons, concatAll]
    rw [ih b, String.append_assoc, String.append_assoc]

theorem printField_eq (E : Collab D) (s : Sheet D) (row col : Nat) (output : String) :
    printField E s row output col
      = output ++ ((if col > 0 then "\t" else "") ++ fieldText E s row col) := by
  unfold printField fieldText
  cases s.find ⟨(row : Int), (col : Int)⟩ with
  | none =>
    by_cases h : col > 0 <;> simp [h]
  | some c =>
    by_cases h : col > 0 <;> simp [h, String.append_assoc]

theorem printRow_eq (E : Collab D) (s : Sheet D) (cols row : Nat) (output : String) :
    printRow E s cols row output
      = output ++ tabSeparated ((List.range cols).map fun col => fieldText E s row col) := by
  unfold printRow
  have hstep : printField E s row
      = fun output col => output ++ ((if col > 0 then "\t" else "") ++ fieldText E s row col) := by
    funext output col
    exact printField_eq E s row col output
  rw [hstep, foldl_append_eq]
  cases cols with
  | zero => simp [concatAll, tabSeparated]
  | succ n =>
    rw [List.range_succ_eq_map]
    simp only [List.map_cons, List.map_map, concatAll, tabSeparated_cons]
    congr 1
    simp only [Nat.lt_irrefl, gt_iff_lt, if_false, String.empty_append]
    congr 2
    apply List.map_congr_left
    intro a _
    simp [Function.comp]

/-- The loops of `PrintTexts` write what the spec describes. -/
theorem PrintTexts_eq (E : Collab D) (s : Sheet D) :
    Sheet.PrintTexts E s = printedTexts E s := by
  unfold Sheet.PrintTexts printedTexts
  have hstep : (fun (output : String) (row : Nat) =>
        printRow E s (Sheet.GetPrintableSize E s).cols.toNat row output ++ "\n")
      = fun output row => output ++
          (tabSeparated ((List.range (Sheet.GetPrintableSize E s).cols.toNat).map fun col =>
            fieldText E s row col) ++ "\n") := by
    funext output row
    rw [printRow_eq, String.append_assoc]
  simp only [hstep, foldl_append_eq, String.empty_append]

/-! ## The keys of the sheet across the operations -/

theorem keys_modify (s : Sheet D) (p : Position) (f : Cell D → Cell D) :
    (s.modify p f).keys = s.keys := by
  unfold Sheet.keys Sheet.modify
  rw [List.map_map]
  apply List.map_congr_left
  intro kc _
  by_cases h : kc.1 = p <;> simp [h]

theorem keys_emplace (s : Sheet D) (p : Position) : (s.emplace p).keys = s.keys ++ [p] := by
  simp [Sheet.keys, Sheet.emplace]

theorem keys_erase (s : Sheet D) (p : Position) :
    (s.erase p).keys = s.keys.filter fun k => decide (k ≠ p) := by
  unfold Sheet.keys Sheet.erase
  rw [List.filter_map]
  rfl

theorem mem_keys_iff (s : Sheet D) (p : Position) : p ∈ s.keys ↔ (s.find p).isSome = true := by
  induction s with
  | nil => simp [Sheet.keys, Sheet.find_nil]
  | cons kc rest ih =>
    obtain ⟨k, c⟩ := kc
    have hk : Sheet.keys ((k, c) :: rest) = k :: Sheet.keys rest := rfl
    rw [hk, List.mem_cons, Sheet.find_cons, ih]
    by_cases h : k = p
    · simp [h]
    · have h1 : ¬ p = k := fun e => h e.symm
      simp [h, h1]

theorem mem_of_find {s : Sheet D} {k : Position} {c : Cell D} (h : s.find k = some c) :
    (k, c) ∈ s := by
  induction s with
  | nil => simp [Sheet.find_nil] at h
  | cons kc rest ih =>
    obtain ⟨k1, c1⟩ := kc
    rw [Sheet.find_cons] at h
    by_cases hk : k1 = k
    · simp only [hk, if_true, Option.some.injEq] at h
      rw [hk, h]; exact List.mem_cons_self _ _
    · simp only [hk, if_false] at h
      exact List.mem_cons_of_mem _ (ih h)

theorem find_of_mem {s : Sheet D} (hn : s.keys.Nodup) {k : Position} {c : Cell D}
    (h : (k, c) ∈ s) : s.find k = some c := by
  induction s with
  | nil => simp at h
  | cons kc rest ih =>
    obtain ⟨k1, c1⟩ := kc
    have hk : Sheet.keys ((k1, c1) :: rest) = k1 :: Sheet.keys rest := rfl
    rw [hk, List.nodup_cons] at hn
    rw [Sheet.find_cons]
    rcases List.mem_cons.mp h with heq | hm
    · injection heq with h1 h2
      simp [h1, h2]
    · have hne : ¬ k1 = k := by
        intro e
        apply hn.1
        rw [e]
        exact (mem_keys_iff rest k).mpr (by rw [ih hn.2 hm]; rfl)
      simp only [hne, if_false]
      exact ih hn.2 hm

/-- Two maps with the same keys and the same cell at every position are the
same list. -/
theorem sheet_ext {s s1 : Sheet D} (hn : s.keys.Nodup) (hk : s1.keys = s.keys)
    (hf : ∀ q, s1.find q = s.find q) : s1 = s := by
  induction s generalizing s1 with
  | nil =>
    cases s1 with
    | nil => rfl
    | cons a l => simp [Sheet.keys] at hk
  | cons kc rest ih =>
    obtain ⟨k, c⟩ := kc
    cases s1 with
    | nil => simp [Sheet.keys] at hk
    | cons kc1 rest1 =>
      obtain ⟨k1, c1⟩ := kc1
      have hk0 : Sheet.keys ((k, c) :: rest) = k :: Sheet.keys rest := rfl
      have hk1 : Sheet.keys ((k1, c1) :: rest1) = k1 :: Sheet.keys rest1 := rfl
      rw [hk0, hk1] at hk
      injection hk with hkk hkr
      rw [hk0, List.nodup_cons] at hn
      subst hkk
      have hc := hf k1
      simp only [Sheet.find_cons, if_true, Option.some.injEq] at hc
      subst hc
      have hrest : rest1 = rest := by
        apply ih hn.2 hkr
        intro q
        have hq := hf q
        simp only [Sheet.find_cons] at hq
        by_cases hkq : k1 = q
        · subst hkq
          have h1 : Sheet.find rest k1 = none := by
            cases h : Sheet.find rest k1 with
            | none => rfl
            | some c2 =>
              exact absurd ((mem_keys_iff rest k1).mpr (by rw [h]; rfl)) hn.1
          have h2 : Sheet.find rest1 k1 = none := by
            cases h : Sheet.find rest1 k1 with
            | none => rfl
            | some c2 =>
              have := (mem_keys_iff rest1 k1).mpr (by rw [h]; rfl)
              rw [hkr] at this
              exact absurd this hn.1
          rw [h1, h2]
        · simp only [hkq, if_false] at hq
          exact hq
      rw [hrest]

theorem KeysOk.of_keys_eq {s s1 : Sheet D} (h : KeysOk s) (hk : s1.keys = s.keys) :
    KeysOk s1 :=
  ⟨by rw [hk]; exact h.nodup, by rw [hk]; exact h.valid⟩

theorem keysOk_nil : KeysOk ([] : Sheet D) :=
  ⟨by simp [Sheet.keys], by simp [Sheet.keys]⟩

theorem KeysOk.emplace {s : Sheet D} (h : KeysOk s) (p : Position) (hp : s.find p = none)
    (hv : p.IsValid = true) : KeysOk (s.emplace p) := by
  have hnot : p ∉ s.keys := by
    intro hm
    have := (mem_keys_iff s p).mp hm
    rw [hp] at this
    simp at this
  refine ⟨?_, ?_⟩
  · rw [keys_emplace]
    exact List.Nodup.append h.nodup (List.nodup_singleton p)
      (by
        intro a ha hb
        have : a = p := by simpa using hb
        rw [this] at ha
        exact hnot ha)
  · intro k hk
    rw [keys_emplace, List.mem_append] at hk
    rcases hk with hk | hk
    · exact h.valid k hk
    · have : k = p := by simpa using hk
      rw [this]; exact hv

theorem KeysOk.erase {s : Sheet D} (h : KeysOk s) (p : Position) : KeysOk (s.erase p) := by
  refine ⟨?_, ?_⟩
  · rw [keys_erase]; exact h.nodup.filter _
  · intro k hk
    rw [keys_erase] at hk
    exact h.valid k (List.mem_of_mem_filter hk)

theorem KeysOk.ensure {s : Sheet D} (h : KeysOk s) (p : Position) (hv : p.IsValid = true) :
    KeysOk (if (s.find p).isNone then s.emplace p else s) := by
  cases hf : s.find p with
  | none => simp only [Option.isNone_none, if_true]; exact h.emplace p hf hv
  | some c => simp only [Option.isNone_some, Bool.false_eq_true, if_false]; exact h

theorem keys_eraseLoop (this : Position) (outs : List Position) : ∀ st : Sheet D,
    (outs.foldl (fun st out_ref => st.modify out_ref (Cell.eraseIn this)) st).keys = st.keys := by
  induction outs with
  | nil => intro st; rfl
  | cons o outs ih =>
    intro st
    simp only [List.foldl_cons]
    rw [ih, keys_modify]

theorem keys_unlink (this : Position) (s : Sheet D) : (unlink this s).keys = s.keys := by
  unfold unlink
  rw [keys_modify, keys_eraseLoop]

theorem keys_link (this : Position) (st : Sheet D) (pos : Position) :
    (link this st pos).keys = if (st.find pos).isNone then st.keys ++ [pos] else st.keys := by
  unfold link
  rw [keys_modify, keys_modify]
  by_cases h : (st.find pos).isNone = true
  · simp only [h, if_true]; exact keys_emplace st pos
  · simp only [h]; rfl

theorem KeysOk.link {st : Sheet D} (h : KeysOk st) (this pos : Position)
    (hv : pos.IsValid = true) : KeysOk (link this st pos) := by
  have h1 := h.ensure pos hv
  apply h1.of_keys_eq
  unfold Spreadsheet.link
  rw [keys_modify, keys_modify]

theorem KeysOk.rewire {s : Sheet D} (h : KeysOk s) (this : Position) (refs : List Position)
    (hv : ∀ pos ∈ refs, pos.IsValid = true) : KeysOk (rewire s this refs) := by
  unfold Spreadsheet.rewire
  have h0 : KeysOk (unlink this s) := h.of_keys_eq (keys_unlink this s)
  generalize unlink this s = st at h0
  induction refs generalizing st with
  | nil => exact h0
  | cons a l ih =>
    simp only [List.foldl_cons]
    exact ih (fun pos hp => hv pos (List.mem_cons_of_mem _ hp)) _
      (h0.link this a (hv a (List.mem_cons_self _ _)))

theorem KeysOk.committed {s : Sheet D} (h : KeysOk s) (this : Position) (impl : Impl D) :
    KeysOk (committed s this impl) := by
  unfold Spreadsheet.committed
  exact (h.rewire this _ (fun pos hp => Impl.GetReferencedCells_valid impl pos hp)).of_keys_eq
    (keys_modify _ _ _)

/-! ## Changes of caches only -/

theorem CacheOnly.same (s : Sheet D) : CacheOnly s s := ⟨SameUpToCache.refl s, rfl⟩

theorem CacheOnly.andThen {s s1 s2 : Sheet D} (h1 : CacheOnly s s1) (h2 : CacheOnly s1 s2) :
    CacheOnly s s2 :=
  ⟨h1.1.trans h2.1, h2.2.trans h1.2⟩

theorem CacheOnly.modify_of (s : Sheet D) (p : Position) (f : Cell D → Cell D)
    (hf : ∀ c, (f c).InvalidateCache = c.InvalidateCache) : CacheOnly s (s.modify p f) := by
  refine ⟨?_, keys_modify s p f⟩
  intro q
  rw [Sheet.find_modify]
  by_cases h : q = p
  · simp only [h, if_true, Option.map_map]
    congr 1
    funext c
    exact hf c
  · simp [h]

theorem icr_foldl_cacheOnly (n : Nat) (this : Position)
    (ih : ∀ (s : Sheet D) (r : Position) (s1 : Sheet D),
      Cell.InvalidateCacheRecursively n s r = some s1 → CacheOnly s s1)
    (l : List Position) : ∀ (st s1 : Sheet D),
    l.foldl
      (fun (acc : Option (Sheet D)) in_ref =>
        match acc with
        | none => none
        | some st =>
          match st.find this with
          | none => some st
          | some c =>
            if c.impl_.IsCacheValid then Cell.InvalidateCacheRecursively n st in_ref
            else some st)
      (some st) = some s1 → CacheOnly st s1 := by
  induction l with
  | nil => intro st s1 h; simp at h; subst h; exact CacheOnly.same st
  | cons a l ihl =>
    intro st s1 h
    simp only [List.foldl_cons] at h
    cases hf : st.find this with
    | none =>
      simp only [hf] at h
      exact ihl st s1 h
    | some c =>
      simp only [hf] at h
      by_cases hv : c.impl_.IsCacheValid = true
      · simp only [hv, if_true] at h
        cases hr : Cell.InvalidateCacheRecursively n st a with
        | none =>
          rw [hr] at h
          have h1 : (none : Option (Sheet D)) = some s1 :=
            (@icr_foldl_none D n this l).symm.trans h
          exact Option.noConfusion h1
        | some st2 =>
          rw [hr] at h
          exact (ih st a st2 hr).andThen (ihl st2 s1 h)
      · simp only [hv] at h
        exact ihl st s1 h

theorem icr_cacheOnly : ∀ (fuel : Nat) (s : Sheet D) (this : Position) (s1 : Sheet D),
    Cell.InvalidateCacheRecursively fuel s this = some s1 → CacheOnly s s1 := by
  intro fuel
  induction fuel with
  | zero => intro s this s1 h; simp [Cell.InvalidateCacheRecursively] at h
  | succ n ih =>
    intro s this s1 h
    simp only [Cell.InvalidateCacheRecursively] at h
    exact (CacheOnly.modify_of s this Cell.InvalidateCache Cell.InvalidateCache_idem).andThen
      (icr_foldl_cacheOnly n this ih _ _ _ h)

theorem Res.Keeps.bind {α β : Type} {s : Sheet D} {r : Res (Sheet D) α}
    {f : α → Sheet D → Res (Sheet D) β} (hr : r.Keeps s)
    (hf : ∀ a s1, CacheOnly s s1 → (f a s1).Keeps s1) : (r.bind f).Keeps s := by
  intro s2 h2
  cases r with
  | ret a s1 =>
    have h1 : CacheOnly s s1 := hr s1 rfl
    exact h1.andThen (hf a s1 h1 s2 h2)
  | raise x s1 =>
    simp only [Res.bind, Res.state?, Option.some.injEq] at h2
    exact hr s2 (by simp [Res.state?, h2])
  | diverge => simp [Res.bind, Res.state?] at h2

theorem keeps_ret {α : Type} (s : Sheet D) (a : α) : (Res.ret a s : Res (Sheet D) α).Keeps s := by
  intro s1 h
  simp only [Res.state?, Option.some.injEq] at h
  rw [← h]; exact CacheOnly.same s

theorem keeps_raise {α : Type} (s : Sheet D) (x : Thrown) :
    (Res.raise x s : Res (Sheet D) α).Keeps s := by
  intro s1 h
  simp only [Res.state?, Option.some.injEq] at h
  rw [← h]; exact CacheOnly.same s

theorem keeps_diverge {α : Type} (s : Sheet D) : (Res.diverge : Res (Sheet D) α).Keeps s := by
  intro s1 h
  simp [Res.state?] at h

theorem Execute_keeps (E : Collab D) (fn : Sheet D → Position → Res (Sheet D) D)
    (hfn : ∀ s pos, (fn s pos).Keeps s) : ∀ (e : Expr D) (s : Sheet D),
    (e.Execute E fn s).Keeps s := by
  intro e
  induction e with
  | number d => intro s; exact keeps_ret s d
  | cell pos => intro s; exact hfn s pos
  | unary op e ih =>
    intro s
    simp only [Expr.Execute]
    exact (ih s).bind fun v s1 _ => keeps_ret s1 _
  | binary op lhs rhs ihl ihr =>
    intro s
    simp only [Expr.Execute]
    refine (ihl s).bind fun a s1 _ => (ihr s1).bind fun b s2 _ => ?_
    cases E.binary op a b with
    | some v => exact keeps_ret s2 v
    | none => exact keeps_raise s2 _

theorem formula_function_keeps (E : Collab D)
    (gv : Sheet D → Position → Res (Sheet D) (CellValue D))
    (hgv : ∀ s pos, (gv s pos).Keeps s) (s : Sheet D) (pos : Position) :
    (formula_function E gv s pos).Keeps s := by
  unfold formula_function
  by_cases hv : pos.IsValid = true
  · simp only [hv, Bool.not_true, Bool.false_eq_true, if_false]
    cases hf : s.find pos with
    | none => exact keeps_ret s _
    | some cell =>
      simp only []
      by_cases he : (cell.GetText E).isEmpty = true
      · simp only [he, if_true]; exact keeps_ret s _
      · simp only [he]
        refine (hgv s pos).bind fun cv s1 _ => ?_
        cases cv with
        | text str =>
          simp only []
          cases E.stod str with
          | none => exact keeps_raise s1 _
          | some vp =>
            obtain ⟨v, p⟩ := vp
            simp only []
            by_cases hp : p < str.length
            · simp only [hp, if_true]; exact keeps_raise s1 _
            · simp only [hp, if_false]; exact keeps_ret s1 _
        | number d => exact keeps_ret s1 _
        | error e => exact keeps_raise s1 _
  · simp only [hv, Bool.not_false, if_true]
    exact keeps_raise s _

theorem Evaluate_keeps (E : Collab D)
    (gv : Sheet D → Position → Res (Sheet D) (CellValue D))
    (hgv : ∀ s pos, (gv s pos).Keeps s) (ast : Expr D) (s : Sheet D) :
    (Formula.Evaluate E gv ast s).Keeps s := by
  have h := Execute_keeps E (formula_function E gv) (formula_function_keeps E gv hgv) ast s
  unfold Formula.Evaluate
  cases hr : ast.Execute E (formula_function E gv) s with
  | ret v s1 =>
    rw [hr] at h
    intro s2 h2
    exact h s2 h2
  | raise x s1 =>
    rw [hr] at h
    cases x <;> exact fun s2 h2 => h s2 h2
  | diverge => exact keeps_diverge s

theorem setCache_same (v : FormulaValue D) (c : Cell D) :
    ({ c with impl_ := c.impl_.setCache v } : Cell D).InvalidateCache = c.InvalidateCache := by
  cases c with
  | mk impl i o => cases impl <;> rfl

/-- A read changes caches only. -/
theorem GetValue_keeps (E : Collab D) : ∀ (fuel : Nat) (s : Sheet D) (this : Position),
    (Cell.GetValue E fuel s this).Keeps s := by
  intro fuel
  induction fuel with
  | zero =>
    intro s this
    unfold Cell.GetValue
    cases hf : s.find this with
    | none => exact keeps_diverge s
    | some cell =>
      simp only []
      cases hi : cell.impl_ with
      | EmptyImpl => exact keeps_ret s _
      | TextImpl t =>
        simp only []
        cases t.data with
        | nil => exact keeps_raise s _
        | cons c rest =>
          simp only []
          by_cases hc : c = ESCAPE_SIGN
          · simp only [hc, if_true]; exact keeps_ret s _
          · simp only [hc, if_false]; exact keeps_ret s _
      | FormulaImpl ast cache =>
        cases cache with
        | some v => exact keeps_ret s _
        | none => exact keeps_diverge s
  | succ n ih =>
    intro s this
    unfold Cell.GetValue
    cases hf : s.find this with
    | none => exact keeps_diverge s
    | some cell =>
      simp only []
      cases hi : cell.impl_ with
      | EmptyImpl => exact keeps_ret s _
      | TextImpl t =>
        simp only []
        cases t.data with
        | nil => exact keeps_raise s _
        | cons c rest =>
          simp only []
          by_cases hc : c = ESCAPE_SIGN
          · simp only [hc, if_true]; exact keeps_ret s _
          · simp only [hc, if_false]; exact keeps_ret s _
      | FormulaImpl ast cache =>
        cases cache with
        | some v => exact keeps_ret s _
        | none =>
          simp only []
          refine (Evaluate_keeps E (Cell.GetValue E n) ih ast s).bind fun v s1 _ => ?_
          intro s2 h2
          simp only [Res.state?, Option.some.injEq] at h2
          rw [← h2]
          exact CacheOnly.modify_of s1 this _ (setCache_same v)

theorem Sheet_GetValue_keeps (E : Collab D) (s : Sheet D) (pos : Position) :
    (Sheet.GetValue E s pos).Keeps s := by
  unfold Sheet.GetValue Sheet.GetCell
  by_cases hv : pos.IsValid = true
  · simp only [hv, Bool.not_true, Bool.false_eq_true, if_false, Res.bind]
    cases s.find pos with
    | none => exact keeps_ret s _
    | some c =>
      simp only []
      exact (GetValue_keeps E _ s pos).bind fun v s2 _ => keeps_ret s2 _
  · simp only [hv, Bool.not_false, if_true, Res.bind]
    exact keeps_raise s _

/-! ## The invariants of every reached sheet -/

theorem SetTop_ret_icr (E : Collab D) (s : Sheet D) (this : Position) (text : String)
    (s1 : Sheet D) (h : Cell.SetTop E s this text = .ret () s1) :
    ∃ impl, Cell.makeImpl E text = some impl ∧
      Cell.CheckCircularDependencyToArise s this impl = some false ∧
      Cell.InvalidateCacheRecursively ((committed s this impl).length + 1)
        (committed s this impl) this = some s1 := by
  rw [SetTop_eq] at h
  cases hm : Cell.makeImpl E text with
  | none => simp only [hm] at h; exact Res.noConfusion h
  | some impl =>
    simp only [hm] at h
    cases hc : Cell.CheckCircularDependencyToArise s this impl with
    | none => simp only [hc] at h; exact Res.noConfusion h
    | some b =>
      cases b with
      | true => simp only [hc] at h; exact Res.noConfusion h
      | false =>
        simp only [hc] at h
        cases hi : Cell.InvalidateCacheRecursively ((committed s this impl).length + 1)
            (committed s this impl) this with
        | none => simp only [hi] at h; exact Res.noConfusion h
        | some s3 =>
          simp only [hi] at h
          injection h with _ h2
          subst h2
          exact ⟨impl, rfl, hc, hi⟩

theorem Inv.of_cacheOnly {s s1 : Sheet D} (h : Inv s) (hc : CacheOnly s s1) : Inv s1 :=
  ⟨h.wf.of_same hc.1, h.keys.of_keys_eq hc.2⟩

theorem inv_nil : Inv ([] : Sheet D) := ⟨wf_nil, keysOk_nil⟩

theorem Inv.ensure_cell {s : Sheet D} (h : Inv s) (pos : Position) (hv : pos.IsValid = true) :
    Inv (if (s.find pos).isNone then s.emplace pos else s) := by
  refine ⟨?_, h.keys.ensure pos hv⟩
  cases hf : s.find pos with
  | none => simp only [Option.isNone_none, if_true]; exact emplace_wf h.wf pos hf
  | some c => simp only [Option.isNone_some, Bool.false_eq_true, if_false]; exact h.wf

/-- The sheet after a `Cell::Set` on a cell of a reached sheet. -/
theorem SetTop_inv (E : Collab D) {s : Sheet D} (h : Inv s) (this : Position) (text : String)
    (hthis : (s.find this).isSome = true) (s1 : Sheet D)
    (hs1 : (Cell.SetTop E s this text).state? = some s1) : Inv s1 := by
  cases hr : Cell.SetTop E s this text with
  | ret u s2 =>
    rw [hr] at hs1
    simp only [Res.state?, Option.some.injEq] at hs1
    subst hs1
    obtain ⟨impl, _, hc, hi⟩ := SetTop_ret_icr E s this text s2 hr
    have hinv : Inv (committed s this impl) :=
      ⟨committed_wf h.wf this impl hthis hc, h.keys.committed this impl⟩
    exact hinv.of_cacheOnly (icr_cacheOnly _ _ _ _ hi)
  | raise x s2 =>
    rw [hr] at hs1
    simp only [Res.state?, Option.some.injEq] at hs1
    subst hs1
    rw [(SetTop_raise E s this text x s2 hr).1]
    exact h
  | diverge => rw [hr] at hs1; simp [Res.state?] at hs1

theorem SetCell_inv (E : Collab D) {s : Sheet D} (h : Inv s) (pos : Position) (text : String)
    (s1 : Sheet D) (hs1 : (Sheet.SetCell E s pos text).state? = some s1) : Inv s1 := by
  unfold Sheet.SetCell Sheet.SetCellWith at hs1
  by_cases hv : pos.IsValid = true
  · simp only [hv, Bool.not_true, Bool.false_eq_true, if_false] at hs1
    exact SetTop_inv E (h.ensure_cell pos hv) pos text (find_ensure_self s pos) s1 hs1
  · simp only [hv, Bool.not_false, if_true, Res.state?, Option.some.injEq] at hs1
    rw [← hs1]; exact h

theorem ClearCell_inv (E : Collab D) {s : Sheet D} (h : Inv s) (pos : Position)
    (s1 : Sheet D) (hs1 : (Sheet.ClearCell E s pos).state? = some s1) : Inv s1 := by
  obtain ⟨s2, h2, hw2⟩ := ClearCell_wf E h.wf pos
  rw [h2] at hs1
  have he : s2 = s1 := Option.some.inj hs1
  subst he
  refine ⟨hw2, ?_⟩
  unfold Sheet.ClearCell at h2
  by_cases hv : pos.IsValid = true
  · simp only [hv, Bool.not_true, Bool.false_eq_true, if_false] at h2
    cases hf : s.find pos with
    | none =>
      simp only [hf, Res.state?, Option.some.injEq] at h2
      rw [← h2]; exact h.keys
    | some c =>
      simp only [hf] at h2
      have hthis : (s.find pos).isSome = true := by rw [hf]; rfl
      cases hr : Cell.Clear E (Sheet.SetCellNested E) s pos with
      | ret u s3 =>
        have hk3 : KeysOk s3 :=
          (SetTop_inv E h pos "" hthis s3 (by
            unfold Cell.Clear at hr
            unfold Cell.SetTop
            rw [hr]; rfl)).keys
        rw [hr] at h2
        simp only [Res.bind] at h2
        cases hf3 : s3.find pos with
        | none =>
          simp only [hf3, Res.state?, Option.some.injEq] at h2
          rw [← h2]; exact hk3
        | some c3 =>
          simp only [hf3] at h2
          by_cases hr3 : c3.IsReferenced = true
          · simp only [hr3, Bool.not_true, Bool.false_eq_true, if_false, Res.state?,
              Option.some.injEq] at h2
            rw [← h2]; exact hk3
          · simp only [hr3, Bool.not_false, if_true, Res.state?, Option.some.injEq] at h2
            rw [← h2]; exact hk3.erase pos
      | raise x s3 =>
        rw [hr] at h2
        simp only [Res.bind, Res.state?, Option.some.injEq] at h2
        have hk3 : KeysOk s3 :=
          (SetTop_inv E h pos "" hthis s3 (by
            unfold Cell.Clear at hr
            unfold Cell.SetTop
            rw [hr]; rfl)).keys
        rw [← h2]; exact hk3
      | diverge => rw [hr] at h2; simp [Res.bind, Res.state?] at h2
  · simp only [hv, Bool.not_false, if_true, Res.state?, Option.some.injEq] at h2
    rw [← h2]; exact h.keys

theorem applyOp_inv (E : Collab D) {s : Sheet D} (h : Inv s) (op : Op) (s1 : Sheet D)
    (hs1 : applyOp E s op = some s1) : Inv s1 := by
  cases op with
  | SetCell pos text => exact SetCell_inv E h pos text s1 hs1
  | ClearCell pos => exact ClearCell_inv E h pos s1 hs1
  | GetValue pos => exact h.of_cacheOnly (Sheet_GetValue_keeps E s pos s1 hs1)

theorem runFrom_inv (E : Collab D) (ops : List Op) : ∀ (s s1 : Sheet D), Inv s →
    runFrom E s ops = some s1 → Inv s1 := by
  induction ops with
  | nil =>
    intro s s1 h hr
    simp only [runFrom, Option.some.injEq] at hr
    rw [← hr]; exact h
  | cons op ops ih =>
    intro s s1 h hr
    simp only [runFrom] at hr
    cases ha : applyOp E s op with
    | none => rw [ha] at hr; simp at hr
    | some s2 =>
      rw [ha] at hr
      exact ih s2 s1 (applyOp_inv E h op s2 ha) hr

/-- Every sheet reached from the empty sheet by calls that return or throw is
well-formed and is a map with valid keys. -/
theorem run_inv (E : Collab D) (ops : List Op) (s : Sheet D) (h : run E ops = some s) :
    Inv s :=
  runFrom_inv E ops [] s inv_nil h

/-! ## The printable size -/

theorem growSize_fold_spec (E : Collab D) (l : Sheet D) : ∀ acc : Size,
    acc.rows ≤ (l.foldl (growSize E) acc).rows ∧
    acc.cols ≤ (l.foldl (growSize E) acc).cols ∧
    (∀ kc ∈ l, (kc.2.GetText E).isEmpty = false →
      kc.1.row + 1 ≤ (l.foldl (growSize E) acc).rows ∧
      kc.1.col + 1 ≤ (l.foldl (growSize E) acc).cols) ∧
    ((l.foldl (growSize E) acc).rows = acc.rows ∨
      ∃ kc ∈ l, (kc.2.GetText E).isEmpty = false ∧
        (l.foldl (growSize E) acc).rows = kc.1.row + 1) ∧
    ((l.foldl (growSize E) acc).cols = acc.cols ∨
      ∃ kc ∈ l, (kc.2.GetText E).isEmpty = false ∧
        (l.foldl (growSize E) acc).cols = kc.1.col + 1) := by
  induction l with
  | nil => intro acc; simp
  | cons a l ih =>
    intro acc
    simp only [List.foldl_cons]
    obtain ⟨h1, h2, h3, h4, h5⟩ := ih (growSize E acc a)
    by_cases he : (a.2.GetText E).isEmpty = true
    · have hg : growSize E acc a = acc := by simp [growSize, he]
      rw [hg] at h1 h2 h3 h4 h5 ⊢
      refine ⟨h1, h2, ?_, ?_, ?_⟩
      · intro kc hkc hne
        rcases List.mem_cons.mp hkc with rfl | hkc
        · rw [he] at hne; exact Bool.noConfusion hne
        · exact h3 kc hkc hne
      · rcases h4 with h4 | ⟨kc, hkc, hne, hr⟩
        · exact Or.inl h4
        · exact Or.inr ⟨kc, List.mem_cons_of_mem _ hkc, hne, hr⟩
      · rcases h5 with h5 | ⟨kc, hkc, hne, hr⟩
        · exact Or.inl h5
        · exact Or.inr ⟨kc, List.mem_cons_of_mem _ hkc, hne, hr⟩
    · have he1 : (a.2.GetText E).isEmpty = false := by simpa using he
      have hg : growSize E acc a
          = ⟨max acc.rows (a.1.row + 1), max acc.cols (a.1.col + 1)⟩ := by
        simp [growSize, he1]
      rw [hg] at h1 h2 h3 h4 h5 ⊢
      simp only at h1 h2 h4 h5
      refine ⟨le_trans (le_max_left _ _) h1, le_trans (le_max_left _ _) h2, ?_, ?_, ?_⟩
      · intro kc hkc hne
        rcases List.mem_cons.mp hkc with rfl | hkc
        · exact ⟨le_trans (le_max_right _ _) h1, le_trans (le_max_right _ _) h2⟩
        · exact h3 kc hkc hne
      · rcases h4 with h4 | ⟨kc, hkc, hne, hr⟩
        · rcases max_choice acc.rows (a.1.row + 1) with hm | hm
          · left; rw [h4, hm]
          · right; exact ⟨a, List.mem_cons_self _ _, he1, by rw [h4, hm]⟩
        · exact Or.inr ⟨kc, List.mem_cons_of_mem _ hkc, hne, hr⟩
      · rcases h5 with h5 | ⟨kc, hkc, hne, hr⟩
        · rcases max_choice acc.cols (a.1.col + 1) with hm | hm
          · left; rw [h5, hm]
          · right; exact ⟨a, List.mem_cons_self _ _, he1, by rw [h5, hm]⟩
        · exact Or.inr ⟨kc, List.mem_cons_of_mem _ hkc, hne, hr⟩

theorem growSize_fold_empty (E : Collab D) (l : Sheet D)
    (h : ∀ kc ∈ l, (kc.2.GetText E).isEmpty = true) (acc : Size) :
    l.foldl (growSize E) acc = acc := by
  apply foldl_const
  intro kc hkc
  simp [growSize, h kc hkc]

theorem IsValid_nonneg {p : Position} (h : p.IsValid = true) : 0 ≤ p.row ∧ 0 ≤ p.col := by
  simp [Position.IsValid] at h
  exact ⟨h.1.1.1, h.1.1.2⟩

/-- The printable size of a map with valid keys. -/
theorem printableSize_spec (E : Collab D) {s : Sheet D} (hk : KeysOk s) :
    ((∀ p c, s.find p = some c → (c.GetText E).isEmpty = true) →
      Sheet.GetPrintableSize E s = ⟨0, 0⟩) ∧
    ((∃ p c, s.find p = some c ∧ (c.GetText E).isEmpty = false) →
      (∀ p c, s.find p = some c → (c.GetText E).isEmpty = false →
        p.row + 1 ≤ (Sheet.GetPrintableSize E s).rows ∧
        p.col + 1 ≤ (Sheet.GetPrintableSize E s).cols) ∧
      (∃ p c, s.find p = some c ∧ (c.GetText E).isEmpty = false ∧
        (Sheet.GetPrintableSize E s).rows = p.row + 1) ∧
      (∃ p c, s.find p = some c ∧ (c.GetText E).isEmpty = false ∧
        (Sheet.GetPrintableSize E s).cols = p.col + 1)) := by
  unfold Sheet.GetPrintableSize
  obtain ⟨_, _, h3, h4, h5⟩ := growSize_fold_spec E s ⟨0, 0⟩
  refine ⟨?_, ?_⟩
  · intro hall
    apply growSize_fold_empty
    intro kc hkc
    exact hall kc.1 kc.2 (find_of_mem hk.nodup hkc)
  · rintro ⟨p0, c0, hf0, hne0⟩
    have hb0 := h3 (p0, c0) (mem_of_find hf0) hne0
    have hv0 := IsValid_nonneg (hk.valid p0 ((mem_keys_iff s p0).mpr (by rw [hf0]; rfl)))
    simp only at hb0
    refine ⟨?_, ?_, ?_⟩
    · intro p c hf hne
      exact h3 (p, c) (mem_of_find hf) hne
    · rcases h4 with h4 | ⟨kc, hkc, hne, hr⟩
      · simp only at h4; omega
      · exact ⟨kc.1, kc.2, find_of_mem hk.nodup hkc, hne, hr⟩
    · rcases h5 with h5 | ⟨kc, hkc, hne, hr⟩
      · simp only at h5; omega
      · exact ⟨kc.1, kc.2, find_of_mem hk.nodup hkc, hne, hr⟩

/-! ## The claims, continued -/

/-- C14: for every sheet reached by calls, `GetPrintableSize()` is `(0, 0)` if
no cell has a non-empty text, and otherwise it is `(maxRow + 1, maxCol + 1)`
over the cells whose text is not empty: it bounds each such cell, its rows are
attained by one of them and its columns are attained by one of them; cells with
an empty text play no part. -/
theorem C14_printable_size_bounding_box (E : Collab D) (ops : List Op) (s : Sheet D)
    (hrun : run E ops = some s) :
    ((∀ p c, s.find p = some c → (c.GetText E).isEmpty = true) →
      Sheet.GetPrintableSize E s = ⟨0, 0⟩) ∧
    ((∃ p c, s.find p = some c ∧ (c.GetText E).isEmpty = false) →
      (∀ p c, s.find p = some c → (c.GetText E).isEmpty = false →
        p.row + 1 ≤ (Sheet.GetPrintableSize E s).rows ∧
        p.col + 1 ≤ (Sheet.GetPrintableSize E s).cols) ∧
      (∃ p c, s.find p = some c ∧ (c.GetText E).isEmpty = false ∧
        (Sheet.GetPrintableSize E s).rows = p.row + 1) ∧
      (∃ p c, s.find p = some c ∧ (c.GetText E).isEmpty = false ∧
        (Sheet.GetPrintableSize E s).cols = p.col + 1)) :=
  printableSize_spec E (run_inv E ops s hrun).keys

/-- The sheet after `SetCell(C1, "=A1+B1")` and `SetCell(B1, "1")`: only `B1` and
`C1` have a text, `A1` is an Empty cell created by the formula. -/
theorem run_demo_size :
    run Demo.env [Op.SetCell Demo.C1 "=A1+B1", Op.SetCell Demo.B1 "1"]
      = some [(Demo.C1, ⟨.FormulaImpl (.binary .add (.cell Demo.A1) (.cell Demo.B1)) none,
            [], [Demo.B1, Demo.A1]⟩),
          (Demo.A1, ⟨.EmptyImpl, [Demo.C1], []⟩), (Demo.B1, ⟨.TextImpl "1", [Demo.C1], []⟩)] := by
  rfl

/-- Witness of C14: the sheet of `run_demo_size`. -/
theorem C14_printable_size_bounding_box_witness :
    run Demo.env [Op.SetCell Demo.C1 "=A1+B1", Op.SetCell Demo.B1 "1"]
      = some [(Demo.C1, ⟨.FormulaImpl (.binary .add (.cell Demo.A1) (.cell Demo.B1)) none,
            [], [Demo.B1, Demo.A1]⟩),
          (Demo.A1, ⟨.EmptyImpl, [Demo.C1], []⟩), (Demo.B1, ⟨.TextImpl "1", [Demo.C1], []⟩)] ∧
    Sheet.GetPrintableSize Demo.env
        [(Demo.C1, ⟨.FormulaImpl (.binary .add (.cell Demo.A1) (.cell Demo.B1)) none,
            [], [Demo.B1, Demo.A1]⟩),
          (Demo.A1, ⟨.EmptyImpl, [Demo.C1], []⟩), (Demo.B1, ⟨.TextImpl "1", [Demo.C1], []⟩)]
      = ⟨1, 3⟩ ∧
    ∃ p c, Sheet.find
        [(Demo.C1, ⟨.FormulaImpl (.binary .add (.cell Demo.A1) (.cell Demo.B1)) none,
            [], [Demo.B1, Demo.A1]⟩),
          (Demo.A1, ⟨.EmptyImpl, [Demo.C1], []⟩), (Demo.B1, ⟨.TextImpl "1", [Demo.C1], []⟩)] p
        = some c ∧ (c.GetText Demo.env).isEmpty = false ∧
      (Sheet.GetPrintableSize Demo.env
        [(Demo.C1, ⟨.FormulaImpl (.binary .add (.cell Demo.A1) (.cell Demo.B1)) none,
            [], [Demo.B1, Demo.A1]⟩),
          (Demo.A1, ⟨.EmptyImpl, [Demo.C1], []⟩), (Demo.B1, ⟨.TextImpl "1", [Demo.C1], []⟩)]).cols
        = p.col + 1 :=
  ⟨run_demo_size, rfl,
    ((C14_printable_size_bounding_box Demo.env _ _ run_demo_size).2
      ⟨Demo.B1, _, rfl, rfl⟩).2.2⟩

/-- C15 as stated fails in its example: for the sheet that holds only
`C3 = "x"`, `PrintTexts` writes the tabs of the two rows without text as well. -/
theorem C15_PrintTexts_C3_example :
    run Demo.env [Op.SetCell Demo.C3 "x"] = some Demo.sheetC3 ∧
    Sheet.GetPrintableSize Demo.env Demo.sheetC3 = ⟨3, 3⟩ ∧
    Sheet.PrintTexts Demo.env Demo.sheetC3 = "\t\t\n\t\t\n\t\tx\n" ∧
    Sheet.PrintTexts Demo.env Demo.sheetC3 ≠ "\n\n\t\tx\n" :=
  ⟨rfl, rfl, rfl, by decide⟩

/-- C15 amended: for every sheet with printable size `(rows, cols)`,
`PrintTexts` writes exactly `rows` lines; line `r` is the `GetText()` of the
cells at `(r, 0)`, ..., `(r, cols - 1)` in column order, the empty string for
an absent cell, separated by single tabs and ended by a single newline. For the
sheet that holds only `C3 = "x"` the output is `"\t\t\n\t\t\n\t\tx\n"`. -/
theorem C15_PrintTexts_layout :
    (∀ (D : Type) (E : Collab D) (s : Sheet D),
      Sheet.PrintTexts E s
        = concatAll ((List.range (Sheet.GetPrintableSize E s).rows.toNat).map fun row =>
            tabSeparated ((List.range (Sheet.GetPrintableSize E s).cols.toNat).map fun col =>
              fieldText E s row col) ++ "\n")) ∧
    Sheet.PrintTexts Demo.env Demo.sheetC3 = "\t\t\n\t\t\n\t\tx\n" :=
  ⟨fun _ E s => PrintTexts_eq E s, rfl⟩

/-- C18: after every sequence of `SetCell` and `ClearCell` calls on the empty
sheet, for every cell `C` of the sheet the members of `out_refs_` are exactly
the positions of `C.GetReferencedCells()`, each of which holds a cell; an Empty
or Text cell has an empty out-set, and every member of an in-set is a formula
cell of the sheet. -/
theorem C18_out_refs_are_referenced_cells (E : Collab D) (ops : List Op)
    (hops : ∀ op ∈ ops, op.isEdit = true) :
    ∃ s, run E ops = some s ∧
      (∀ p c, s.find p = some c →
        (∀ q, q ∈ c.out_refs_ ↔ q ∈ c.GetReferencedCells) ∧
        (∀ q, q ∈ c.out_refs_ → (s.find q).isSome = true)) ∧
      (∀ p c, s.find p = some c → c.impl_ = .EmptyImpl → c.out_refs_ = []) ∧
      (∀ p c t, s.find p = some c → c.impl_ = .TextImpl t → c.out_refs_ = []) ∧
      (∀ p c q, s.find p = some c → q ∈ c.in_refs_ →
        ∃ cq ast cache, s.find q = some cq ∧ cq.impl_ = .FormulaImpl ast cache) := by
  obtain ⟨s, hs, hwf⟩ := run_wf E ops hops
  have hmatch : ∀ p c, s.find p = some c → ∀ q, q ∈ c.out_refs_ ↔ q ∈ c.GetReferencedCells := by
    intro p c hp q
    have h := hwf.refsMatch p q
    rw [out_refs_of_find hp, refs_of_find hp] at h
    exact h
  refine ⟨s, hs, ?_, ?_, ?_, ?_⟩
  · intro p c hp
    refine ⟨hmatch p c hp, ?_⟩
    intro q hq
    exact hwf.referenced_isSome p q (by rw [refs_of_find hp]; exact (hmatch p c hp q).mp hq)
  · intro p c hp hi
    apply List.eq_nil_iff_forall_not_mem.mpr
    intro q hq
    have := (hmatch p c hp q).mp hq
    simp [Cell.GetReferencedCells, hi, Impl.GetReferencedCells] at this
  · intro p c t hp hi
    apply List.eq_nil_iff_forall_not_mem.mpr
    intro q hq
    have := (hmatch p c hp q).mp hq
    simp [Cell.GetReferencedCells, hi, Impl.GetReferencedCells] at this
  · intro p c q hp hq
    have h1 : p ∈ s.out_refs q := (hwf.symmetric q p).mpr (by rw [in_refs_of_find hp]; exact hq)
    have h2 : p ∈ s.refs q := (hwf.refsMatch q p).mp h1
    unfold Sheet.refs at h2
    cases hf : s.find q with
    | none => rw [hf] at h2; simp at h2
    | some cq =>
      rw [hf] at h2
      cases hi : cq.impl_ with
      | EmptyImpl => simp [Cell.GetReferencedCells, hi, Impl.GetReferencedCells] at h2
      | TextImpl t => simp [Cell.GetReferencedCells, hi, Impl.GetReferencedCells] at h2
      | FormulaImpl ast cache => exact ⟨cq, ast, cache, rfl, hi⟩

/-- Witness of C18: `A1 = "=B1"`, then `C1 = "=A1+B1"`, then `A1` cleared. -/
theorem C18_out_refs_are_referenced_cells_witness :
    (∀ op ∈ [Op.SetCell Demo.A1 "=B1", Op.SetCell Demo.C1 "=A1+B1", Op.ClearCell Demo.A1],
        op.isEdit = true) ∧
    ∃ s, run Demo.env
        [Op.SetCell Demo.A1 "=B1", Op.SetCell Demo.C1 "=A1+B1", Op.ClearCell Demo.A1] = some s ∧
      (∀ p c, s.find p = some c →
        (∀ q, q ∈ c.out_refs_ ↔ q ∈ c.GetReferencedCells) ∧
        (∀ q, q ∈ c.out_refs_ → (s.find q).isSome = true)) ∧
      (∀ p c, s.find p = some c → c.impl_ = .EmptyImpl → c.out_refs_ = []) ∧
      (∀ p c t, s.find p = some c → c.impl_ = .TextImpl t → c.out_refs_ = []) ∧
      (∀ p c q, s.find p = some c → q ∈ c.in_refs_ →
        ∃ cq ast cache, s.find q = some cq ∧ cq.impl_ = .FormulaImpl ast cache) :=
  ⟨by decide, C18_out_refs_are_referenced_cells Demo.env _ (by decide)⟩

/-! ## Classification of the input and the lookup function -/

theorem makeImpl_of_empty (E : Collab D) (text : String) (h : text = "") :
    Cell.makeImpl E text = some .EmptyImpl := by
  subst h; rfl

theorem length_ne_zero_of_ne_empty {text : String} (h : text ≠ "") : text.length ≠ 0 := by
  intro h0
  apply h
  have : text.data = [] := List.length_eq_zero.mp h0
  exact String.ext this

theorem makeImpl_of_formula (E : Collab D) (text : String)
    (h : text.data.head? = some FORMULA_SIGN ∧ text.length > 1) :
    Cell.makeImpl E text
      = (E.ParseFormulaAST (text.drop 1)).map fun ast => .FormulaImpl ast none := by
  unfold Cell.makeImpl
  have h0 : ¬ text.length = 0 := by omega
  simp only [h0, if_false, h, and_self, if_true]

theorem makeImpl_of_text (E : Collab D) (text : String) (hne : text ≠ "")
    (h : ¬ (text.data.head? = some FORMULA_SIGN ∧ text.length > 1)) :
    Cell.makeImpl E text = some (.TextImpl text) := by
  unfold Cell.makeImpl
  simp only [length_ne_zero_of_ne_empty hne, if_false, h]

/-- `TextImpl::GetValue` on a cell of the sheet. -/
theorem GetValue_text (E : Collab D) (fuel : Nat) (s : Sheet D) (p : Position) (c : Cell D)
    (text : String) (hf : s.find p = some c) (hi : c.impl_ = .TextImpl text) (hne : text ≠ "") :
    Cell.GetValue E fuel s p
      = .ret (.text (if text.data.head? = some ESCAPE_SIGN then text.drop 1 else text)) s := by
  have hd : text.data ≠ [] := fun h => hne (String.ext h)
  cases hdata : text.data with
  | nil => exact absurd hdata hd
  | cons ch rest =>
    have hdrop : text.drop 1 = String.mk rest := by
      rw [String.drop_eq, hdata]; rfl
    cases fuel with
    | zero =>
      unfold Cell.GetValue
      simp only [hf, hi, hdata, List.head?_cons, Option.some.injEq, hdrop]
      split_ifs <;> rfl
    | succ n =>
      unfold Cell.GetValue
      simp only [hf, hi, hdata, List.head?_cons, Option.some.injEq, hdrop]
      split_ifs <;> rfl

/-- C12: `Cell::Set` builds an Empty state from the empty string, a Formula
state (from the parsed rest) when the first character is `=` and the length is
greater than one, and a Text state from anything else, so `"="` alone is Text.
A cell in the Text state built from `text` has `GetText() = text`, and
`GetValue()` is `text` without its first character when `text` starts with the
escape sign and `text` otherwise. -/
theorem C12_classification_and_text_value (E : Collab D) :
    (∀ text : String, text = "" → Cell.makeImpl E text = some .EmptyImpl) ∧
    (∀ text : String, text.data.head? = some FORMULA_SIGN ∧ text.length > 1 →
      Cell.makeImpl E text
        = (E.ParseFormulaAST (text.drop 1)).map fun ast => .FormulaImpl ast none) ∧
    (∀ text : String, text ≠ "" →
      ¬ (text.data.head? = some FORMULA_SIGN ∧ text.length > 1) →
      Cell.makeImpl E text = some (.TextImpl text) ∧
      ∀ (s : Sheet D) (p : Position) (c : Cell D), s.find p = some c →
        c.impl_ = .TextImpl text →
        c.GetText E = text ∧
        ∀ fuel, Cell.GetValue E fuel s p
          = .ret (.text (if text.data.head? = some ESCAPE_SIGN then text.drop 1 else text)) s) := by
  refine ⟨makeImpl_of_empty E, makeImpl_of_formula E, ?_⟩
  intro text hne hnf
  refine ⟨makeImpl_of_text E text hne hnf, ?_⟩
  intro s p c hf hi
  refine ⟨by simp [Cell.GetText, hi, Impl.GetText], ?_⟩
  intro fuel
  exact GetValue_text E fuel s p c text hf hi hne

/-- Witness of C12: the inputs `""`, `"=A1"`, `"="` and `"'=X"`. -/
theorem C12_classification_and_text_value_witness :
    Cell.makeImpl Demo.env "" = some .EmptyImpl ∧
    Cell.makeImpl Demo.env "=A1" = some (.FormulaImpl (.cell Demo.A1) none) ∧
    (Cell.makeImpl Demo.env "=" = some (.TextImpl "=") ∧
      ∀ (s : Sheet Int) (p : Position) (c : Cell Int), s.find p = some c →
        c.impl_ = .TextImpl "=" →
        c.GetText Demo.env = "=" ∧
        ∀ fuel, Cell.GetValue Demo.env fuel s p = .ret (.text "=") s) ∧
    (Cell.makeImpl Demo.env "'=X" = some (.TextImpl "'=X") ∧
      ∀ (s : Sheet Int) (p : Position) (c : Cell Int), s.find p = some c →
        c.impl_ = .TextImpl "'=X" →
        c.GetText Demo.env = "'=X" ∧
        ∀ fuel, Cell.GetValue Demo.env fuel s p = .ret (.text "=X") s) :=
  ⟨(C12_classification_and_text_value Demo.env).1 "" rfl,
    (C12_classification_and_text_value Demo.env).2.1 "=A1" (by decide),
    (C12_classification_and_text_value Demo.env).2.2 "=" (by decide) (by decide),
    (C12_classification_and_text_value Demo.env).2.2 "'=X" (by decide) (by decide)⟩

theorem find_foldl_modify (f : Cell D → Cell D) (hf : ∀ c, f (f c) = f c)
    (l : List Position) : ∀ (st : Sheet D) (q : Position),
    Sheet.find (l.foldl (fun st r => st.modify r f) st) q
      = if q ∈ l then (st.find q).map f else st.find q := by
  induction l with
  | nil => intro st q; simp
  | cons a l ih =>
    intro st q
    simp only [List.foldl_cons]
    rw [ih, Sheet.find_modify]
    by_cases hqa : q = a
    · subst hqa
      by_cases hql : q ∈ l
      · simp only [hql, if_true, List.mem_cons, true_or, Option.map_map]
        congr 1
        funext c
        exact hf c
      · simp [hql]
    · by_cases hql : q ∈ l
      · simp [hqa, hql]
      · simp [hqa, hql]

/-- The loop of `InvalidateCacheRecursively` on a cell that is not a formula
and whose in-set holds formula cells: each of them resets its cache and stops. -/
theorem icr_foldl_plain (n : Nat) (this : Position) (l : List Position) :
    ∀ (st : Sheet D) (ct : Cell D), st.find this = some ct →
    ct.impl_.InvalidateCache.IsCacheValid = true →
    (∀ r ∈ l, ∃ cr, st.find r = some cr ∧ cr.impl_.InvalidateCache.IsCacheValid = false) →
    l.foldl
      (fun (acc : Option (Sheet D)) in_ref =>
        match acc with
        | none => none
        | some st =>
          match st.find this with
          | none => some st
          | some c =>
            if c.impl_.IsCacheValid then Cell.InvalidateCacheRecursively (n + 1) st in_ref
            else some st)
      (some st) = some (l.foldl (fun st r => st.modify r Cell.InvalidateCache) st) := by
  induction l with
  | nil => intro st ct _ _ _; rfl
  | cons a l ih =>
    intro st ct hct hvalid hl
    have hvalid0 : ct.impl_.IsCacheValid = true := by
      cases hi : ct.impl_ with
      | EmptyImpl => rfl
      | TextImpl t => rfl
      | FormulaImpl ast cache => rw [hi] at hvalid; exact Bool.noConfusion hvalid
    obtain ⟨ca, hca, hcav⟩ := hl a (List.mem_cons_self _ _)
    have hat : a ≠ this := by
      intro e
      rw [e, hct] at hca
      have : ct = ca := Option.some.inj hca
      rw [this, hcav] at hvalid
      exact Bool.noConfusion hvalid
    simp only [List.foldl_cons, hct, hvalid0, if_true]
    rw [icr_formula n st a ca hca hcav]
    apply ih (st.modify a Cell.InvalidateCache) ct
    · rw [Sheet.find_modify]
      have : ¬ this = a := fun e => hat e.symm
      simp [this, hct]
    · exact hvalid
    · intro r hr
      obtain ⟨cr, hcr, hcrv⟩ := hl r (List.mem_cons_of_mem _ hr)
      rw [Sheet.find_modify]
      by_cases hra : r = a
      · subst hra
        refine ⟨cr.InvalidateCache, by simp [hcr], ?_⟩
        simp only [Cell.InvalidateCache, Impl.InvalidateCache_twice]
        exact hcrv
      · exact ⟨cr, by simp [hra, hcr], hcrv⟩

theorem icr_plain (n : Nat) (s : Sheet D) (this : Position) (ct : Cell D)
    (hct : s.find this = some ct) (hvalid : ct.impl_.InvalidateCache.IsCacheValid = true)
    (hl : ∀ r ∈ ct.in_refs_, ∃ cr, s.find r = some cr ∧
      cr.impl_.InvalidateCache.IsCacheValid = false) :
    ∃ s1, Cell.InvalidateCacheRecursively (n + 2) s this = some s1 ∧
      ∀ q, s1.find q = if q ∈ ct.in_refs_ then (s.find q).map Cell.InvalidateCache
        else s.find q := by
  have hplain : ct.InvalidateCache = ct := by
    cases ct with
    | mk impl i o =>
      cases impl with
      | EmptyImpl => rfl
      | TextImpl t => rfl
      | FormulaImpl ast cache => exact Bool.noConfusion hvalid
  have hmod : ∀ q, (s.modify this Cell.InvalidateCache).find q = s.find q := by
    intro q
    rw [Sheet.find_modify]
    by_cases hq : q = this
    · simp [hq, hct, hplain]
    · simp [hq]
  have hin : (s.modify this Cell.InvalidateCache).in_refs this = ct.in_refs_ := by
    simp [Sheet.in_refs, hmod this, hct]
  refine ⟨ct.in_refs_.foldl (fun st r => st.modify r Cell.InvalidateCache)
    (s.modify this Cell.InvalidateCache), ?_, ?_⟩
  · simp only [Cell.InvalidateCacheRecursively]
    rw [hin]
    exact icr_foldl_plain n this ct.in_refs_ _ ct (by rw [hmod this, hct]) hvalid
      (fun r hr => by rw [hmod r]; exact hl r hr)
  · intro q
    rw [find_foldl_modify Cell.InvalidateCache Cell.InvalidateCache_idem, hmod q]

/-- C20: on a sheet `s` with a cell at `c`, `InvalidateCacheRecursively` on `c`
returns. When the state of `c` is a formula it resets the cache of `c` and
leaves every other cell as it was, whatever `in_refs_` holds. When the state of
`c` is Empty or Text, and the members of its in-set are formula cells (as they
are at the last step of `Set`), it resets the caches of exactly the members of
the in-set of `c`, not those of their own in-sets, and leaves every other cell
as it was. -/
theorem C20_invalidation_reaches_one_level (s : Sheet D) (c : Position) (cell : Cell D)
    (hc : s.find c = some cell) :
    (∀ ast cache, cell.impl_ = .FormulaImpl ast cache →
      ∃ s1, Cell.InvalidateCacheRecursively (s.length + 1) s c = some s1 ∧
        ∀ q, s1.find q = if q = c then some cell.InvalidateCache else s.find q) ∧
    ((cell.impl_ = .EmptyImpl ∨ ∃ t, cell.impl_ = .TextImpl t) →
      (∀ r ∈ cell.in_refs_, ∃ cr ast cache,
        s.find r = some cr ∧ cr.impl_ = .FormulaImpl ast cache) →
      ∃ s1, Cell.InvalidateCacheRecursively (s.length + 1) s c = some s1 ∧
        ∀ q, s1.find q = if q ∈ cell.in_refs_ then (s.find q).map Cell.InvalidateCache
          else s.find q) := by
  refine ⟨?_, ?_⟩
  · intro ast cache hi
    refine ⟨_, icr_formula s.length s c cell hc (by rw [hi]; rfl), ?_⟩
    intro q
    rw [Sheet.find_modify]
    by_cases hq : q = c
    · simp [hq, hc]
    · simp [hq]
  · intro hplain hin
    obtain ⟨n, hn⟩ := @length_pos_of_find D s c (by rw [hc]; rfl)
    rw [hn]
    apply icr_plain n s c cell hc
    · rcases hplain with h | ⟨t, h⟩ <;> rw [h] <;> rfl
    · intro r hr
      obtain ⟨cr, ast, cache, hcr, hi⟩ := hin r hr
      exact ⟨cr, hcr, by rw [hi]; rfl⟩

/-- Witness of C20: on the sheet with `A1 = "1"`, `B1 = "=A1"`, `C1 = "=B1"`
and filled caches, the invalidation on the Text cell `A1` resets the cache of
`B1` and keeps the cache of `C1`. -/
theorem C20_invalidation_reaches_one_level_witness :
    Demo.sheetChain.find Demo.A1 = some ⟨.TextImpl "1", [Demo.B1], []⟩ ∧
    ∃ s1, Cell.InvalidateCacheRecursively (Demo.sheetChain.length + 1) Demo.sheetChain Demo.A1
        = some s1 ∧
      ∀ q, s1.find q
        = if q ∈ [Demo.B1] then (Demo.sheetChain.find q).map Cell.InvalidateCache
          else Demo.sheetChain.find q :=
  ⟨rfl, (C20_invalidation_reaches_one_level Demo.sheetChain Demo.A1
      ⟨.TextImpl "1", [Demo.B1], []⟩ rfl).2 (Or.inr ⟨"1", rfl⟩)
      (by
        intro r hr
        have hrB : r = Demo.B1 := by simpa using hr
        subst hrB
        exact ⟨_, _, _, rfl, rfl⟩)⟩

/-! ## The exact effect of `UpdateDependencies` -/

theorem setErase_idem (x : Position) (l : List Position) :
    setErase x (setErase x l) = setErase x l := by
  simp [setErase, List.filter_filter]

theorem Cell.eraseIn_idem (x : Position) (c : Cell D) :
    (c.eraseIn x).eraseIn x = c.eraseIn x := by
  simp [Cell.eraseIn, setErase_idem]

theorem setInsert_idem (x : Position) (l : List Position) :
    setInsert x (setInsert x l) = setInsert x l := by
  unfold setInsert
  by_cases h : x ∈ l
  · simp [h]
  · simp [h]

theorem Cell.insertIn_idem (x : Position) (c : Cell D) :
    (c.insertIn x).insertIn x = c.insertIn x := by
  simp [Cell.insertIn, setInsert_idem]

theorem setErase_of_not_mem (x : Position) (l : List Position) (h : x ∉ l) :
    setErase x l = l := by
  unfold setErase
  apply List.filter_eq_self.mpr
  intro a ha
  have : a ≠ x := fun e => h (e ▸ ha)
  simp [this]

theorem find_unlink (this : Position) (s : Sheet D) (q : Position) :
    (unlink this s).find q
      = ((s.find q).map fun c => if q ∈ s.out_refs this then c.eraseIn this else c).map
          fun c => if q = this then c.clearOut else c := by
  unfold unlink
  rw [Sheet.find_modify, find_foldl_modify (Cell.eraseIn this) (Cell.eraseIn_idem this)]
  by_cases h2 : q = this
  · subst h2
    by_cases h1 : q ∈ s.out_refs q <;> cases s.find q <;> simp [h1]
  · by_cases h1 : q ∈ s.out_refs this <;> cases s.find q <;> simp [h1, h2]

theorem find_foldl_link (this : Position) (refs : List Position) :
    ∀ (st : Sheet D) (q : Position),
    Sheet.find (refs.foldl (link this) st) q = refs.foldl (linkAt this q) (st.find q) := by
  induction refs with
  | nil => intro st q; rfl
  | cons a l ih =>
    intro st q
    simp only [List.foldl_cons]
    rw [ih, find_link]
    rfl

theorem foldl_linkAt_this (this : Position) (refs : List Position) (hn : this ∉ refs) :
    ∀ c : Cell D, refs.foldl (linkAt this this) (some c)
      = some (refs.foldl (fun c pos => c.insertOut pos) c) := by
  induction refs with
  | nil => intro c; rfl
  | cons a l ih =>
    intro c
    have ha : ¬ this = a := fun e => hn (e ▸ List.mem_cons_self _ _)
    simp only [List.foldl_cons]
    have h1 : linkAt this this (some c) a = some (c.insertOut a) := by
      simp [linkAt, ha]
    rw [h1]
    exact ih (fun h => hn (List.mem_cons_of_mem _ h)) _

theorem foldl_linkAt_notin (this q : Position) (refs : List Position) (hq : q ≠ this)
    (hn : q ∉ refs) : ∀ o : Option (Cell D), refs.foldl (linkAt this q) o = o := by
  induction refs with
  | nil => intro o; rfl
  | cons a l ih =>
    intro o
    have ha : ¬ q = a := fun e => hn (e ▸ List.mem_cons_self _ _)
    simp only [List.foldl_cons]
    have h1 : linkAt this q o a = o := by
      cases o <;> simp [linkAt, ha, hq]
    rw [h1]
    exact ih (fun h => hn (List.mem_cons_of_mem _ h)) _

theorem foldl_linkAt_in (this q : Position) (refs : List Position) (hq : q ≠ this) :
    q ∈ refs → ∀ o : Option (Cell D),
      refs.foldl (linkAt this q) o = some ((o.getD Cell.new).insertIn this) := by
  induction refs with
  | nil => intro h; simp at h
  | cons a l ih =>
    intro hm o
    simp only [List.foldl_cons]
    by_cases ha : q = a
    · have h1 : linkAt this q o a = some ((o.getD Cell.new).insertIn this) := by
        subst ha
        cases o <;> simp [linkAt, hq]
      rw [h1]
      by_cases hl : q ∈ l
      · rw [ih hl]
        simp [Cell.insertIn_idem]
      · exact foldl_linkAt_notin this q l hq hl _
    · have h1 : linkAt this q o a = o := by
        cases o <;> simp [linkAt, ha, hq]
      rw [h1]
      rcases List.mem_cons.mp hm with h | h
      · exact absurd h ha
      · exact ih h o

theorem foldl_insertOut (refs : List Position) : ∀ c : Cell D,
    refs.foldl (fun c pos => c.insertOut pos) c
      = { c with out_refs_ := refs.foldl (fun l pos => setInsert pos l) c.out_refs_ } := by
  induction refs with
  | nil => intro c; rfl
  | cons a l ih =>
    intro c
    simp only [List.foldl_cons]
    rw [ih]
    rfl

theorem mem_foldl_setInsert (refs : List Position) : ∀ (l : List Position) (x : Position),
    x ∈ refs.foldl (fun l pos => setInsert pos l) l ↔ x ∈ l ∨ x ∈ refs := by
  induction refs with
  | nil => intro l x; simp
  | cons a r ih =>
    intro l x
    simp only [List.foldl_cons]
    rw [ih, mem_setInsert]
    simp only [List.mem_cons]
    tauto

theorem mem_outList (refs : List Position) (x : Position) : x ∈ outList refs ↔ x ∈ refs := by
  unfold outList
  rw [mem_foldl_setInsert]
  simp

/-- The cell of `this` after `UpdateDependencies`: its out-set is rebuilt, the
rest is untouched. -/
theorem find_rewire_this (s : Sheet D) (this : Position) (refs : List Position) (c : Cell D)
    (hc : s.find this = some c) (hout : this ∉ c.out_refs_) (hn : this ∉ refs) :
    (rewire s this refs).find this = some { c with out_refs_ := outList refs } := by
  unfold rewire
  rw [find_foldl_link, find_unlink, hc]
  have ho : this ∉ s.out_refs this := by rw [out_refs_of_find hc]; exact hout
  simp only [Option.map_some', ho, if_false, if_true]
  rw [foldl_linkAt_this this refs hn, foldl_insertOut]
  rfl

/-- Another cell after `UpdateDependencies`. -/
theorem find_rewire_other (s : Sheet D) (this : Position) (refs : List Position) (q : Position)
    (hq : q ≠ this) :
    (rewire s this refs).find q
      = if q ∈ refs then
          some ((((s.find q).map fun c =>
            if q ∈ s.out_refs this then c.eraseIn this else c).getD Cell.new).insertIn this)
        else (s.find q).map fun c => if q ∈ s.out_refs this then c.eraseIn this else c := by
  unfold rewire
  rw [find_foldl_link, find_unlink]
  have h1 : (((s.find q).map fun c => if q ∈ s.out_refs this then c.eraseIn this else c).map
      fun c => if q = this then c.clearOut else c)
      = (s.find q).map fun c => if q ∈ s.out_refs this then c.eraseIn this else c := by
    cases s.find q <;> simp [hq]
  rw [h1]
  by_cases hr : q ∈ refs
  · simp only [hr, if_true]
    exact foldl_linkAt_in this q refs hq hr _
  · simp only [hr, if_false]
    exact foldl_linkAt_notin this q refs hq hr _

theorem keys_rewire_of_present (this : Position) (refs : List Position) :
    ∀ st : Sheet D, (∀ pos ∈ refs, (st.find pos).isSome = true) →
      (refs.foldl (link this) st).keys = st.keys := by
  induction refs with
  | nil => intro st _; rfl
  | cons a l ih =>
    intro st h
    simp only [List.foldl_cons]
    have ha := h a (List.mem_cons_self _ _)
    have hk : (link this st a).keys = st.keys := by
      rw [keys_link]
      cases hf : st.find a with
      | none => rw [hf] at ha; simp at ha
      | some c => simp
    rw [ih, hk]
    intro pos hp
    rw [link_isSome, h pos (List.mem_cons_of_mem _ hp)]
    rfl

/-! ## The sheet after a successful `Cell::Set` -/

theorem makeImpl_cache (E : Collab D) (text : String) (impl : Impl D)
    (h : Cell.makeImpl E text = some impl) : impl.InvalidateCache = impl := by
  unfold Cell.makeImpl at h
  by_cases h0 : text.length = 0
  · simp only [h0, if_true, Option.some.injEq] at h
    rw [← h]; rfl
  · simp only [h0, if_false] at h
    by_cases hf : text.data.head? = some FORMULA_SIGN ∧ text.length > 1
    · simp only [hf, and_self, if_true] at h
      cases hp : E.ParseFormulaAST (text.drop 1) with
      | none => rw [hp] at h; simp at h
      | some ast =>
        rw [hp] at h
        simp only [Option.map_some', Option.some.injEq] at h
        rw [← h]; rfl
    · simp only [hf, if_false, Option.some.injEq] at h
      rw [← h]; rfl

theorem WellFormed.not_self_out {s : Sheet D} (hwf : WellFormed s) (this : Position) :
    this ∉ s.out_refs this :=
  fun h => hwf.acyclic this (Relation.TransGen.single h)

theorem not_mem_refs_of_check {s : Sheet D} {this : Position} {impl : Impl D}
    (hthis : (s.find this).isSome = true)
    (hc : Cell.CheckCircularDependencyToArise s this impl = some false) :
    this ∉ impl.GetReferencedCells := by
  intro hm
  obtain ⟨b, hb, hiff⟩ := check_spec s this impl
  rw [hc] at hb
  have hbf : b = false := (Option.some.inj hb).symm
  have hbt : b = true :=
    hiff.mpr ⟨this, (mem_targets s impl this).mpr ⟨hm, hthis⟩, Relation.ReflTransGen.refl⟩
  rw [hbf] at hbt
  exact Bool.noConfusion hbt

/-- A candidate whose references are already the out-edges of the cell passes
the cycle check. -/
theorem check_false_of_out {s : Sheet D} (hwf : WellFormed s) (this : Position)
    (impl : Impl D) (h : ∀ t ∈ impl.GetReferencedCells, t ∈ s.out_refs this) :
    Cell.CheckCircularDependencyToArise s this impl = some false := by
  obtain ⟨b, hb, hiff⟩ := check_spec s this impl
  cases b with
  | false => exact hb
  | true =>
    exfalso
    obtain ⟨t, ht, hp⟩ := hiff.mp rfl
    have h1 : outEdge s this t := h t ((mem_targets s impl t).mp ht).1
    have h2 := (reach_in_iff_out hwf.symmetric this t).mp hp
    exact hwf.acyclic this (Relation.TransGen.head' h1 h2)

/-- The invalidation on a cell of a well-formed sheet, cell by cell. -/
theorem icr_find_wf {s : Sheet D} (hwf : WellFormed s) (this : Position) (ct : Cell D)
    (hct : s.find this = some ct) :
    ∃ s1, Cell.InvalidateCacheRecursively (s.length + 1) s this = some s1 ∧
      ∀ q, s1.find q
        = if q = this ∨ (ct.impl_.InvalidateCache.IsCacheValid = true ∧ q ∈ ct.in_refs_) then
            (s.find q).map Cell.InvalidateCache
          else s.find q := by
  by_cases hv : ct.impl_.InvalidateCache.IsCacheValid = true
  · obtain ⟨n, hn⟩ := @length_pos_of_find D s this (by rw [hct]; rfl)
    rw [hn]
    have hin : ∀ r ∈ ct.in_refs_, ∃ cr, s.find r = some cr ∧
        cr.impl_.InvalidateCache.IsCacheValid = false := by
      intro r hr
      have h1 : this ∈ s.out_refs r :=
        (hwf.symmetric r this).mpr (by rw [in_refs_of_find hct]; exact hr)
      exact formula_of_refs ((hwf.refsMatch r this).mp h1)
    obtain ⟨s1, h1, h2⟩ := icr_plain n s this ct hct hv hin
    refine ⟨s1, h1, ?_⟩
    intro q
    rw [h2 q]
    have hplain : ct.InvalidateCache = ct := by
      cases ct with
      | mk impl i o =>
        cases impl with
        | EmptyImpl => rfl
        | TextImpl t => rfl
        | FormulaImpl ast cache => exact Bool.noConfusion hv
    by_cases hq : q = this
    · subst hq
      simp only [true_or, if_true, hct, Option.map_some', hplain]
      split_ifs <;> rfl
    · simp [hq, hv]
  · have hv1 : ct.impl_.InvalidateCache.IsCacheValid = false := by simpa using hv
    refine ⟨_, icr_formula s.length s this ct hct hv1, ?_⟩
    intro q
    rw [Sheet.find_modify]
    simp [hv1]

/-- The cell of `this` after a successful `Cell::Set`. -/
theorem find_after_Set_this (E : Collab D) {s : Sheet D} (hwf : WellFormed s)
    (this : Position) (text : String) (c : Cell D) (hc : s.find this = some c)
    (s1 : Sheet D) (h : Cell.SetTop E s this text = .ret () s1) :
    ∃ impl, Cell.makeImpl E text = some impl ∧
      Cell.CheckCircularDependencyToArise s this impl = some false ∧
      s1.find this = some ⟨impl, c.in_refs_, outList impl.GetReferencedCells⟩ := by
  obtain ⟨impl, hm, hcheck, hi⟩ := SetTop_ret_icr E s this text s1 h
  have hthis : (s.find this).isSome = true := by rw [hc]; rfl
  refine ⟨impl, hm, hcheck, ?_⟩
  have hcm : (committed s this impl).find this
      = some ⟨impl, c.in_refs_, outList impl.GetReferencedCells⟩ := by
    unfold committed
    rw [Sheet.find_modify, find_rewire_this s this _ c hc
      (by rw [← out_refs_of_find hc]; exact hwf.not_self_out this)
      (not_mem_refs_of_check hthis hcheck)]
    simp [Cell.setImpl]
  have hwf1 := committed_wf hwf this impl hthis hcheck
  obtain ⟨s2, h2, hfind⟩ := icr_find_wf hwf1 this _ hcm
  rw [hi] at h2
  have he : s1 = s2 := Option.some.inj h2
  subst he
  rw [hfind this, hcm]
  simp [Cell.InvalidateCache, makeImpl_cache E text impl hm]

/-- Another cell after a successful `Cell::Set`: the cell that `UpdateDependencies`
left, with its cache reset or not. -/
theorem find_after_Set_other (E : Collab D) {s : Sheet D} (hwf : WellFormed s)
    (this : Position) (text : String) (c : Cell D) (hc : s.find this = some c)
    (s1 : Sheet D) (h : Cell.SetTop E s this text = .ret () s1) (impl : Impl D)
    (hm : Cell.makeImpl E text = some impl) (q : Position) (hq : q ≠ this) :
    s1.find q
      = if impl.IsCacheValid = true ∧ q ∈ c.in_refs_ then
          ((rewire s this impl.GetReferencedCells).find q).map Cell.InvalidateCache
        else (rewire s this impl.GetReferencedCells).find q := by
  obtain ⟨impl1, hm1, hcheck, hi⟩ := SetTop_ret_icr E s this text s1 h
  rw [hm] at hm1
  have he : impl = impl1 := Option.some.inj hm1
  subst he
  have hthis : (s.find this).isSome = true := by rw [hc]; rfl
  have hcm : (committed s this impl).find this
      = some ⟨impl, c.in_refs_, outList impl.GetReferencedCells⟩ := by
    unfold committed
    rw [Sheet.find_modify, find_rewire_this s this _ c hc
      (by rw [← out_refs_of_find hc]; exact hwf.not_self_out this)
      (not_mem_refs_of_check hthis hcheck)]
    simp [Cell.setImpl]
  have hwf1 := committed_wf hwf this impl hthis hcheck
  obtain ⟨s2, h2, hfind⟩ := icr_find_wf hwf1 this _ hcm
  rw [hi] at h2
  have he : s1 = s2 := Option.some.inj h2
  subst he
  have hcq : (committed s this impl).find q = (rewire s this impl.GetReferencedCells).find q := by
    unfold committed
    rw [Sheet.find_modify]
    simp [hq]
  rw [hfind q, hcq]
  simp only [hq, false_or, makeImpl_cache E text impl hm]

/-! ## A second `Cell::Set` with the same text -/

theorem Cell.insert_erase_insert (this : Position) (y : Cell D) (h : this ∉ y.in_refs_) :
    ((y.insertIn this).eraseIn this).insertIn this = y.insertIn this := by
  cases y with
  | mk impl i o =>
    have h1 : this ∉ i := h
    have h2 : setErase this (this :: i) = i := by
      unfold setErase
      rw [List.filter_cons]
      simp only [ne_eq, not_true_eq_false, decide_False, Bool.false_eq_true, if_false]
      exact setErase_of_not_mem this i h1
    simp [Cell.insertIn, Cell.eraseIn, setInsert, h1, h2]

theorem Cell.relink_InvalidateCache (this : Position) (y : Cell D)
    (h : (y.eraseIn this).insertIn this = y) :
    (y.InvalidateCache.eraseIn this).insertIn this = y.InvalidateCache := by
  cases y with
  | mk impl i o =>
    simp only [Cell.insertIn, Cell.eraseIn, Cell.InvalidateCache, Cell.mk.injEq, true_and,
      and_true] at h ⊢
    exact h

theorem JustSet.check {s1 : Sheet D} {this : Position} {impl : Impl D}
    (hwf : WellFormed s1) (h : JustSet s1 this impl) :
    Cell.CheckCircularDependencyToArise s1 this impl = some false := by
  obtain ⟨c1, hc1, _, hout⟩ := h.cell
  apply check_false_of_out hwf
  intro t ht
  rw [out_refs_of_find hc1, hout]
  exact (mem_outList _ t).mpr ht

theorem JustSet.committed_eq {s1 : Sheet D} {this : Position} {impl : Impl D}
    (hinv : Inv s1) (h : JustSet s1 this impl) : committed s1 this impl = s1 := by
  obtain ⟨c1, hc1, himpl, hout⟩ := h.cell
  have hthis : (s1.find this).isSome = true := by rw [hc1]; rfl
  have hnr : this ∉ impl.GetReferencedCells := not_mem_refs_of_check hthis (h.check hinv.wf)
  have hno : this ∉ c1.out_refs_ := by
    rw [← out_refs_of_find hc1]; exact hinv.wf.not_self_out this
  apply sheet_ext hinv.keys.nodup
  · unfold committed rewire
    rw [keys_modify, keys_rewire_of_present, keys_unlink]
    intro pos hp
    obtain ⟨cq, hcq, _⟩ := h.refs pos hp
    rw [find_unlink, hcq]
    rfl
  · intro q
    by_cases hq : q = this
    · subst hq
      unfold committed
      rw [Sheet.find_modify, find_rewire_this s1 q _ c1 hc1 hno hnr, hc1]
      cases c1 with
      | mk i a b =>
        simp only at himpl hout
        simp [Cell.setImpl, himpl, hout]
    · have hcq : (committed s1 this impl).find q
          = (rewire s1 this impl.GetReferencedCells).find q := by
        unfold committed
        rw [Sheet.find_modify]
        simp [hq]
      rw [hcq, find_rewire_other s1 this _ q hq]
      have hiff : q ∈ s1.out_refs this ↔ q ∈ impl.GetReferencedCells := by
        rw [out_refs_of_find hc1, hout]; exact mem_outList _ q
      by_cases hr : q ∈ impl.GetReferencedCells
      · obtain ⟨cq, hf, he⟩ := h.refs q hr
        simp only [hr, if_true, hiff, hf, Option.map_some', Option.getD_some, he]
      · simp only [hr, if_false, hiff]
        cases s1.find q <;> rfl

theorem JustSet.icr_eq {s1 : Sheet D} {this : Position} {impl : Impl D}
    (hinv : Inv s1) (h : JustSet s1 this impl) :
    Cell.InvalidateCacheRecursively (s1.length + 1) s1 this = some s1 := by
  obtain ⟨c1, hc1, himpl, hout⟩ := h.cell
  obtain ⟨s2, h2, hfind⟩ := icr_find_wf hinv.wf this c1 hc1
  have he : s2 = s1 := by
    apply sheet_ext hinv.keys.nodup (icr_cacheOnly _ _ _ _ h2).2
    intro q
    rw [hfind q]
    by_cases hq : q = this
    · subst hq
      simp only [true_or, if_true, hc1, Option.map_some']
      cases c1 with
      | mk i a b =>
        simp only at himpl
        simp [Cell.InvalidateCache, himpl, h.fresh]
    · simp only [hq, false_or]
      by_cases hcond : c1.impl_.InvalidateCache.IsCacheValid = true ∧ q ∈ c1.in_refs_
      · simp only [hcond, and_self, if_true]
        have hv : impl.IsCacheValid = true := by
          have := hcond.1
          rw [himpl, h.fresh] at this
          exact this
        obtain ⟨cr, hcr, hid⟩ := h.ins hv q (by rw [in_refs_of_find hc1]; exact hcond.2)
        rw [hcr, Option.map_some', hid]
      · simp only [hcond, if_false]
  rw [h2, he]

/-- On such a sheet `Cell::Set` of the same text returns and changes nothing. -/
theorem JustSet.SetTop_eq_self (E : Collab D) {s1 : Sheet D} {this : Position} {impl : Impl D}
    (hinv : Inv s1) (h : JustSet s1 this impl) (text : String)
    (hm : Cell.makeImpl E text = some impl) : Cell.SetTop E s1 this text = .ret () s1 := by
  rw [SetTop_eq]
  simp only [hm, h.check hinv.wf, h.committed_eq hinv, h.icr_eq hinv]

/-- A successful `Cell::Set` leaves a sheet of that shape. -/
theorem SetTop_justSet (E : Collab D) {s : Sheet D} (hwf : WellFormed s) (this : Position)
    (text : String) (hthis : (s.find this).isSome = true) (s1 : Sheet D)
    (h : Cell.SetTop E s this text = .ret () s1) :
    ∃ impl, Cell.makeImpl E text = some impl ∧ JustSet s1 this impl := by
  cases hc : s.find this with
  | none => rw [hc] at hthis; exact Bool.noConfusion hthis
  | some c =>
    obtain ⟨impl, hm, hcheck, hf⟩ := find_after_Set_this E hwf this text c hc s1 h
    have hnr : this ∉ impl.GetReferencedCells := not_mem_refs_of_check hthis hcheck
    have hfresh := makeImpl_cache E text impl hm
    refine ⟨impl, hm, ⟨⟨_, hf, rfl, rfl⟩, hfresh, ?_, ?_⟩⟩
    · intro q hq
      have hne : q ≠ this := fun e => hnr (e ▸ hq)
      have hrw := find_rewire_other s this impl.GetReferencedCells q hne
      simp only [hq, if_true] at hrw
      have hy : ∀ y : Cell D, y = ((s.find q).map fun c =>
          if q ∈ s.out_refs this then c.eraseIn this else c).getD Cell.new →
          this ∉ y.in_refs_ := by
        intro y hy
        subst hy
        cases hfq : s.find q with
        | none => simp [Cell.new]
        | some cq =>
          simp only [Option.map_some', Option.getD_some]
          by_cases ho : q ∈ s.out_refs this
          · simp only [ho, if_true, Cell.eraseIn, setErase]
            simp
          · simp only [ho, if_false]
            intro hin
            apply ho
            apply (hwf.symmetric this q).mpr
            rw [in_refs_of_find hfq]
            exact hin
      obtain ⟨y, hyrw, hyn⟩ : ∃ y : Cell D,
          (rewire s this impl.GetReferencedCells).find q = some (y.insertIn this) ∧
            this ∉ y.in_refs_ := ⟨_, hrw, hy _ rfl⟩
      have hrel := Cell.insert_erase_insert this y hyn
      rw [find_after_Set_other E hwf this text c hc s1 h impl hm q hne, hyrw]
      by_cases hcond : impl.IsCacheValid = true ∧ q ∈ c.in_refs_
      · rw [if_pos hcond]
        exact ⟨_, rfl, Cell.relink_InvalidateCache this _ hrel⟩
      · rw [if_neg hcond]
        exact ⟨_, rfl, hrel⟩
    · intro hv r hr
      rw [in_refs_of_find hf] at hr
      have hr1 : r ∈ c.in_refs_ := hr
      have hsr : r ∈ s.in_refs this := by rw [in_refs_of_find hc]; exact hr1
      have hor : this ∈ s.out_refs r := (hwf.symmetric r this).mpr hsr
      have hne : r ≠ this := fun e => hwf.not_self_out this (e ▸ hor)
      rw [find_after_Set_other E hwf this text c hc s1 h impl hm r hne]
      simp only [hv, hr1, and_self, if_true]
      cases hfr : (rewire s this impl.GetReferencedCells).find r with
      | none =>
        exfalso
        rw [find_rewire_other s this _ r hne] at hfr
        obtain ⟨cr, hcr⟩ := Option.isSome_iff_exists.mp (isSome_of_out_refs hor)
        rw [hcr] at hfr
        split_ifs at hfr <;> simp at hfr
      | some cr => exact ⟨_, rfl, Cell.InvalidateCache_idem cr⟩

theorem ensure_of_isSome (s : Sheet D) (pos : Position) (h : (s.find pos).isSome = true) :
    (if (s.find pos).isNone then s.emplace pos else s) = s := by
  cases hf : s.find pos with
  | none => rw [hf] at h; exact Bool.noConfusion h
  | some c => rfl

theorem GetValue_empty (E : Collab D) (fuel : Nat) (s : Sheet D) (p : Position) (c : Cell D)
    (hf : s.find p = some c) (hi : c.impl_ = .EmptyImpl) :
    Cell.GetValue E fuel s p = .ret (.text "") s := by
  cases fuel <;> (unfold Cell.GetValue; simp only [hf, hi])

/-- C11: on a sheet reached by any sequence of calls, for a valid position `p`:
`ClearCell(p)` on an absent position returns and changes nothing; on a cell with
an empty in-set it returns and `GetCell(p)` is then absent; on a cell with a
non-empty in-set it returns and `GetCell(p)` is then a cell with empty text,
the empty string as value, no referenced cells and the in-set it had. -/
theorem C11_ClearCell_removes_or_leaves_empty (E : Collab D) (ops : List Op) (s : Sheet D)
    (hrun : run E ops = some s) (p : Position) (hv : p.IsValid = true) :
    (s.find p = none → Sheet.ClearCell E s p = .ret () s) ∧
    (∀ c, s.find p = some c → c.in_refs_ = [] →
      ∃ s1, Sheet.ClearCell E s p = .ret () s1 ∧ Sheet.GetCell s1 p = .ret none s1) ∧
    (∀ c, s.find p = some c → c.in_refs_ ≠ [] →
      ∃ s1 c1, Sheet.ClearCell E s p = .ret () s1 ∧ Sheet.GetCell s1 p = .ret (some c1) s1 ∧
        c1.GetText E = "" ∧ (∀ fuel, Cell.GetValue E fuel s1 p = .ret (.text "") s1) ∧
        c1.GetReferencedCells = [] ∧ c1.in_refs_ = c.in_refs_) := by
  have hinv := run_inv E ops s hrun
  have key : ∀ c, s.find p = some c → ∃ s3,
      Cell.Clear E (Sheet.SetCellNested E) s p = .ret () s3 ∧
        s3.find p = some ⟨.EmptyImpl, c.in_refs_, []⟩ := by
    intro c hc
    have hthis : (s.find p).isSome = true := by rw [hc]; rfl
    obtain ⟨s3, h3, _, _⟩ := Clear_wf E hinv.wf p hthis
    obtain ⟨impl, hm, _, hf⟩ := find_after_Set_this E hinv.wf p "" c hc s3 h3
    rw [makeImpl_empty] at hm
    have he : impl = .EmptyImpl := (Option.some.inj hm).symm
    subst he
    exact ⟨s3, h3, hf⟩
  refine ⟨?_, ?_, ?_⟩
  · intro hf
    unfold Sheet.ClearCell
    simp only [hv, Bool.not_true, Bool.false_eq_true, if_false, hf]
  · intro c hc hin
    obtain ⟨s3, h3, hf⟩ := key c hc
    refine ⟨s3.erase p, ?_, ?_⟩
    · unfold Sheet.ClearCell
      simp only [hv, Bool.not_true, Bool.false_eq_true, if_false, hc, h3, Res.bind, hf,
        Cell.IsReferenced, hin, List.isEmpty_nil, Bool.not_true, Bool.not_false, if_true]
    · unfold Sheet.GetCell
      simp only [hv, Bool.not_true, Bool.false_eq_true, if_false, Sheet.find_erase, if_true]
  · intro c hc hin
    obtain ⟨s3, h3, hf⟩ := key c hc
    have hne : c.in_refs_.isEmpty = false := by
      cases hl : c.in_refs_ with
      | nil => exact absurd hl hin
      | cons a l => rfl
    refine ⟨s3, ⟨.EmptyImpl, c.in_refs_, []⟩, ?_, ?_, rfl, ?_, rfl, rfl⟩
    · unfold Sheet.ClearCell
      simp only [hv, Bool.not_true, Bool.false_eq_true, if_false, hc, h3, Res.bind, hf,
        Cell.IsReferenced, hne, Bool.not_false, Bool.not_true, if_false]
    · unfold Sheet.GetCell
      simp only [hv, Bool.not_true, Bool.false_eq_true, if_false, hf]
    · intro fuel
      exact GetValue_empty E fuel s3 p _ hf rfl

/-- Witness of C11: `ClearCell(B1)` on the sheet after `SetCell(A1, "=B1")`,
where `B1` is referenced by `A1`. -/
theorem C11_ClearCell_removes_or_leaves_empty_witness :
    run Demo.env [Op.SetCell Demo.A1 "=B1"] = some Demo.sheetAB ∧ Demo.B1.IsValid = true ∧
    (Demo.sheetAB.find Demo.B1 = none →
      Sheet.ClearCell Demo.env Demo.sheetAB Demo.B1 = .ret () Demo.sheetAB) ∧
    (∀ c, Demo.sheetAB.find Demo.B1 = some c → c.in_refs_ = [] →
      ∃ s1, Sheet.ClearCell Demo.env Demo.sheetAB Demo.B1 = .ret () s1 ∧
        Sheet.GetCell s1 Demo.B1 = .ret none s1) ∧
    (∀ c, Demo.sheetAB.find Demo.B1 = some c → c.in_refs_ ≠ [] →
      ∃ s1 c1, Sheet.ClearCell Demo.env Demo.sheetAB Demo.B1 = .ret () s1 ∧
        Sheet.GetCell s1 Demo.B1 = .ret (some c1) s1 ∧
        c1.GetText Demo.env = "" ∧
        (∀ fuel, Cell.GetValue Demo.env fuel s1 Demo.B1 = .ret (.text "") s1) ∧
        c1.GetReferencedCells = [] ∧ c1.in_refs_ = c.in_refs_) :=
  ⟨rfl, rfl, C11_ClearCell_removes_or_leaves_empty Demo.env [Op.SetCell Demo.A1 "=B1"]
    Demo.sheetAB rfl Demo.B1 rfl⟩

/-- C17: on a sheet reached by any sequence of calls, `SetCell(p, t)` ends (with
a return or an exception) in a sheet `s1`, and `SetCell(p, t)` on `s1` has the
same outcome as the first call and leaves `s1` as it is: the sheet after two
calls is the sheet after one, cell by cell and cache by cache. -/
theorem C17_SetCell_twice_same_as_once (E : Collab D) (ops : List Op) (s : Sheet D)
    (hrun : run E ops = some s) (p : Position) (t : String) :
    ∃ s1, (Sheet.SetCell E s p t).state? = some s1 ∧
      Sheet.SetCell E s1 p t = Sheet.SetCell E s p t ∧
      (Sheet.SetCell E s1 p t).state? = some s1 := by
  have hinv := run_inv E ops s hrun
  have main : ∃ s1, (Sheet.SetCell E s p t).state? = some s1 ∧
      Sheet.SetCell E s1 p t = Sheet.SetCell E s p t := by
    by_cases hv : p.IsValid = true
    · have hinv0 := hinv.ensure_cell p hv
      have hthis := find_ensure_self s p
      have hfirst : Sheet.SetCell E s p t
          = Cell.SetTop E (if (s.find p).isNone then s.emplace p else s) p t := by
        unfold Sheet.SetCell Sheet.SetCellWith
        simp only [hv, Bool.not_true, Bool.false_eq_true, if_false]
        rfl
      have hsecond : ∀ s1 : Sheet D, (s1.find p).isSome = true →
          Sheet.SetCell E s1 p t = Cell.SetTop E s1 p t := by
        intro s1 h1
        unfold Sheet.SetCell Sheet.SetCellWith
        simp only [hv, Bool.not_true, Bool.false_eq_true, if_false, ensure_of_isSome s1 p h1]
        rfl
      rw [hfirst]
      generalize hs0 : (if (s.find p).isNone then s.emplace p else s) = s0 at hinv0 hthis
      rcases SetTop_cases E hinv0.wf p t hthis with
        ⟨_, h⟩ | ⟨impl, _, _, h⟩ | ⟨impl, s3, _, _, h, _, _⟩
      · exact ⟨s0, by rw [h]; rfl, hsecond s0 hthis⟩
      · exact ⟨s0, by rw [h]; rfl, hsecond s0 hthis⟩
      · have hinv3 : Inv s3 := SetTop_inv E hinv0 p t hthis s3 (by rw [h]; rfl)
        obtain ⟨impl1, hm1, hjust⟩ := SetTop_justSet E hinv0.wf p t hthis s3 h
        obtain ⟨c1, hc1, _, _⟩ := hjust.cell
        have h3 : (s3.find p).isSome = true := by rw [hc1]; rfl
        refine ⟨s3, by rw [h]; rfl, ?_⟩
        rw [hsecond s3 h3, h]
        exact hjust.SetTop_eq_self E hinv3 t hm1
    · refine ⟨s, ?_, rfl⟩
      unfold Sheet.SetCell Sheet.SetCellWith
      simp only [hv, Bool.not_false, if_true, Res.state?]
  obtain ⟨s1, h1, h2⟩ := main
  exact ⟨s1, h1, h2, by rw [h2]; exact h1⟩

/-- Witness of C17: `SetCell(A1, "2")` on the sheet after `chainOps`, whose
formula cells have a cache. -/
theorem C17_SetCell_twice_same_as_once_witness :
    run Demo.env Demo.chainOps = some Demo.sheetChain ∧
    ∃ s1, (Sheet.SetCell Demo.env Demo.sheetChain Demo.A1 "2").state? = some s1 ∧
      Sheet.SetCell Demo.env s1 Demo.A1 "2" = Sheet.SetCell Demo.env Demo.sheetChain Demo.A1 "2" ∧
      (Sheet.SetCell Demo.env s1 Demo.A1 "2").state? = some s1 :=
  ⟨rfl, C17_SetCell_twice_same_as_once Demo.env Demo.chainOps Demo.sheetChain rfl Demo.A1 "2"⟩

/-! ## The iterations of the cycle check -/

/-- The record of the iterations does not change the result of the loop. -/
theorem dfsLoop_eq_trace (s : Sheet D) (T : List Position) :
    ∀ (fuel : Nat) (V S : List Position),
      dfsLoop s T fuel V S = (dfsTrace s T fuel V S).map Prod.fst := by
  intro fuel
  induction fuel with
  | zero =>
    intro V S
    cases S with
    | nil => simp [dfsLoop, dfsTrace]
    | cons a l => simp [dfsLoop, dfsTrace]
  | succ n ih =>
    intro V S
    cases S with
    | nil => simp [dfsLoop, dfsTrace]
    | cons cur rest =>
      by_cases hcur : cur ∈ T
      · simp [dfsLoop, dfsTrace, hcur]
      · simp only [dfsLoop, dfsTrace, hcur, if_false, ih, Option.map_map]
        rfl

theorem check_eq_trace (s : Sheet D) (this : Position) (impl : Impl D) :
    Cell.CheckCircularDependencyToArise s this impl
      = (Cell.CheckCircularDependencyTrace s this impl).map Prod.fst :=
  dfsLoop_eq_trace s _ _ _ _

/-- The iterations of the loop from a state that satisfies its invariant. -/
theorem dfsTrace_bound (s : Sheet D) (T : List Position) (this : Position) :
    ∀ (fuel : Nat) (V S : List Position), DfsInv s T this V S →
      ∀ (b : Bool) (pops : List Position), dfsTrace s T fuel V S = some (b, pops) →
        (∀ x ∈ pops, Relation.ReflTransGen (inEdge s) this x) ∧
        pops.length ≤ S.length
          + ∑ x in pops.toFinset \ V.toFinset, (s.in_refs x).length := by
  intro fuel
  induction fuel with
  | zero =>
    intro V S inv b pops h
    cases S with
    | nil =>
      simp only [dfsTrace, Option.some.injEq, Prod.mk.injEq] at h
      rw [← h.2]; simp
    | cons a l => simp [dfsTrace] at h
  | succ n ih =>
    intro V S inv b pops h
    cases S with
    | nil =>
      simp only [dfsTrace, Option.some.injEq, Prod.mk.injEq] at h
      rw [← h.2]; simp
    | cons cur rest =>
      have hreach := inv.reach cur (Or.inr (List.mem_cons_self _ _))
      by_cases hcur : cur ∈ T
      · simp only [dfsTrace, hcur, if_true, Option.some.injEq, Prod.mk.injEq] at h
        rw [← h.2]
        refine ⟨?_, ?_⟩
        · intro x hx
          have : x = cur := by simpa using hx
          rw [this]; exact hreach
        · simp only [List.length_cons, List.length_nil]; omega
      · obtain ⟨P, hP1, hP2, hP3⟩ := push_spec (setInsert cur V) (s.in_refs cur) rest
        have inv1 := inv.step hcur hP2
        simp only [dfsTrace, hcur, if_false, hP1] at h
        cases hrec : dfsTrace s T n (setInsert cur V) (P ++ rest) with
        | none => rw [hrec] at h; simp at h
        | some r =>
          obtain ⟨b1, pops1⟩ := r
          rw [hrec] at h
          simp only [Option.map_some', Option.some.injEq, Prod.mk.injEq] at h
          obtain ⟨ih1, ih2⟩ := ih _ _ inv1 b1 pops1 hrec
          rw [← h.2]
          refine ⟨?_, ?_⟩
          · intro x hx
            rcases List.mem_cons.mp hx with hx | hx
            · rw [hx]; exact hreach
            · exact ih1 x hx
          · simp only [List.length_cons, List.length_append] at ih2 ⊢
            by_cases hcV : cur ∈ V
            · have hPnil : P = [] := by
                cases P with
                | nil => rfl
                | cons y P1 =>
                  exfalso
                  have hy := (hP2 y).mp (List.mem_cons_self _ _)
                  simp only [setInsert, hcV, if_true] at hy
                  rcases inv.above [] cur rest rfl hcV y hy.1 with h1 | h1
                  · exact hy.2 h1
                  · simp at h1
              subst hPnil
              have hV1 : setInsert cur V = V := by simp [setInsert, hcV]
              have hset : (cur :: pops1).toFinset \ V.toFinset
                  = pops1.toFinset \ V.toFinset := by
                ext x
                simp only [List.toFinset_cons, Finset.mem_sdiff, Finset.mem_insert,
                  List.mem_toFinset]
                constructor
                · rintro ⟨h1 | h1, h2⟩
                  · exact absurd (h1 ▸ hcV) h2
                  · exact ⟨h1, h2⟩
                · rintro ⟨h1, h2⟩; exact ⟨Or.inr h1, h2⟩
              rw [hset]
              rw [hV1] at ih2
              simp only [List.length_nil] at ih2
              omega
            · have hV1 : setInsert cur V = cur :: V := by simp [setInsert, hcV]
              have hset : (cur :: pops1).toFinset \ V.toFinset
                  = insert cur (pops1.toFinset \ (cur :: V).toFinset) := by
                ext x
                simp only [List.toFinset_cons, Finset.mem_sdiff, Finset.mem_insert,
                  List.mem_toFinset]
                constructor
                · rintro ⟨h1 | h1, h2⟩
                  · exact Or.inl h1
                  · by_cases hx : x = cur
                    · exact Or.inl hx
                    · exact Or.inr ⟨h1, fun h3 => h3.elim hx h2⟩
                · rintro (h1 | ⟨h1, h2⟩)
                  · exact ⟨Or.inl h1, h1 ▸ hcV⟩
                  · exact ⟨Or.inr h1, fun h3 => h2 (Or.inr h3)⟩
              have hnot : cur ∉ pops1.toFinset \ (cur :: V).toFinset := by
                simp
              rw [hset, Finset.sum_insert hnot]
              rw [hV1] at ih2
              omega

theorem reach_sheetTriangle (x : Position)
    (h : Relation.ReflTransGen (inEdge Demo.sheetTriangle) Demo.A1 x) :
    x ∈ [Demo.A1, Demo.B1, Demo.C1] := by
  induction h with
  | refl => simp
  | @tail b c _ hbc ih =>
    have hc : c ∈ Demo.sheetTriangle.in_refs b := hbc
    simp only [List.mem_cons, List.mem_singleton, List.not_mem_nil, or_false] at ih
    rcases ih with h | h | h
    · subst h
      have : c ∈ [Demo.C1, Demo.B1] := hc
      simp only [List.mem_cons, List.mem_singleton, List.not_mem_nil, or_false] at this
      rcases this with h | h <;> simp [h]
    · subst h
      have : c ∈ [Demo.C1] := hc
      simp only [List.mem_singleton] at this
      simp [this]
    · subst h
      have : c ∈ ([] : List Position) := hc
      simp at this

/-- C19, as stated, fails: on the sheet after `SetCell(B1, "=A1")` and
`SetCell(C1, "=A1+B1")` the cycle check that `SetCell(A1, "1")` runs for `A1`
takes `A1`, `B1`, `C1` and `C1` again from the stack: `C1` is examined twice,
and the loop makes four iterations although only three cells are reachable
from `A1` along in-edges. -/
theorem C19_cell_popped_twice :
    run Demo.env [Op.SetCell Demo.B1 "=A1", Op.SetCell Demo.C1 "=A1+B1"]
      = some Demo.sheetTriangle ∧
    Cell.makeImpl Demo.env "1" = some (.TextImpl "1") ∧
    Cell.CheckCircularDependencyTrace Demo.sheetTriangle Demo.A1 (.TextImpl "1")
      = some (false, [Demo.A1, Demo.B1, Demo.C1, Demo.C1]) ∧
    ¬ [Demo.A1, Demo.B1, Demo.C1, Demo.C1].Nodup ∧
    (∀ l : List Position,
      (∀ x ∈ l, Relation.ReflTransGen (inEdge Demo.sheetTriangle) Demo.A1 x) → l.Nodup →
        l.length < [Demo.A1, Demo.B1, Demo.C1, Demo.C1].length) := by
  refine ⟨rfl, rfl, rfl, by decide, ?_⟩
  intro l hl hn
  have hsub : l ⊆ [Demo.A1, Demo.B1, Demo.C1] := fun x hx => reach_sheetTriangle x (hl x hx)
  have := (List.Nodup.subperm hn hsub).length_le
  simp only [List.length_cons, List.length_nil] at this ⊢
  omega

/-- C19, amended: the cycle check returns; every cell it takes from the stack is
reachable from `this` along in-edges; and the number of its iterations is at
most one plus the sum, over the distinct cells taken from the stack, of the
sizes of their in-sets. The record of the iterations does not change the
result. -/
theorem C19_iterations_bounded_by_in_edges (s : Sheet D) (this : Position) (impl : Impl D) :
    ∃ b pops, Cell.CheckCircularDependencyTrace s this impl = some (b, pops) ∧
      Cell.CheckCircularDependencyToArise s this impl = some b ∧
      (∀ x ∈ pops, Relation.ReflTransGen (inEdge s) this x) ∧
      pops.length ≤ 1 + ∑ x in pops.toFinset, (s.in_refs x).length := by
  obtain ⟨b, hb, _⟩ := check_spec s this impl
  have hmap := check_eq_trace s this impl
  rw [hb] at hmap
  cases htr : Cell.CheckCircularDependencyTrace s this impl with
  | none => rw [htr] at hmap; simp at hmap
  | some r =>
    obtain ⟨b1, pops⟩ := r
    rw [htr] at hmap
    simp only [Option.map_some', Option.some.injEq] at hmap
    subst hmap
    have inv : DfsInv s (targets s impl) this [] [this] := by
      refine ⟨?_, ?_, ?_, ?_, ?_⟩
      · intro x hx
        rcases hx with hx | hx
        · simp at hx
        · have : x = this := by simpa using hx
          subst this; exact Relation.ReflTransGen.refl
      · intro x hx; simp at hx
      · right; simp
      · intro x hx; simp at hx
      · intro pre x post _ hx; simp at hx
    obtain ⟨h1, h2⟩ := dfsTrace_bound s (targets s impl) this (dfsFuel s) [] [this] inv b pops htr
    refine ⟨b, pops, rfl, hb, h1, ?_⟩
    simpa using h2

end Spreadsheet
